import Mathlib

/-!
Verification of the taxi-demo core (`src/pathfinding.ts`, `src/simulation.ts`).

The TypeScript sources are shallowly embedded: positions are integer pairs,
the city grid is a list of rows, JavaScript numbers appearing in the
algorithms are modelled by `JsNum` (an exact rational together with the IEEE
special values `Infinity`, `-Infinity` and `NaN`; all finite arithmetic these
algorithms perform stays on integers far below 2^53, where double arithmetic
is exact).  Imperative loops become fuelled recursions, and every use of fuel
is either proved sufficient or made observable through an `Option` result.
-/

namespace TaxiDemo

/-- Grid coordinates, `interface Position` of `types.ts` as used by the core. -/
structure Position where
  x : Int
  y : Int
deriving DecidableEq, Repr

/-- Cell kinds of the generated city. -/
inductive Cell where
  | road
  | building
  | emptyCell
deriving DecidableEq, Repr

/-- The city: a width×height grid of cells, `grid[y][x]` as in the source. -/
structure City where
  width : Nat
  height : Nat
  grid : List (List Cell)
deriving DecidableEq, Repr

/-- `grid[y][x]`, defined only on in-bounds nonnegative coordinates. -/
def City.cellAt (city : City) (p : Position) : Option Cell :=
  (city.grid.get? p.y.toNat).bind fun row => row.get? p.x.toNat

/-- The bounds-and-road test performed on every neighbour in `findPath`:
`0 ≤ x < width`, `0 ≤ y < height` and `city.grid[y][x] === 'road'`. -/
def isRoadCell (city : City) (p : Position) : Bool :=
  decide (0 ≤ p.x) && decide (p.x < city.width) &&
  decide (0 ≤ p.y) && decide (p.y < city.height) &&
  (city.cellAt p == some Cell.road)

/-- `heuristic` of `pathfinding.ts`: Manhattan distance. -/
def heuristic (a b : Position) : Nat :=
  (a.x - b.x).natAbs + (a.y - b.y).natAbs

/-- A node of the A* search: position, `g`, `h`, `f`, and the parent link. -/
inductive Node where
  | root (pos : Position) (g h f : Nat)
  | child (pos : Position) (g h f : Nat) (parent : Node)
deriving DecidableEq, Repr

namespace Node

def pos : Node → Position
  | .root p _ _ _ => p
  | .child p _ _ _ _ => p

def g : Node → Nat
  | .root _ g _ _ => g
  | .child _ g _ _ _ => g

def h : Node → Nat
  | .root _ _ h _ => h
  | .child _ _ h _ _ => h

def f : Node → Nat
  | .root _ _ _ f => f
  | .child _ _ _ f _ => f

/-- The position list reconstructed from the parent chain (start … this node),
exactly what the `while (node) path.unshift(...)` loop of `findPath` builds. -/
def chain : Node → List Position
  | .root p _ _ _ => [p]
  | .child p _ _ _ parent => parent.chain ++ [p]

end Node

/-- The four neighbour positions, in source order: up, down, left, right. -/
def neighborsOf (p : Position) : List Position :=
  [⟨p.x, p.y - 1⟩, ⟨p.x, p.y + 1⟩, ⟨p.x - 1, p.y⟩, ⟨p.x + 1, p.y⟩]

/-- Replace the first node at position `p` (the in-place mutation of the
`existing` node found by `openSet.find`). -/
def updateFirst (p : Position) (upd : Node → Node) : List Node → List Node
  | [] => []
  | n :: ns => if n.pos = p then upd n :: ns else n :: updateFirst p upd ns

/-- Insert a node into a list sorted by `f`, after all entries with `f` at
most its own (the placement a stable sort gives a later-arriving entry). -/
def insertByF (x : Node) : List Node → List Node
  | [] => [x]
  | m :: ms => if m.f ≤ x.f then m :: insertByF x ms else x :: m :: ms

/-- `openSet.sort((a, b) => a.f - b.f)`: JavaScript's sort is stable, and a
stable sort's output is uniquely determined, so left-to-right insertion
after equal keys reproduces it. -/
def sortByF (l : List Node) : List Node :=
  l.foldl (fun acc n => insertByF n acc) []

/-- Process one neighbour of the current node: bounds/road check, closed-set
check, then relax (update a cheaper `existing` entry or push a new node). -/
def relaxNeighbor (city : City) (endp : Position) (cur : Node)
    (closed : List Position) (os : List Node) (np : Position) : List Node :=
  if isRoadCell city np = false then os
  else if np ∈ closed then os
  else
    let g := cur.g + 1
    let h := heuristic np endp
    let f := g + h
    match os.find? (fun n => n.pos = np) with
    | some existing =>
        if g < existing.g then
          updateFirst np (fun n => Node.child n.pos g n.h f cur) os
        else os
    | none => os ++ [Node.child np g h f cur]

/-- The `while (openSet.length > 0)` loop of `findPath`, fuelled.  Each
iteration sorts the open set by `f` (JavaScript's stable sort), pops the head,
tests for the goal, closes the position and relaxes the four neighbours.
`none` is returned only on fuel exhaustion, and fuel is proved sufficient. -/
def aloop (city : City) (endp : Position) :
    Nat → List Node → List Position → Option (List Position)
  | 0, _, _ => none
  | fuel + 1, openSet, closed =>
    match sortByF openSet with
    | [] => some []
    | cur :: rest =>
      if cur.pos = endp then
        some (cur.chain.drop 1)
      else
        let closed' := cur.pos :: closed
        let open' := (neighborsOf cur.pos).foldl (relaxNeighbor city endp cur closed') rest
        aloop city endp fuel open' closed'

/-- `findPath` of `pathfinding.ts`. -/
def findPath (city : City) (s e : Position) : List Position :=
  if s = e then [e]
  else
    let h0 := heuristic s e
    match aloop city e (city.width * city.height + 2) [Node.root s 0 h0 h0] [] with
    | some ps => ps
    | none => []

/-- JavaScript numbers as they occur in the assignment engine: an exact
finite value or one of the IEEE special values.  The finite arithmetic the
engine performs stays on integers of small magnitude, where doubles are
exact. -/
inductive JsNum where
  | num (q : ℚ)
  | posInf
  | negInf
  | nan
deriving DecidableEq, Repr

namespace JsNum

/-- IEEE addition on the embedded values. -/
def add : JsNum → JsNum → JsNum
  | num a, num b => num (a + b)
  | num _, posInf => posInf
  | num _, negInf => negInf
  | posInf, num _ => posInf
  | negInf, num _ => negInf
  | posInf, posInf => posInf
  | negInf, negInf => negInf
  | posInf, negInf => nan
  | negInf, posInf => nan
  | nan, _ => nan
  | _, nan => nan

/-- IEEE subtraction. -/
def sub : JsNum → JsNum → JsNum
  | num a, num b => num (a - b)
  | num _, posInf => negInf
  | num _, negInf => posInf
  | posInf, num _ => posInf
  | negInf, num _ => negInf
  | posInf, posInf => nan
  | negInf, negInf => nan
  | posInf, negInf => posInf
  | negInf, posInf => negInf
  | nan, _ => nan
  | _, nan => nan

/-- IEEE `<` (false whenever `NaN` is involved). -/
def lt : JsNum → JsNum → Bool
  | num a, num b => decide (a < b)
  | num _, posInf => true
  | num _, negInf => false
  | posInf, _ => false
  | negInf, num _ => true
  | negInf, posInf => true
  | negInf, negInf => false
  | nan, _ => false
  | _, nan => false

end JsNum

/-- `pathDistance` of `pathfinding.ts`: the path length, with `Infinity` as
the unreachable sentinel (note that an empty path also maps to the sentinel). -/
def pathDistance (city : City) (s e : Position) : JsNum :=
  let p := findPath city s e
  if 0 < p.length then JsNum.num p.length else JsNum.posInf

/-! ## Simulation data model (`types.ts` as used by `simulation.ts`) -/

/-- A passenger record. -/
structure Passenger where
  id : String
  pickup : Position
  destination : Position
  spawnTick : Nat
  pickedUpTick : Option Nat := none
  deliveredTick : Option Nat := none
  assignedTaxiId : Option String := none
deriving DecidableEq, Repr

/-- The vehicle state tag. -/
inductive TaxiState where
  | idle
  | pickingUp
  | delivering
deriving DecidableEq, Repr

/-- A taxi record. -/
structure Taxi where
  id : String
  position : Position
  targetPosition : Option Position := none
  path : List Position := []
  currentPassenger : Option Passenger := none
  state : TaxiState := TaxiState.idle
  totalDeliveries : Nat := 0
  totalDistance : Nat := 0
deriving DecidableEq, Repr

/-- The authoritative simulation state. -/
structure SimulationState where
  city : City
  taxis : List Taxi
  waitingPassengers : List Passenger
  activePassengers : List Passenger
  completedPassengers : List Passenger
  tick : Nat
deriving DecidableEq, Repr

instance : Inhabited Position := ⟨⟨0, 0⟩⟩

instance : Inhabited Passenger := ⟨⟨"", default, default, 0, none, none, none⟩⟩

instance : Inhabited Taxi := ⟨⟨"", default, none, [], none, TaxiState.idle, 0, 0⟩⟩

/-! ## Greedy assignment (`assignGreedy`) -/

/-- The inner scan of `assignGreedy`: the idle taxi of minimum `pathDistance`
to the pickup (strict `<` against a `closestDistance` starting at
`Infinity`), ties broken by first occurrence. -/
def findClosest (city : City) (pickup : Position) (idle : List Taxi) :
    Option Taxi × JsNum :=
  idle.foldl
    (fun acc t =>
      if (pathDistance city t.position pickup).lt acc.2 then
        (some t, pathDistance city t.position pickup)
      else acc)
    (none, JsNum.posInf)

/-- The pairing sequence produced by the `assignGreedy` loop: passengers in
queue order, each matched to the closest still-unclaimed idle taxi, the
chosen taxi removed from the candidate list; a passenger with no chosen taxi
(all distances `Infinity`) is skipped without consuming a taxi. -/
def greedyAssignments (city : City) :
    List Passenger → List Taxi → List (Taxi × Passenger × JsNum)
  | [], _ => []
  | p :: ps, idle =>
    if idle.isEmpty then []
    else
      match findClosest city p.pickup idle with
      | (some t, d) => (t, p, d) :: greedyAssignments city ps (idle.erase t)
      | (none, _) => greedyAssignments city ps idle

/-- The commit performed for a chosen pairing, shared by `assignGreedy` and
`assignOptimized`: mark the passenger assigned, switch the taxi to
`picking_up`, attach the passenger, set the target and compute the path. -/
def commitPairing (city : City) (s : SimulationState) (t : Taxi) (p : Passenger) :
    SimulationState :=
  let p' := { p with assignedTaxiId := some t.id }
  { s with
    waitingPassengers :=
      s.waitingPassengers.map fun q =>
        if q.id = p.id then { q with assignedTaxiId := some t.id } else q
    taxis :=
      s.taxis.map fun u =>
        if u.id = t.id then
          { u with
            state := TaxiState.pickingUp
            currentPassenger := some p'
            targetPosition := some p.pickup
            path := findPath city t.position p.pickup }
        else u }

/-- The pairings `assignGreedy` applies on a given state: passengers from
the unassigned-waiting snapshot, taxis from the idle snapshot. -/
def greedyPairings (s : SimulationState) : List (Taxi × Passenger × JsNum) :=
  greedyAssignments s.city
    (s.waitingPassengers.filter fun p => p.assignedTaxiId == none)
    (s.taxis.filter fun t => t.state == TaxiState.idle)

/-- `assignGreedy` of `simulation.ts` (the state after the in-place
mutations). -/
def assignGreedy (s : SimulationState) : SimulationState :=
  (greedyPairings s).foldl (fun st pr => commitPairing st.city st pr.1 pr.2.1) s

/-! ## Hungarian algorithm and the optimal strategy -/

/-- One scan of the inner `for (j = 1; j <= n; j++)` loop of
`hungarianAlgorithm`: relax `minv`/`way` over unused columns and find the
minimum `delta` with its column `j1`. -/
def hungarianScan (matrix : List (List JsNum)) (n : Nat) (i0 j0 : Nat)
    (u v : List JsNum) (used : List Bool) (minv : List JsNum) (way : List Nat) :
    List JsNum × List Nat × JsNum × Nat :=
  (List.range n).foldl
    (fun acc jm =>
      let j := jm + 1
      let (mv, wy, delta, j1) := acc
      if used.getD j false then (mv, wy, delta, j1)
      else
        let cost :=
          if 0 < i0 then (matrix.getD (i0 - 1) []).getD (j - 1) (JsNum.num 0)
          else JsNum.num 0
        let cur := (cost.sub (u.getD i0 (JsNum.num 0))).sub (v.getD j (JsNum.num 0))
        let doUpd := cur.lt (mv.getD j (JsNum.num 0))
        let mv' := if doUpd then mv.set j cur else mv
        let wy' := if doUpd then wy.set j j0 else wy
        let doSel := (mv'.getD j (JsNum.num 0)).lt delta
        let delta' := if doSel then mv'.getD j (JsNum.num 0) else delta
        let j1' := if doSel then j else j1
        (mv', wy', delta', j1'))
    (minv, way, JsNum.posInf, 0)

/-- The potential update after a scan: for used columns `u[p[j]] += delta`
and `v[j] -= delta`, for unused columns `minv[j] -= delta`
(`for (j = 0; j <= n; j++)`). -/
def hungarianApplyDelta (n : Nat) (delta : JsNum) (p : List Nat)
    (u v minv : List JsNum) (used : List Bool) :
    List JsNum × List JsNum × List JsNum :=
  (List.range (n + 1)).foldl
    (fun acc j =>
      let (u, v, mv) := acc
      if used.getD j false then
        let pj := p.getD j 0
        (u.set pj ((u.getD pj (JsNum.num 0)).add delta),
         v.set j ((v.getD j (JsNum.num 0)).sub delta), mv)
      else (u, v, mv.set j ((mv.getD j (JsNum.num 0)).sub delta)))
    (u, v, minv)

/-- The inner `do … while (p[j0] !== 0)` loop, fuelled; `none` marks fuel
exhaustion, which corresponds to the source looping forever (a properly
selected `j1` is always a fresh unused column, so a terminating source run
performs at most `n + 1` iterations). -/
def hungarianInner (matrix : List (List JsNum)) (n : Nat) :
    Nat → Nat → List JsNum → List JsNum → List Nat → List Nat →
    List Bool → List JsNum → Option (Nat × List JsNum × List JsNum × List Nat)
  | 0, _, _, _, _, _, _, _ => none
  | fuel + 1, j0, u, v, p, way, used, minv =>
    let used' := used.set j0 true
    let i0 := p.getD j0 0
    let (minv', way', delta, j1) := hungarianScan matrix n i0 j0 u v used' minv way
    let (u', v', minv'') := hungarianApplyDelta n delta p u v minv' used'
    if p.getD j1 0 = 0 then some (j1, u', v', way')
    else hungarianInner matrix n fuel j1 u' v' p way' used' minv''

/-- The augmenting `do { j1 = way[j0]; p[j0] = p[j1]; j0 = j1 } while (j0)`
loop, fuelled. -/
def hungarianAugment (way : List Nat) : Nat → Nat → List Nat → Option (List Nat)
  | 0, _, _ => none
  | fuel + 1, j0, p =>
    let j1 := way.getD j0 0
    let p' := p.set j0 (p.getD j1 0)
    if j1 = 0 then some p' else hungarianAugment way fuel j1 p'

/-- One iteration of the outer `for (i = 1; i <= n; i++)` loop: seed `p[0] = i`,
run the fuelled Dijkstra phase, then augment along `way`. -/
def hungarianRow (matrix : List (List JsNum)) (n : Nat)
    (st : List JsNum × List JsNum × List Nat × List Nat) (i : Nat) :
    Option (List JsNum × List JsNum × List Nat × List Nat) :=
  let (u, v, p, way) := st
  let p0 := p.set 0 i
  let minv0 := List.replicate (n + 1) JsNum.posInf
  let used0 := List.replicate (n + 1) false
  match hungarianInner matrix n (n + 2) 0 u v p0 way used0 minv0 with
  | none => none
  | some (j0, u', v', way') =>
    match hungarianAugment way' (n + 2) j0 p0 with
    | none => none
    | some p' => some (u', v', p', way')

/-- One step of the final `for (let j = 1; j <= n; j++)` result-extraction
loop of `hungarianAlgorithm`: `if (p[j] > 0) result[p[j] - 1] = j - 1`. -/
def hungarianExtractStep (p : List Nat) (result : List Int) (jm : Nat) : List Int :=
  if 0 < p.getD (jm + 1) 0 then
    result.set (p.getD (jm + 1) 0 - 1) ((jm : Int) + 1 - 1)
  else result

/-- `hungarianAlgorithm` of `simulation.ts`; `none` marks a run in which the
source would not terminate. -/
def hungarianAlgorithm (matrix : List (List JsNum)) : Option (List Int) :=
  let n := matrix.length
  if n = 0 then some []
  else
    match (List.range n).foldl
        (fun acc im => acc.bind fun st => hungarianRow matrix n st (im + 1))
        (some (List.replicate (n + 1) (JsNum.num 0),
               List.replicate (n + 1) (JsNum.num 0),
               List.replicate (n + 1) 0, List.replicate (n + 1) 0)) with
    | none => none
    | some (_, _, p, _) =>
      some ((List.range n).foldl (hungarianExtractStep p)
        (List.replicate n (-1 : Int)))

/-- `defaultOptimizer` of `simulation.ts`: the emitted
(taxi id, passenger id) pairings; `none` marks a run in which the source's
`hungarianAlgorithm` would not terminate. -/
def defaultOptimizer (s : SimulationState) (queueSize : Nat) :
    Option (List (String × String)) :=
  let idle := s.taxis.filter fun t => t.state == TaxiState.idle
  let unassigned := s.waitingPassengers.filter fun p => p.assignedTaxiId == none
  if idle.isEmpty || unassigned.length < queueSize then some []
  else
    let n := min idle.length unassigned.length
    let matrix := (List.range n).map fun i =>
      (List.range n).map fun j =>
        if i < idle.length ∧ j < unassigned.length then
          pathDistance s.city (idle.getD i default).position
            (unassigned.getD j default).pickup
        else JsNum.num 0
    (hungarianAlgorithm matrix).map fun assignments =>
      (List.range assignments.length).filterMap fun i =>
        if decide (0 ≤ assignments.getD i (-1)) && decide (i < idle.length) &&
            decide (assignments.getD i (-1) < (unassigned.length : Int)) then
          some ((idle.getD i default).id,
                (unassigned.getD (assignments.getD i (-1)).toNat default).id)
        else none

/-- `assignOptimized` of `simulation.ts`: ask the optimizer for pairings and
commit each one after re-validating idle/unassigned status. -/
def assignOptimized (s : SimulationState) (queueSize : Nat)
    (optimizer : SimulationState → Nat → Option (List (String × String))) :
    Option SimulationState :=
  (optimizer s queueSize).map fun assignments =>
    assignments.foldl
      (fun st pr =>
        match st.taxis.find? (fun t => t.id == pr.1),
              st.waitingPassengers.find? (fun p => p.id == pr.2) with
        | some t, some p =>
          if t.state = TaxiState.idle ∧ p.assignedTaxiId = none then
            commitPairing st.city st t p
          else st
        | _, _ => st)
      s

/-! ## The tick state machine (`tickSimulation`) -/

/-- Advance one taxi within a tick, threading the three passenger
collections exactly as the in-place mutations of the source do. -/
def tickTaxi (city : City) (tick : Nat) (t : Taxi)
    (w a c : List Passenger) :
    Taxi × List Passenger × List Passenger × List Passenger :=
  match t.path with
  | [] => (t, w, a, c)
  | next :: rest =>
    let t1 := { t with position := next, path := rest,
                       totalDistance := t.totalDistance + 1 }
    match rest, t1.currentPassenger with
    | [], some pa =>
      match t1.state with
      | TaxiState.pickingUp =>
        let pa' := { pa with pickedUpTick := some tick }
        let t2 := { t1 with
          currentPassenger := some pa'
          state := TaxiState.delivering
          targetPosition := some pa'.destination
          path := findPath city next pa'.destination }
        if w.any (fun q => q.id == pa'.id) then
          (t2, w.eraseP (fun q => q.id == pa'.id), a ++ [pa'], c)
        else (t2, w, a, c)
      | TaxiState.delivering =>
        let pa' := { pa with deliveredTick := some tick }
        let t2 := { t1 with
          totalDeliveries := t1.totalDeliveries + 1
          currentPassenger := none
          targetPosition := none
          state := TaxiState.idle }
        if a.any (fun q => q.id == pa'.id) then
          (t2, w, a.eraseP (fun q => q.id == pa'.id), c ++ [pa'])
        else (t2, w, a, c)
      | TaxiState.idle => (t1, w, a, c)
    | _, _ => (t1, w, a, c)

/-- One step of the `for (const taxi of state.taxis)` loop: process the next
taxi against the threaded passenger collections. -/
def tickStep (city : City) (tick : Nat)
    (acc : List Taxi × List Passenger × List Passenger × List Passenger)
    (t : Taxi) : List Taxi × List Passenger × List Passenger × List Passenger :=
  let r := tickTaxi city tick t acc.2.1 acc.2.2.1 acc.2.2.2
  (acc.1 ++ [r.1], r.2.1, r.2.2.1, r.2.2.2)

/-- `tickSimulation` of `simulation.ts`: advance every vehicle in roster
order, then increment the tick counter. -/
def tickSimulation (s : SimulationState) : SimulationState :=
  let res := s.taxis.foldl (tickStep s.city s.tick)
    ([], s.waitingPassengers, s.activePassengers, s.completedPassengers)
  { s with
    taxis := res.1
    waitingPassengers := res.2.1
    activePassengers := res.2.2.1
    completedPassengers := res.2.2.2
    tick := s.tick + 1 }

/-! ## Metrics (`calculateMetrics`) -/

/-- The metrics record; averages are exact rationals. -/
structure Metrics where
  avgWaitTime : ℚ
  avgTripTime : ℚ
  totalPassengersServed : Nat
  totalPassengersWaiting : Nat
  avgTaxiUtilization : ℚ
deriving DecidableEq, Repr

/-- `calculateMetrics` of `simulation.ts`. -/
def calculateMetrics (s : SimulationState) : Metrics :=
  let totalWaitCompleted : Int := s.completedPassengers.foldl
    (fun acc p => match p.pickedUpTick with
      | some pk => acc + ((pk : Int) - (p.spawnTick : Int))
      | none => acc) 0
  let totalTripTime : Int := s.completedPassengers.foldl
    (fun acc p => match p.deliveredTick, p.pickedUpTick with
      | some dv, some pk => acc + ((dv : Int) - (pk : Int))
      | _, _ => acc) 0
  let totalWaitTime : Int := s.waitingPassengers.foldl
    (fun acc p => acc + ((s.tick : Int) - (p.spawnTick : Int))) totalWaitCompleted
  let waitingCount := s.waitingPassengers.length
  let servedCount := s.completedPassengers.length
  let totalWaiting := waitingCount + servedCount
  let busyTaxis := (s.taxis.filter fun t => !(t.state == TaxiState.idle)).length
  { avgWaitTime := if 0 < totalWaiting then (totalWaitTime : ℚ) / totalWaiting else 0
    avgTripTime := if 0 < servedCount then (totalTripTime : ℚ) / servedCount else 0
    totalPassengersServed := servedCount
    totalPassengersWaiting := waitingCount
    avgTaxiUtilization :=
      if 0 < s.taxis.length then (busyTaxis : ℚ) / s.taxis.length else 0 }

/-! ## IEEE double rounding and the seeded PRNG (`seededRandom`)

The PRNG state update `seed = (seed * 1103515245 + 12345) & 0x7fffffff`
multiplies past 2^53, where float64 rounding is observable, so the rounding
is modelled explicitly: `flq` rounds an exact rational to the nearest
53-bit-significand value (round-to-nearest, ties-to-even), which is exact
IEEE double behaviour throughout the normal range the PRNG touches. -/

/-- Round a rational to the nearest integer, ties to even. -/
def roundNearestEven (x : ℚ) : ℤ :=
  if x - ⌊x⌋ < 1 / 2 then ⌊x⌋
  else if 1 / 2 < x - ⌊x⌋ then ⌊x⌋ + 1
  else if Even ⌊x⌋ then ⌊x⌋ else ⌊x⌋ + 1

/-- float64 rounding of a nonnegative rational. -/
def flqPos (q : ℚ) : ℚ :=
  if q ≤ 0 then 0
  else (roundNearestEven (q * 2 ^ (52 - Int.log 2 q)) : ℚ) *
    2 ^ (Int.log 2 q - 52)

/-- float64 rounding of a rational (sign-magnitude, as IEEE). -/
def flq (q : ℚ) : ℚ := if q < 0 then -flqPos (-q) else flqPos q

/-- Truncation toward zero, as JavaScript's `ToInt32` first step. -/
def qtrunc (q : ℚ) : ℤ := if 0 ≤ q then ⌊q⌋ else -⌊-q⌋

/-- One state update of `seededRandom`:
`seed = (seed * 1103515245 + 12345) & 0x7fffffff` with both arithmetic
operations rounded to double and the bit-mask acting on the `ToInt32`
image (the low 31 bits, i.e. the value mod 2^31). -/
def seededRandomNext (s : ℤ) : ℤ :=
  qtrunc (flq (flq ((s : ℚ) * 1103515245) + 12345)) % (2 ^ 31)

/-- The value `seed / 0x7fffffff` returned after an update, as a double. -/
def seededRandomValue (s : ℤ) : ℚ := flq ((s : ℚ) / (2 ^ 31 - 1))

/-- The PRNG state after `k` calls from an initial seed. -/
def seededRandomState (seed : ℤ) : Nat → ℤ
  | 0 => seed
  | k + 1 => seededRandomNext (seededRandomState seed k)

/-- A `() => number` closure of `seededRandom`, as explicit state. -/
structure Rng where
  state : ℤ
deriving DecidableEq, Repr

/-- One call of the closure: update the captured seed, return the value. -/
def Rng.next (r : Rng) : ℚ × Rng :=
  (seededRandomValue (seededRandomNext r.state), ⟨seededRandomNext r.state⟩)

/-! ## Passenger spawning (`spawnPassengers` and its spec-modelled callees) -/

/-- Modelled from the spec: `cityGenerator.ts` is not among the sources.
Spec 3 and the glossary define pickup spots as the road cells adjacent to at
least one building cell; collected in row-major scan order. -/
def pickupSpots (city : City) : List Position :=
  ((List.range city.height).map fun y =>
    (List.range city.width).filterMap fun x =>
      if isRoadCell city ⟨x, y⟩ &&
          (neighborsOf ⟨x, y⟩).any (fun p => city.cellAt p == some Cell.building)
      then some ⟨(x : Int), (y : Int)⟩ else none).join

/-- Modelled from the spec: `getRandomPickupSpot(city, random)` of the
missing `cityGenerator.ts` picks a uniformly pseudo-random pickup spot,
i.e. the spot at index `Math.floor(random() * spots.length)`. -/
def getRandomPickupSpot (city : City) (q : ℚ) : Position :=
  (pickupSpots city).getD
    (Int.floor (flq (q * ((pickupSpots city).length : ℚ)))).toNat default

/-- Modelled from the spec: `getRandomDifferentPickupSpot` of the missing
`cityGenerator.ts` draws pickup spots until one differs from the given one
(spec 3: the destination must be a different pickup spot); fuelled. -/
def getRandomDifferentPickupSpot (city : City) (pickup : Position) :
    Nat → Rng → Position × Rng
  | 0, r => (getRandomPickupSpot city (r.next).1, (r.next).2)
  | fuel + 1, r =>
    if getRandomPickupSpot city (r.next).1 = pickup then
      getRandomDifferentPickupSpot city pickup fuel (r.next).2
    else (getRandomPickupSpot city (r.next).1, (r.next).2)

/-- `spawnPassengers` of `simulation.ts`, with the module-level mutable
`passengerIdCounter` made explicit: the new passenger's id is
`passenger-<counter>` and the counter is returned incremented.  The two
pickup-spot callees are spec-modelled (see above). -/
def spawnPassengers (city : City) (tick : Nat) (counter : Nat) (r : Rng) :
    Passenger × Nat × Rng :=
  ({ id := "passenger-" ++ toString counter
     pickup := getRandomPickupSpot city (r.next).1
     destination := (getRandomDifferentPickupSpot city
       (getRandomPickupSpot city (r.next).1) 1000 (r.next).2).1
     spawnTick := tick },
   counter + 1,
   (getRandomDifferentPickupSpot city
     (getRandomPickupSpot city (r.next).1) 1000 (r.next).2).2)

/-! ## A host-driven run (the driver of `App.tsx`) -/

/-- The operations a host performs on the process state. -/
inductive HostOp where
  | spawn
  | greedy
  | optimized (q : Nat)
  | tick
deriving DecidableEq, Repr

/-- Whole-process state: the simulation, the host's PRNG closure and the
module-level `passengerIdCounter` of `simulation.ts`. -/
structure ProcState where
  sim : SimulationState
  rng : Rng
  counter : Nat
deriving DecidableEq, Repr

/-- Apply one host operation.  A diverging `defaultOptimizer` run is
modelled as leaving the state unchanged (`Option.getD`). -/
def applyOp (op : HostOp) (ps : ProcState) : ProcState :=
  match op with
  | HostOp.spawn =>
    { sim := { ps.sim with waitingPassengers := ps.sim.waitingPassengers ++
        [(spawnPassengers ps.sim.city ps.sim.tick ps.counter ps.rng).1] }
      rng := (spawnPassengers ps.sim.city ps.sim.tick ps.counter ps.rng).2.2
      counter := (spawnPassengers ps.sim.city ps.sim.tick ps.counter ps.rng).2.1 }
  | HostOp.greedy => { ps with sim := assignGreedy ps.sim }
  | HostOp.optimized q =>
    { ps with sim := (assignOptimized ps.sim q defaultOptimizer).getD ps.sim }
  | HostOp.tick => { ps with sim := tickSimulation ps.sim }

/-- The trace of process states along a host script. -/
def runTrace : List HostOp → ProcState → List ProcState
  | [], ps => [ps]
  | op :: ops, ps => ps :: runTrace ops (applyOp op ps)

/-! ## Spec-side definitions and concrete example data -/

/-- The taxi part of `tickTaxi` alone: the source's per-taxi mutations do not
read the passenger collections, so the updated taxi is a function of the taxi
itself. -/
def tickTaxiOnly (city : City) (tick : Nat) (t : Taxi) : Taxi :=
  (tickTaxi city tick t [] [] []).1

/-- The wait-time total exactly as the claim words it: (pickup − spawn)
summed over completed passengers plus (current tick − spawn) summed over
waiting passengers. -/
def specWaitSum (s : SimulationState) : ℤ :=
  (s.completedPassengers.map fun p =>
    ((p.pickedUpTick.getD 0 : ℤ) - (p.spawnTick : ℤ))).sum +
  (s.waitingPassengers.map fun p => ((s.tick : ℤ) - (p.spawnTick : ℤ))).sum

/-- A 1×3 all-road city used for concrete witnesses. -/
def exCity : City := ⟨3, 1, [[Cell.road, Cell.road, Cell.road]]⟩

/-- A passenger waiting at (2,0). -/
def exPassenger : Passenger :=
  { id := "passenger-0", pickup := ⟨2, 0⟩, destination := ⟨0, 0⟩, spawnTick := 0 }

/-- A taxi at (0,0) with a two-step planned path, heading to a pickup. -/
def exMovingTaxi : Taxi :=
  { id := "taxi-0", position := ⟨0, 0⟩, path := [⟨1, 0⟩, ⟨2, 0⟩],
    state := TaxiState.pickingUp, currentPassenger := some exPassenger,
    targetPosition := some ⟨2, 0⟩ }

/-- A concrete mid-simulation state with one moving taxi. -/
def exMovingState : SimulationState :=
  { city := exCity, taxis := [exMovingTaxi], waitingPassengers := [exPassenger],
    activePassengers := [], completedPassengers := [], tick := 5 }

/-- An idle taxi at (0,0). -/
def exTaxiA : Taxi := { id := "taxi-0", position := ⟨0, 0⟩ }

/-- An idle taxi at (2,0), right on the passenger's pickup cell. -/
def exTaxiB : Taxi := { id := "taxi-1", position := ⟨2, 0⟩ }

/-- A snapshot with two idle taxis and one unassigned waiting passenger:
here the optimizer's cost matrix is 1×1 and covers only the first idle
taxi, `taxi-0`. -/
def exSnapshot : SimulationState :=
  { city := exCity, taxis := [exTaxiA, exTaxiB], waitingPassengers := [exPassenger],
    activePassengers := [], completedPassengers := [], tick := 0 }

/-- A 3×3 city: a road ring around one building, so every road cell is a
pickup spot. -/
def exCityB : City :=
  ⟨3, 3,
   [[Cell.road, Cell.road, Cell.road],
    [Cell.road, Cell.building, Cell.road],
    [Cell.road, Cell.road, Cell.road]]⟩

/-- A fresh simulation on `exCityB` with no taxis and no passengers. -/
def exSpawnSim : SimulationState :=
  { city := exCityB, taxis := [], waitingPassengers := [],
    activePassengers := [], completedPassengers := [], tick := 0 }

/-- A concrete reachable state: spawn one passenger into the fresh
simulation, then run one tick. -/
def exLifeState : SimulationState :=
  tickSimulation { exSpawnSim with
    waitingPassengers := exSpawnSim.waitingPassengers ++ [exPassenger] }

/-! ## The reachable-state relation and the lifecycle invariant -/

/-- What `createSimulation` guarantees about a fresh state, independently of
the generated city and the taxi placement: empty passenger collections,
tick 0, and an all-idle fleet with distinct ids, empty paths and no held
passengers. -/
def Fresh (s : SimulationState) : Prop :=
  s.waitingPassengers = [] ∧ s.activePassengers = [] ∧
  s.completedPassengers = [] ∧ s.tick = 0 ∧
  (∀ t ∈ s.taxis, t.state = TaxiState.idle ∧ t.path = [] ∧
    t.currentPassenger = none) ∧
  (s.taxis.map Taxi.id).Nodup

/-- One host-driven step: spawning a fresh passenger (the id minted from the
module counter is new and its optional fields unset), either assignment
strategy, or one tick. -/
inductive Step : SimulationState → SimulationState → Prop where
  | spawn : ∀ (s : SimulationState) (p : Passenger),
      p.id ∉ (s.waitingPassengers ++ s.activePassengers ++
        s.completedPassengers).map Passenger.id →
      p.pickedUpTick = none → p.deliveredTick = none →
      p.assignedTaxiId = none →
      Step s { s with waitingPassengers := s.waitingPassengers ++ [p] }
  | greedy : ∀ s, Step s (assignGreedy s)
  | optimized : ∀ s q s', assignOptimized s q defaultOptimizer = some s' →
      Step s s'
  | tick : ∀ s, Step s (tickSimulation s)

/-- States reachable from a given state by host steps. -/
def Reachable (s₀ s : SimulationState) : Prop :=
  Relation.ReflTransGen Step s₀ s

/-- Invariant of the three passenger collections, ticks bounded by `bound`:
distinct ids, pairwise disjoint, and lifecycle fields consistent with the
collection a passenger sits in. -/
structure QInv (w a c : List Passenger) (bound : Nat) : Prop where
  wN : (w.map Passenger.id).Nodup
  aN : (a.map Passenger.id).Nodup
  cN : (c.map Passenger.id).Nodup
  wa : ∀ i ∈ w.map Passenger.id, i ∉ a.map Passenger.id
  wc : ∀ i ∈ w.map Passenger.id, i ∉ c.map Passenger.id
  ac : ∀ i ∈ a.map Passenger.id, i ∉ c.map Passenger.id
  wT : ∀ p ∈ w, p.pickedUpTick = none ∧ p.deliveredTick = none
  aT : ∀ p ∈ a, ∃ pk, p.pickedUpTick = some pk ∧ pk < bound ∧
    p.deliveredTick = none
  cT : ∀ p ∈ c, ∃ pk dv, p.pickedUpTick = some pk ∧
    p.deliveredTick = some dv ∧ pk < dv

/-- Coherence of one taxi with the passenger collections. -/
def TaxiOK (w a : List Passenger) (bound : Nat) (t : Taxi) : Prop :=
  (t.state = TaxiState.idle → t.currentPassenger = none) ∧
  (t.state = TaxiState.pickingUp → ∃ pa, t.currentPassenger = some pa ∧
    pa ∈ w ∧ pa.assignedTaxiId = some t.id ∧ pa.pickedUpTick = none ∧
    pa.deliveredTick = none) ∧
  (t.state = TaxiState.delivering → ∃ pa, t.currentPassenger = some pa ∧
    pa ∈ a ∧ ∃ pk, pa.pickedUpTick = some pk ∧ pk < bound ∧
    pa.deliveredTick = none)

/-- Two taxis never hold passengers with the same id. -/
def HeldRel (t₁ t₂ : Taxi) : Prop :=
  ∀ pa₁ pa₂, t₁.currentPassenger = some pa₁ →
    t₂.currentPassenger = some pa₂ → pa₁.id ≠ pa₂.id

/-- The full inductive invariant. -/
def Inv (s : SimulationState) : Prop :=
  QInv s.waitingPassengers s.activePassengers s.completedPassengers s.tick ∧
  (∀ t ∈ s.taxis, TaxiOK s.waitingPassengers s.activePassengers s.tick t) ∧
  List.Pairwise HeldRel s.taxis ∧
  (s.taxis.map Taxi.id).Nodup

/-! ## Spec-side path metric for the shortest-path claim -/

/-- Spec-side definition of a legal road walk: each listed position is a
4-directional neighbour of its predecessor (the start for the first entry)
and an in-bounds road cell.  The start itself is not listed, matching the
path format `findPath` returns. -/
def walkOK (city : City) : Position → List Position → Bool
  | _, [] => true
  | p, q :: rest =>
    decide (q ∈ neighborsOf p) && isRoadCell city q && walkOK city q rest

/-- Spec-side: `q` is reachable from `p` by a road walk of length `n`; the
spec's true shortest-path distance from `p` to `q` is the least such `n`. -/
def reachIn (city : City) (p q : Position) (n : Nat) : Prop :=
  ∃ l, walkOK city p l = true ∧ l.getLastD p = q ∧ l.length = n

/-- Validity of an A* node relative to start `s` and goal `e`: the position
is an in-bounds road cell, the `h` and `f` fields are what the code stores,
and the parent chain (minus its leading start entry) is a road walk from `s`
to the node's position whose length is the `g` field. -/
def NodeOK (city : City) (s e : Position) (n : Node) : Prop :=
  isRoadCell city n.pos = true ∧
  n.h = heuristic n.pos e ∧
  n.f = n.g + n.h ∧
  walkOK city s (n.chain.drop 1) = true ∧
  (n.chain.drop 1).getLastD s = n.pos ∧
  (n.chain.drop 1).length = n.g

/-- The A* loop invariant: all open nodes valid with distinct positions and
disjoint from the closed set; closed positions are road cells, distinct, and
never the goal; the start is closed or open at `g = 0`; and every road
neighbour `q` of a closed position `p` is closed or open at
`g ≤ dist(s, p) + 1`. -/
structure AInv (city : City) (s e : Position) (os : List Node)
    (closed : List Position) : Prop where
  ok : ∀ n ∈ os, NodeOK city s e n
  nd : (os.map Node.pos).Nodup
  oc : ∀ n ∈ os, n.pos ∉ closed
  cB : ∀ p ∈ closed, isRoadCell city p = true
  cN : closed.Nodup
  ce : e ∉ closed
  fr0 : s ∈ closed ∨ ∃ n ∈ os, n.pos = s ∧ n.g = 0
  fr1 : ∀ p ∈ closed, ∀ q ∈ neighborsOf p, isRoadCell city q = true →
    q ∈ closed ∨ ∃ n ∈ os, n.pos = q ∧
      ∀ dp, reachIn city s p dp → n.g ≤ dp + 1

/-- The open-set part of the A* invariant, threaded through the
neighbour-relaxation fold of one loop iteration. -/
def OInv (city : City) (s e : Position) (closed : List Position)
    (os : List Node) : Prop :=
  (∀ n ∈ os, NodeOK city s e n) ∧ (os.map Node.pos).Nodup ∧
  (∀ n ∈ os, n.pos ∉ closed)

/-- The cost read by the Hungarian inner loop for row index `i0` (1-based,
0 meaning the virtual root row) and column `j` (1-based). -/
def costOf (matrix : List (List JsNum)) (i0 j : Nat) : JsNum :=
  if 0 < i0 then (matrix.getD (i0 - 1) []).getD (j - 1) (JsNum.num 0)
  else JsNum.num 0

/-- A value that can win a `<` comparison in the Hungarian loop: neither the
`Infinity` sentinel nor `NaN` (both compare `false` on the left of `<`). -/
def Selectable (x : JsNum) : Prop :=
  x ≠ JsNum.posInf ∧ x ≠ JsNum.nan

/-- The `way` links of the used columns, most recently used first: each
column's predecessor link points to a strictly later (earlier-used) entry of
the list, or to the root column 0.  This is what makes the augmenting walk
of `hungarianAlgorithm` visit pairwise distinct columns when it
terminates. -/
def DescWay (way : List Nat) : List Nat → Prop
  | [] => True
  | c :: rest => way.getD c 0 ∈ 0 :: rest ∧ DescWay way rest

/-- The rational value of a finite JavaScript number (0 on the special
values, which the finite-matrix analysis excludes). -/
def qval : JsNum → ℚ
  | JsNum.num q => q
  | _ => 0

/-- Whether a JavaScript number is finite. -/
def JsNum.isNum : JsNum → Bool
  | JsNum.num _ => true
  | _ => false

/-- The 1-based cost-matrix entry read by the Hungarian loop, as an exact
rational. -/
def entryQ (matrix : List (List JsNum)) (r j : Nat) : ℚ :=
  qval ((matrix.getD (r - 1) []).getD (j - 1) (JsNum.num 0))

/-- The rational value stored at an index of a potential array. -/
def atQ (l : List JsNum) (r : Nat) : ℚ :=
  qval (l.getD r (JsNum.num 0))

/-- The reduced cost (slack) of the edge (row `r`, column `j`) under the
current potentials, as an exact rational. -/
def slackQ (matrix : List (List JsNum)) (u v : List JsNum) (r j : Nat) : ℚ :=
  entryQ matrix r j - atQ u r - atQ v j

/-- The body of the inner `for (j = 1; j <= n; j++)` scan of
`hungarianAlgorithm`, named so the loop invariant can be stated per step
(it is definitionally the lambda folded by `hungarianScan`). -/
def hungarianScanStep (matrix : List (List JsNum)) (i0 j0 : Nat)
    (u v : List JsNum) (used : List Bool)
    (acc : List JsNum × List Nat × JsNum × Nat) (jm : Nat) :
    List JsNum × List Nat × JsNum × Nat :=
  let j := jm + 1
  let (mv, wy, delta, j1) := acc
  if used.getD j false then (mv, wy, delta, j1)
  else
    let cost :=
      if 0 < i0 then (matrix.getD (i0 - 1) []).getD (j - 1) (JsNum.num 0)
      else JsNum.num 0
    let cur := (cost.sub (u.getD i0 (JsNum.num 0))).sub (v.getD j (JsNum.num 0))
    let doUpd := cur.lt (mv.getD j (JsNum.num 0))
    let mv' := if doUpd then mv.set j cur else mv
    let wy' := if doUpd then wy.set j j0 else wy
    let doSel := (mv'.getD j (JsNum.num 0)).lt delta
    let delta' := if doSel then mv'.getD j (JsNum.num 0) else delta
    let j1' := if doSel then j else j1
    (mv', wy', delta', j1')

/-- A well-formed finite cost matrix for the Hungarian analysis: `n` rows
of length `n`, every entry a finite number. -/
def FinMat (matrix : List (List JsNum)) (n : Nat) : Prop :=
  matrix.length = n ∧ (∀ row ∈ matrix, row.length = n) ∧
  ∀ row ∈ matrix, ∀ c ∈ row, c.isNum = true

/-- The number of columns (among `0 … n`) not yet marked used by the
Hungarian inner loop; the loop's termination measure. -/
def unusedCount (used : List Bool) (n : Nat) : Nat :=
  ((List.range (n + 1)).filter fun c => ! used.getD c false).length

/-- The primal–dual state invariant of `hungarianAlgorithm` at the start of
outer phase `i` (rows `1 … i-1` already matched): array lengths, finite
potentials, untouched potentials of unprocessed rows, matched columns
holding distinct rows below `i` and covering all rows below `i`, dual
feasibility of processed rows and tightness of every matched edge. -/
structure PhaseInv (matrix : List (List JsNum)) (n i : Nat)
    (u v : List JsNum) (p way : List Nat) : Prop where
  ulen : u.length = n + 1
  vlen : v.length = n + 1
  plen : p.length = n + 1
  wlen : way.length = n + 1
  ufin : ∀ r, r ≤ n → (u.getD r (JsNum.num 0)).isNum = true
  vfin : ∀ j, j ≤ n → (v.getD j (JsNum.num 0)).isNum = true
  uzero : ∀ r, i ≤ r → r ≤ n → u.getD r (JsNum.num 0) = JsNum.num 0
  prange : ∀ j, 1 ≤ j → j ≤ n → p.getD j 0 < i
  pinj : ∀ j j', 1 ≤ j → j ≤ n → 1 ≤ j' → j' ≤ n → j ≠ j' →
    p.getD j 0 ≠ 0 → p.getD j 0 ≠ p.getD j' 0
  psurj : ∀ r, 1 ≤ r → r < i → ∃ j, 1 ≤ j ∧ j ≤ n ∧ p.getD j 0 = r
  feas : ∀ r j, 1 ≤ r → r < i → 1 ≤ j → j ≤ n →
    atQ u r + atQ v j ≤ entryQ matrix r j
  tight : ∀ j, 1 ≤ j → j ≤ n → p.getD j 0 ≠ 0 →
    atQ u (p.getD j 0) + atQ v j = entryQ matrix (p.getD j 0) j

/-- The loop invariant of the Hungarian inner (Dijkstra) phase, holding at
the head of every iteration after the first: the alternating tree built so
far has tight edges, `minv` carries exact nonnegative shortest-path labels
achieved by the `way` links, and the dual variables stay feasible for all
rows up to the current phase row `i`. -/
structure InnerInv (matrix : List (List JsNum)) (n i : Nat) (p : List Nat)
    (j0 : Nat) (u v : List JsNum) (way : List Nat) (used : List Bool)
    (minv : List JsNum) : Prop where
  ulen : u.length = n + 1
  vlen : v.length = n + 1
  wlen : way.length = n + 1
  uslen : used.length = n + 1
  mlen : minv.length = n + 1
  j0pos : 1 ≤ j0
  j0le : j0 ≤ n
  j0unused : used.getD j0 false = false
  j0p : p.getD j0 0 ≠ 0
  j0zero : qval (minv.getD j0 (JsNum.num 0)) = 0
  used0 : used.getD 0 false = true
  usedp : ∀ c, 1 ≤ c → c ≤ n → used.getD c false = true → p.getD c 0 ≠ 0
  ufin : ∀ r, r ≤ n → (u.getD r (JsNum.num 0)).isNum = true
  vfin : ∀ j, j ≤ n → (v.getD j (JsNum.num 0)).isNum = true
  uzhigh : ∀ r, i < r → r ≤ n → u.getD r (JsNum.num 0) = JsNum.num 0
  mfin : ∀ j, 1 ≤ j → j ≤ n → used.getD j false = false →
    (minv.getD j (JsNum.num 0)).isNum = true
  mnonneg : ∀ j, 1 ≤ j → j ≤ n → used.getD j false = false →
    0 ≤ qval (minv.getD j (JsNum.num 0))
  feas : ∀ r j, 1 ≤ r → r ≤ i → 1 ≤ j → j ≤ n →
    atQ u r + atQ v j ≤ entryQ matrix r j
  tight : ∀ j, 1 ≤ j → j ≤ n → p.getD j 0 ≠ 0 →
    atQ u (p.getD j 0) + atQ v j = entryQ matrix (p.getD j 0) j
  sp : ∀ j, 1 ≤ j → j ≤ n → used.getD j false = false →
    ∀ c, c ≤ n → used.getD c false = true →
      qval (minv.getD j (JsNum.num 0)) ≤ slackQ matrix u v (p.getD c 0) j
  ach : ∀ j, 1 ≤ j → j ≤ n → used.getD j false = false →
    way.getD j 0 ≤ n ∧ used.getD (way.getD j 0) false = true ∧
    qval (minv.getD j (JsNum.num 0)) =
      slackQ matrix u v (p.getD (way.getD j 0) 0) j
  tlink : ∀ c, 1 ≤ c → c ≤ n → used.getD c false = true →
    way.getD c 0 ≤ n ∧ used.getD (way.getD c 0) false = true ∧
    slackQ matrix u v (p.getD (way.getD c 0) 0) c = 0
  unmatched : ∃ js, 1 ≤ js ∧ js ≤ n ∧ used.getD js false = false ∧
    p.getD js 0 = 0

/-- What the Hungarian inner phase guarantees on return: the stopping
column is a fresh unmatched column, the updated potentials are finite and
feasible up to row `i`, every matched edge is still tight, and the `way`
links describe an augmenting walk of tight edges over pairwise distinct
used columns. -/
structure InnerOut (matrix : List (List JsNum)) (n i : Nat) (p : List Nat)
    (jr : Nat) (ur vr : List JsNum) (wayr : List Nat) : Prop where
  jr1 : 1 ≤ jr
  jrn : jr ≤ n
  pjr : p.getD jr 0 = 0
  ulen : ur.length = n + 1
  vlen : vr.length = n + 1
  wlen : wayr.length = n + 1
  ufin : ∀ r, r ≤ n → (ur.getD r (JsNum.num 0)).isNum = true
  vfin : ∀ j, j ≤ n → (vr.getD j (JsNum.num 0)).isNum = true
  uzhigh : ∀ r, i < r → r ≤ n → ur.getD r (JsNum.num 0) = JsNum.num 0
  feas : ∀ r j, 1 ≤ r → r ≤ i → 1 ≤ j → j ≤ n →
    atQ ur r + atQ vr j ≤ entryQ matrix r j
  tight : ∀ j, 1 ≤ j → j ≤ n → p.getD j 0 ≠ 0 →
    atQ ur (p.getD j 0) + atQ vr j = entryQ matrix (p.getD j 0) j
  walk : ∃ L, L.Nodup ∧ (∀ c ∈ L, 1 ≤ c ∧ c ≤ n) ∧ DescWay wayr L ∧
    jr ∉ L ∧ wayr.getD jr 0 ∈ (0 : Nat) :: L ∧
    (∀ c ∈ L, slackQ matrix ur vr (p.getD (wayr.getD c 0) 0) c = 0) ∧
    slackQ matrix ur vr (p.getD (wayr.getD jr 0) 0) jr = 0

/-- The per-column postcondition of one full scan of the Hungarian inner
loop: the label of an unprocessed-by-`used` column `j` is finite and either
was just relaxed through the newly used column `j0` of row `i0` (then it
equals that row's exact slack and is no larger than the old label), or it
kept its old finite value together with its old link, in which case row
`i0` offers no improvement. -/
def ScanDone (matrix : List (List JsNum)) (i0 j0 : Nat) (u v : List JsNum)
    (minv₀ : List JsNum) (way₀ : List Nat) (mv : List JsNum) (wy : List Nat)
    (j : Nat) : Prop :=
  (mv.getD j (JsNum.num 0)).isNum = true ∧
  ((qval (mv.getD j (JsNum.num 0)) = slackQ matrix u v i0 j ∧
      wy.getD j 0 = j0 ∧
      ((minv₀.getD j (JsNum.num 0)).isNum = true →
        qval (mv.getD j (JsNum.num 0)) ≤ qval (minv₀.getD j (JsNum.num 0)))) ∨
   ((minv₀.getD j (JsNum.num 0)).isNum = true ∧
      mv.getD j (JsNum.num 0) = minv₀.getD j (JsNum.num 0) ∧
      wy.getD j 0 = way₀.getD j 0 ∧
      qval (minv₀.getD j (JsNum.num 0)) ≤ slackQ matrix u v i0 j))

/-- The accumulator invariant of the column scan, relative to the list `js`
of still-unprocessed 0-based column indices: processed unused columns
satisfy `ScanDone`, unprocessed and used columns are untouched, and the
running minimum `(delta, j1)` is either still virgin (all unused columns
unprocessed) or points at a processed unused column whose finite label is
minimal among all processed unused columns. -/
def ScanInv (matrix : List (List JsNum)) (n i0 j0 : Nat) (u v : List JsNum)
    (used : List Bool) (minv₀ : List JsNum) (way₀ : List Nat)
    (js : List Nat) (mv : List JsNum) (wy : List Nat) (delta : JsNum)
    (j1 : Nat) : Prop :=
  mv.length = n + 1 ∧ wy.length = n + 1 ∧
  (∀ j, 1 ≤ j → j ≤ n → used.getD j false = false →
    (j - 1) ∈ js ∨ ScanDone matrix i0 j0 u v minv₀ way₀ mv wy j) ∧
  (∀ j, 1 ≤ j → j ≤ n → (j - 1) ∈ js →
    mv.getD j (JsNum.num 0) = minv₀.getD j (JsNum.num 0) ∧
    wy.getD j 0 = way₀.getD j 0) ∧
  (∀ c, used.getD c false = true →
    wy.getD c 0 = way₀.getD c 0 ∧
    mv.getD c (JsNum.num 0) = minv₀.getD c (JsNum.num 0)) ∧
  ((j1 = 0 ∧ delta = JsNum.posInf ∧
      ∀ j, 1 ≤ j → j ≤ n → used.getD j false = false → (j - 1) ∈ js) ∨
   (1 ≤ j1 ∧ j1 ≤ n ∧ used.getD j1 false = false ∧ (j1 - 1) ∉ js ∧
      delta = mv.getD j1 (JsNum.num 0) ∧ delta.isNum = true ∧
      ∀ j, 1 ≤ j → j ≤ n → used.getD j false = false →
        (j - 1) ∈ js ∨ qval delta ≤ qval (mv.getD j (JsNum.num 0))))

/-! ## Theorems -/

theorem tickTaxi_fst (city : City) (tk : Nat) (t : Taxi) (w a c : List Passenger) :
    (tickTaxi city tk t w a c).1 = tickTaxiOnly city tk t := by
  unfold tickTaxiOnly
  cases hp : t.path with
  | nil => simp [tickTaxi, hp]
  | cons next rest =>
    cases rest with
    | cons b bs => simp [tickTaxi, hp]
    | nil =>
      cases hc : t.currentPassenger with
      | none => simp [tickTaxi, hp, hc]
      | some pa =>
        cases hs : t.state <;>
          simp only [tickTaxi, hp, hc, hs] <;>
          split <;> split <;> rfl

theorem tickFold_taxis (city : City) (tk : Nat) (l : List Taxi) :
    ∀ ts w a c,
      (l.foldl (tickStep city tk) (ts, w, a, c)).1 =
        ts ++ l.map (tickTaxiOnly city tk) := by
  induction l with
  | nil => intro ts w a c; simp
  | cons t l ih =>
    intro ts w a c
    simp only [List.foldl_cons, List.map_cons]
    rw [show tickStep city tk (ts, w, a, c) t =
      (ts ++ [tickTaxiOnly city tk t], (tickTaxi city tk t w a c).2.1,
       (tickTaxi city tk t w a c).2.2.1, (tickTaxi city tk t w a c).2.2.2) from by
        simp [tickStep, tickTaxi_fst]]
    rw [ih]
    simp

theorem tickSimulation_taxis (s : SimulationState) :
    (tickSimulation s).taxis = s.taxis.map (tickTaxiOnly s.city s.tick) := by
  unfold tickSimulation
  simp only [tickFold_taxis, List.nil_append]

theorem tickTaxiOnly_empty (city : City) (tk : Nat) (t : Taxi)
    (hp : t.path = []) : tickTaxiOnly city tk t = t := by
  unfold tickTaxiOnly tickTaxi
  simp [hp]

theorem tickTaxiOnly_moves (city : City) (tk : Nat) (t : Taxi) (next : Position)
    (rest : List Position) (hp : t.path = next :: rest) :
    (tickTaxiOnly city tk t).position = next ∧
    (tickTaxiOnly city tk t).totalDistance = t.totalDistance + 1 ∧
    (rest ≠ [] → (tickTaxiOnly city tk t).path = rest) := by
  unfold tickTaxiOnly
  cases rest with
  | cons b bs => simp [tickTaxi, hp]
  | nil =>
    refine ⟨?_, ?_, by simp⟩ <;>
    · cases hc : t.currentPassenger with
      | none => simp [tickTaxi, hp, hc]
      | some pa => cases hs : t.state <;> simp [tickTaxi, hp, hc, hs]

/-- C9: one call of `tickSimulation` advances every vehicle whose planned
path is non-empty by exactly one cell — its position becomes the former
front of the path, which is removed — and increments that vehicle's
distance counter by one; a vehicle with an empty path (in particular an
idle one) is left completely unchanged; and the global tick counter is
incremented exactly once. -/
theorem tickSimulation_moves_vehicles (s : SimulationState) (i : Nat) (t : Taxi)
    (ht : s.taxis.get? i = some t) :
    (tickSimulation s).tick = s.tick + 1 ∧
    ∃ t', (tickSimulation s).taxis.get? i = some t' ∧
      (t.path = [] → t' = t) ∧
      ∀ next rest, t.path = next :: rest →
        t'.position = next ∧ t'.totalDistance = t.totalDistance + 1 ∧
        (rest ≠ [] → t'.path = rest) := by
  refine ⟨rfl, tickTaxiOnly s.city s.tick t, ?_, ?_, ?_⟩
  · rw [tickSimulation_taxis, List.get?_map, ht]; rfl
  · intro hp; exact tickTaxiOnly_empty _ _ _ hp
  · intro next rest hp; exact tickTaxiOnly_moves _ _ _ _ _ hp

/-- Witness for C9 at a concrete moving taxi. -/
theorem tickSimulation_moves_vehicles_witness :
    exMovingState.taxis.get? 0 = some exMovingTaxi ∧
    ((tickSimulation exMovingState).tick = exMovingState.tick + 1 ∧
     ∃ t', (tickSimulation exMovingState).taxis.get? 0 = some t' ∧
       (exMovingTaxi.path = [] → t' = exMovingTaxi) ∧
       ∀ next rest, exMovingTaxi.path = next :: rest →
         t'.position = next ∧ t'.totalDistance = exMovingTaxi.totalDistance + 1 ∧
         (rest ≠ [] → t'.path = rest)) :=
  ⟨rfl, tickSimulation_moves_vehicles exMovingState 0 exMovingTaxi rfl⟩

theorem foldl_add_int {α : Type} (f : α → ℤ) (l : List α) :
    ∀ init : ℤ, l.foldl (fun acc x => acc + f x) init = init + (l.map f).sum := by
  induction l with
  | nil => intro init; simp
  | cons a l ih => intro init; simp [ih, add_assoc]

theorem foldl_wait_completed (l : List Passenger)
    (hc : ∀ p ∈ l, p.pickedUpTick ≠ none) :
    ∀ init : ℤ,
      l.foldl
        (fun acc p => match p.pickedUpTick with
          | some pk => acc + ((pk : ℤ) - (p.spawnTick : ℤ))
          | none => acc) init =
      init + (l.map fun p => ((p.pickedUpTick.getD 0 : ℤ) - (p.spawnTick : ℤ))).sum := by
  induction l with
  | nil => intro init; simp
  | cons a l ih =>
    intro init
    have ha := hc a (by simp)
    cases hpk : a.pickedUpTick with
    | none => exact absurd hpk ha
    | some pk =>
      simp only [List.foldl_cons, List.map_cons, List.sum_cons, hpk]
      rw [ih (fun p hp => hc p (by simp [hp]))]
      simp [Option.getD, add_assoc]

/-- C10: `calculateMetrics` computes the average wait time as the sum of
(pickup tick − spawn tick) over completed passengers plus
(current tick − spawn tick) over waiting passengers, divided by
(waiting count + served count); this average, the average trip time and the
utilization are all 0 when their denominators are 0.  `calculateMetrics` is
a pure function of the state (it returns a fresh `Metrics` record and the
embedding makes non-mutation definitional). -/
theorem calculateMetrics_matches_spec (s : SimulationState)
    (hc : ∀ p ∈ s.completedPassengers, p.pickedUpTick ≠ none) :
    ((calculateMetrics s).avgWaitTime =
      if s.waitingPassengers.length + s.completedPassengers.length = 0 then 0
      else (specWaitSum s : ℚ) /
        ((s.waitingPassengers.length + s.completedPassengers.length : ℕ) : ℚ)) ∧
    (s.waitingPassengers.length + s.completedPassengers.length = 0 →
      (calculateMetrics s).avgWaitTime = 0) ∧
    (s.completedPassengers.length = 0 → (calculateMetrics s).avgTripTime = 0) ∧
    (s.taxis.length = 0 → (calculateMetrics s).avgTaxiUtilization = 0) := by
  have hwait :
      (s.waitingPassengers.foldl
        (fun acc p => acc + ((s.tick : ℤ) - (p.spawnTick : ℤ)))
        (s.completedPassengers.foldl
          (fun acc p => match p.pickedUpTick with
            | some pk => acc + ((pk : ℤ) - (p.spawnTick : ℤ))
            | none => acc) 0)) = specWaitSum s := by
    rw [foldl_add_int (fun p : Passenger => ((s.tick : ℤ) - (p.spawnTick : ℤ))),
        foldl_wait_completed s.completedPassengers hc]
    simp [specWaitSum]
  constructor
  · show (if 0 < s.waitingPassengers.length + s.completedPassengers.length
        then (_ : ℚ) / _ else 0) = _
    rcases Nat.eq_zero_or_pos (s.waitingPassengers.length + s.completedPassengers.length) with h0 | hpos
    · simp [h0]
    · rw [if_pos hpos, if_neg (Nat.pos_iff_ne_zero.mp hpos)]
      rw [hwait]
  refine ⟨?_, ?_, ?_⟩
  · intro h0
    show (if 0 < s.waitingPassengers.length + s.completedPassengers.length
        then (_ : ℚ) / _ else 0) = 0
    simp [h0]
  · intro h0
    show (if 0 < s.completedPassengers.length then (_ : ℚ) / _ else 0) = 0
    simp [h0]
  · intro h0
    show (if 0 < s.taxis.length then (_ : ℚ) / _ else 0) = 0
    simp [h0]

/-- Witness for C10 at a concrete state. -/
theorem calculateMetrics_matches_spec_witness :
    (∀ p ∈ exMovingState.completedPassengers, p.pickedUpTick ≠ none) ∧
    ((calculateMetrics exMovingState).avgWaitTime =
      if exMovingState.waitingPassengers.length +
          exMovingState.completedPassengers.length = 0 then 0
      else (specWaitSum exMovingState : ℚ) /
        ((exMovingState.waitingPassengers.length +
          exMovingState.completedPassengers.length : ℕ) : ℚ)) :=
  ⟨by simp [exMovingState], (calculateMetrics_matches_spec exMovingState
      (by simp [exMovingState])).1⟩

/-- C1: evaluation at the failing snapshot.  With two idle taxis and one
unassigned waiting passenger (batch size 1 ≥ threshold 1), the optimal
strategy's cost matrix has size n = min(2, 1) = 1 and therefore covers only
the first idle taxi: `defaultOptimizer` pairs `taxi-0` at path distance 2,
while `assignGreedy` scans all idle taxis and pairs `taxi-1` at path
distance 1.  The total distance under the optimal strategy (2) exceeds the
total under greedy (1), contradicting the claimed `optimal ≤ greedy`. -/
theorem defaultOptimizer_beaten_by_greedy_on_snapshot :
    1 ≤ (exSnapshot.waitingPassengers.filter fun p =>
          p.assignedTaxiId == none).length ∧
    greedyPairings exSnapshot = [(exTaxiB, exPassenger, JsNum.num 1)] ∧
    defaultOptimizer exSnapshot 1 = some [("taxi-0", "passenger-0")] ∧
    pathDistance exSnapshot.city exTaxiA.position exPassenger.pickup =
      JsNum.num 2 := by
  refine ⟨by decide, by decide, by decide, by decide⟩

theorem findClosest_sound (city : City) (pickup : Position) :
    ∀ (l : List Taxi) (acc : Option Taxi × JsNum) (t : Taxi),
      (l.foldl
        (fun acc t =>
          if (pathDistance city t.position pickup).lt acc.2 then
            (some t, pathDistance city t.position pickup)
          else acc) acc).1 = some t →
      acc.1 = some t ∨ t ∈ l := by
  intro l
  induction l with
  | nil => exact fun acc t h => Or.inl h
  | cons x l ih =>
    intro acc t h
    simp only [List.foldl_cons] at h
    rcases ih _ t h with h' | h'
    · split at h'
      · cases h'; exact Or.inr (List.mem_cons_self x l)
      · exact Or.inl h'
    · exact Or.inr (List.mem_cons_of_mem x h')

theorem findClosest_mem (city : City) (pickup : Position) (l : List Taxi)
    (t : Taxi) (d : JsNum) (h : findClosest city pickup l = (some t, d)) :
    t ∈ l := by
  have h1 : (findClosest city pickup l).1 = some t := by rw [h]
  rcases findClosest_sound city pickup l (none, JsNum.posInf) t h1 with h' | h'
  · exact absurd h' (by simp)
  · exact h'

theorem greedyAssignments_mem (city : City) :
    ∀ (un : List Passenger) (idle : List Taxi)
      (pr : Taxi × Passenger × JsNum),
      pr ∈ greedyAssignments city un idle → pr.1 ∈ idle ∧ pr.2.1 ∈ un := by
  intro un
  induction un with
  | nil => intro idle pr hpr; simp [greedyAssignments] at hpr
  | cons p ps ih =>
    intro idle pr hpr
    rw [greedyAssignments] at hpr
    by_cases he : idle.isEmpty
    · simp [he] at hpr
    · rw [if_neg (by simpa using he)] at hpr
      rcases hfc : findClosest city p.pickup idle with ⟨ot, d⟩
      rw [hfc] at hpr
      cases ot with
      | some t =>
        rcases List.mem_cons.mp hpr with h | h
        · subst h
          exact ⟨findClosest_mem city p.pickup idle t d hfc, List.mem_cons_self _ _⟩
        · have := ih (idle.erase t) pr h
          exact ⟨(idle.erase_sublist t).mem this.1,
            List.mem_cons_of_mem p this.2⟩
      | none =>
        have := ih idle pr hpr
        exact ⟨this.1, List.mem_cons_of_mem p this.2⟩

theorem greedyAssignments_taxiIds_nodup (city : City) :
    ∀ (un : List Passenger) (idle : List Taxi),
      (idle.map Taxi.id).Nodup →
      ((greedyAssignments city un idle).map fun pr => pr.1.id).Nodup := by
  intro un
  induction un with
  | nil => intro idle _; simp [greedyAssignments]
  | cons p ps ih =>
    intro idle hnd
    rw [greedyAssignments]
    by_cases he : idle.isEmpty
    · simp [he]
    · rw [if_neg (by simpa using he)]
      rcases hfc : findClosest city p.pickup idle with ⟨ot, d⟩
      cases ot with
      | none => exact ih idle hnd
      | some t =>
        have ht : t ∈ idle := findClosest_mem city p.pickup idle t d hfc
        have hperm : List.Perm (idle.map Taxi.id)
            (t.id :: (idle.erase t).map Taxi.id) := by
          have := (List.perm_cons_erase ht).map Taxi.id
          simpa using this
        have hnd' : (t.id :: (idle.erase t).map Taxi.id).Nodup := hperm.nodup hnd
        rw [List.nodup_cons] at hnd'
        simp only [List.map_cons, List.nodup_cons]
        refine ⟨?_, ih (idle.erase t) hnd'.2⟩
        intro hmem
        rcases List.mem_map.mp hmem with ⟨pr, hpr, hid⟩
        have := (greedyAssignments_mem city ps (idle.erase t) pr hpr).1
        exact hnd'.1 (hid ▸ List.mem_map_of_mem Taxi.id this)

theorem greedyAssignments_passIds_nodup (city : City) :
    ∀ (un : List Passenger) (idle : List Taxi),
      (un.map Passenger.id).Nodup →
      ((greedyAssignments city un idle).map fun pr => pr.2.1.id).Nodup := by
  intro un
  induction un with
  | nil => intro idle _; simp [greedyAssignments]
  | cons p ps ih =>
    intro idle hnd
    rw [List.map_cons, List.nodup_cons] at hnd
    rw [greedyAssignments]
    by_cases he : idle.isEmpty
    · simp [he]
    · rw [if_neg (by simpa using he)]
      rcases hfc : findClosest city p.pickup idle with ⟨ot, d⟩
      cases ot with
      | none => exact ih idle hnd.2
      | some t =>
        simp only [List.map_cons, List.nodup_cons]
        refine ⟨?_, ih (idle.erase t) hnd.2⟩
        intro hmem
        rcases List.mem_map.mp hmem with ⟨pr, hpr, hid⟩
        have := (greedyAssignments_mem city ps (idle.erase t) pr hpr).2
        exact hnd.1 (hid ▸ List.mem_map_of_mem Passenger.id this)

theorem getD_set_int (l : List Int) (s i : Nat) (v d : Int) :
    (l.set s v).getD i d = if i = s ∧ s < l.length then v else l.getD i d := by
  rw [List.getD_eq_getD_get?, List.getD_eq_getD_get?, List.get?_eq_getElem?,
    List.get?_eq_getElem?, List.getElem?_set]
  by_cases h : i = s ∧ s < l.length
  · rw [if_pos h, if_pos h.1.symm, if_pos (h.1 ▸ h.2)]; rfl
  · rw [if_neg h]
    by_cases hs : s = i
    · rw [if_pos hs, if_neg (by rintro hlt; exact h ⟨hs.symm, hlt⟩)]
      simp [hs ▸ List.getElem?_eq_none (le_of_not_lt
        (fun hlt => h ⟨hs.symm, hlt⟩))]
    · rw [if_neg hs]

/-- Bound and distinctness invariant of the result-extraction loop: after
processing columns `1 … k` every non-negative entry is `< k` and the
non-negative entries are pairwise distinct. -/
theorem hungarianExtract_invariant (p : List Nat) (n : Nat) : ∀ (k : Nat),
    (∀ i : Nat,
        0 ≤ ((List.range k).foldl (hungarianExtractStep p)
              (List.replicate n (-1 : Int))).getD i (-1) →
        ((List.range k).foldl (hungarianExtractStep p)
              (List.replicate n (-1 : Int))).getD i (-1) < (k : Int)) ∧
    (∀ i₁ i₂ : Nat, i₁ ≠ i₂ →
        0 ≤ ((List.range k).foldl (hungarianExtractStep p)
              (List.replicate n (-1 : Int))).getD i₁ (-1) →
        ((List.range k).foldl (hungarianExtractStep p)
              (List.replicate n (-1 : Int))).getD i₁ (-1) ≠
        ((List.range k).foldl (hungarianExtractStep p)
              (List.replicate n (-1 : Int))).getD i₂ (-1)) := by
  intro k
  induction k with
  | zero =>
    constructor
    · intro i h0
      rcases le_or_lt n i with hi | hi
      · rw [List.getD_eq_default _ _ (by simpa using hi)] at h0; omega
      · rw [List.getD_eq_getElem _ _ (by simpa using hi)] at h0
        simp [List.getElem_replicate] at h0
    · intro i₁ i₂ _ h0
      rcases le_or_lt n i₁ with hi | hi
      · rw [List.getD_eq_default _ _ (by simpa using hi)] at h0; omega
      · rw [List.getD_eq_getElem _ _ (by simpa using hi)] at h0
        simp [List.getElem_replicate] at h0
  | succ k ih =>
    rw [List.range_succ, List.foldl_append, List.foldl_cons, List.foldl_nil]
    set res := (List.range k).foldl (hungarianExtractStep p)
      (List.replicate n (-1 : Int)) with hres
    unfold hungarianExtractStep
    by_cases hp : 0 < p.getD (k + 1) 0
    · rw [if_pos hp]
      have hset := fun i => getD_set_int res (p.getD (k + 1) 0 - 1) i
        ((k : Int) + 1 - 1) (-1)
      constructor
      · intro i h0
        rw [hset i] at h0 ⊢
        by_cases hc : i = p.getD (k + 1) 0 - 1 ∧ p.getD (k + 1) 0 - 1 < res.length
        · rw [if_pos hc]; omega
        · rw [if_neg hc] at h0 ⊢
          exact lt_trans (ih.1 i h0) (by omega)
      · intro i₁ i₂ hne h0
        rw [hset i₁] at h0 ⊢
        rw [hset i₂]
        by_cases h1 : i₁ = p.getD (k + 1) 0 - 1 ∧ p.getD (k + 1) 0 - 1 < res.length
        · rw [if_pos h1]
          by_cases h2 : i₂ = p.getD (k + 1) 0 - 1 ∧ p.getD (k + 1) 0 - 1 < res.length
          · exact absurd (h1.1.trans h2.1.symm) hne
          · rw [if_neg h2]
            intro heq
            have hnn : (0 : Int) ≤ res.getD i₂ (-1) := by omega
            have := ih.1 i₂ hnn
            omega
        · rw [if_neg h1] at h0 ⊢
          by_cases h2 : i₂ = p.getD (k + 1) 0 - 1 ∧ p.getD (k + 1) 0 - 1 < res.length
          · rw [if_pos h2]
            have := ih.1 i₁ h0
            omega
          · rw [if_neg h2]
            exact ih.2 i₁ i₂ hne h0
    · rw [if_neg hp]
      exact ⟨fun i h0 => lt_trans (ih.1 i h0) (by omega), ih.2⟩

/-- Distinctness of the non-negative entries of `hungarianAlgorithm`'s
result array. -/
theorem hungarianAlgorithm_distinct (m : List (List JsNum)) (res : List Int)
    (h : hungarianAlgorithm m = some res) :
    ∀ i₁ i₂ : Nat, i₁ ≠ i₂ → 0 ≤ res.getD i₁ (-1) →
      res.getD i₁ (-1) ≠ res.getD i₂ (-1) := by
  unfold hungarianAlgorithm at h
  by_cases hn : m.length = 0
  · rw [if_pos hn] at h
    cases h
    intro i₁ i₂ _ h0
    simp at h0
  · rw [if_neg hn] at h
    rcases hm : (List.range m.length).foldl
        (fun acc im => acc.bind fun st => hungarianRow m m.length st (im + 1))
        (some (List.replicate (m.length + 1) (JsNum.num 0),
               List.replicate (m.length + 1) (JsNum.num 0),
               List.replicate (m.length + 1) 0,
               List.replicate (m.length + 1) 0)) with _ | st
    · rw [hm] at h; exact absurd h (by simp)
    · rw [hm] at h
      obtain ⟨u, v, p, w⟩ := st
      cases h
      exact (hungarianExtract_invariant p m.length m.length).2

theorem defaultOptimizer_emits (s : SimulationState) (q : Nat)
    (prs : List (String × String)) (h : defaultOptimizer s q = some prs) :
    (∀ pr ∈ prs,
       (∃ t ∈ s.taxis, t.id = pr.1 ∧ t.state = TaxiState.idle) ∧
       (∃ p ∈ s.waitingPassengers, p.id = pr.2 ∧ p.assignedTaxiId = none)) ∧
    ((s.taxis.map Taxi.id).Nodup → (prs.map Prod.fst).Nodup) ∧
    ((s.waitingPassengers.map Passenger.id).Nodup →
      (prs.map Prod.snd).Nodup) := by
  unfold defaultOptimizer at h
  by_cases hskip : (s.taxis.filter fun t => t.state == TaxiState.idle).isEmpty = true ∨
      (s.waitingPassengers.filter fun p => p.assignedTaxiId == none).length < q
  · rw [if_pos (by simpa using hskip)] at h
    cases h
    exact ⟨by simp, by simp, by simp⟩
  · rw [if_neg (by simpa using hskip)] at h
    rcases Option.map_eq_some'.mp h with ⟨asg, hasg, hprs⟩
    subst hprs
    set idle := s.taxis.filter fun t => t.state == TaxiState.idle with hidle
    set un := s.waitingPassengers.filter fun p => p.assignedTaxiId == none with hun
    have hidleN : ∀ hnd : (s.taxis.map Taxi.id).Nodup, (idle.map Taxi.id).Nodup :=
      fun hnd => ((List.filter_sublist s.taxis).map Taxi.id).nodup hnd
    have hunN : ∀ hnd : (s.waitingPassengers.map Passenger.id).Nodup,
        (un.map Passenger.id).Nodup :=
      fun hnd => ((List.filter_sublist s.waitingPassengers).map Passenger.id).nodup hnd
    have hdist := hungarianAlgorithm_distinct _ asg hasg
    refine ⟨?_, ?_, ?_⟩
    · intro pr hpr
      rcases List.mem_filterMap.mp hpr with ⟨i, _, hf⟩
      split at hf
      · rename_i hcnd
        simp only [Bool.and_eq_true, decide_eq_true_eq] at hcnd
        cases hf
        constructor
        · refine ⟨idle.getD i default, ?_, rfl, ?_⟩
          · have : idle.getD i default ∈ idle := by
              rw [List.getD_eq_getElem _ _ hcnd.1.2]
              exact List.getElem_mem _
            exact (List.mem_filter.mp this).1
          · have : idle.getD i default ∈ idle := by
              rw [List.getD_eq_getElem _ _ hcnd.1.2]
              exact List.getElem_mem _
            have := (List.mem_filter.mp this).2
            simpa using this
        · have hj : (asg.getD i (-1)).toNat < un.length := by
            have h1 := hcnd.1.1
            have h2 := hcnd.2
            omega
          refine ⟨un.getD (asg.getD i (-1)).toNat default, ?_, rfl, ?_⟩
          · have : un.getD (asg.getD i (-1)).toNat default ∈ un := by
              rw [List.getD_eq_getElem _ _ hj]
              exact List.getElem_mem _
            exact (List.mem_filter.mp this).1
          · have : un.getD (asg.getD i (-1)).toNat default ∈ un := by
              rw [List.getD_eq_getElem _ _ hj]
              exact List.getElem_mem _
            have := (List.mem_filter.mp this).2
            simpa using this
      · exact absurd hf (by simp)
    · intro hnd
      rw [List.map_filterMap]
      refine List.Nodup.filterMap ?_ (List.nodup_range asg.length)
      intro i i' b hb hb'
      simp only [Option.mem_def, Option.map_eq_some'] at hb hb'
      rcases hb with ⟨pr, hf, hfst⟩
      rcases hb' with ⟨pr', hf', hfst'⟩
      split at hf
      · rename_i hcnd
        split at hf'
        · rename_i hcnd'
          simp only [Bool.and_eq_true, decide_eq_true_eq] at hcnd hcnd'
          cases hf; cases hf'
          subst hfst
          have hid : (idle.getD i default).id = (idle.getD i' default).id :=
            hfst'.symm
          rw [List.getD_eq_getElem _ _ hcnd.1.2,
              List.getD_eq_getElem _ _ hcnd'.1.2] at hid
          have hN := hidleN hnd
          have hmi : (idle.map Taxi.id).get ⟨i, by simpa using hcnd.1.2⟩ =
              (idle.map Taxi.id).get ⟨i', by simpa using hcnd'.1.2⟩ := by
            simpa using hid
          simp only [List.get_eq_getElem] at hmi
          exact hN.getElem_inj_iff.mp hmi
        · exact absurd hf' (by simp)
      · exact absurd hf (by simp)
    · intro hnd
      rw [List.map_filterMap]
      refine List.Nodup.filterMap ?_ (List.nodup_range asg.length)
      intro i i' b hb hb'
      simp only [Option.mem_def, Option.map_eq_some'] at hb hb'
      rcases hb with ⟨pr, hf, hsnd⟩
      rcases hb' with ⟨pr', hf', hsnd'⟩
      split at hf
      · rename_i hcnd
        split at hf'
        · rename_i hcnd'
          simp only [Bool.and_eq_true, decide_eq_true_eq] at hcnd hcnd'
          cases hf; cases hf'
          subst hsnd
          have hid : (un.getD (asg.getD i (-1)).toNat default).id =
              (un.getD (asg.getD i' (-1)).toNat default).id := hsnd'.symm
          have hj : (asg.getD i (-1)).toNat < un.length := by
            have h1 := hcnd.1.1; have h2 := hcnd.2; omega
          have hj' : (asg.getD i' (-1)).toNat < un.length := by
            have h1 := hcnd'.1.1; have h2 := hcnd'.2; omega
          rw [List.getD_eq_getElem _ _ hj, List.getD_eq_getElem _ _ hj'] at hid
          have hN := hunN hnd
          have hmi : (un.map Passenger.id).get
                ⟨(asg.getD i (-1)).toNat, by simpa using hj⟩ =
              (un.map Passenger.id).get
                ⟨(asg.getD i' (-1)).toNat, by simpa using hj'⟩ := by
            simpa using hid
          have htn : (asg.getD i (-1)).toNat =
              (asg.getD i' (-1)).toNat := by
            simp only [List.get_eq_getElem] at hmi
            exact hN.getElem_inj_iff.mp hmi
          by_contra hne
          exact hdist i i' hne hcnd.1.1 (by omega)
        · exact absurd hf' (by simp)
      · exact absurd hf (by simp)

/-- C7: every pairing produced by either strategy — the pairings applied by
`assignGreedy` and the pairings returned by `defaultOptimizer` — references
a vehicle that is idle and a waiting passenger that is unassigned in the
state being scored, and within one batch no taxi id and no passenger id is
repeated (stated for states whose taxi and passenger ids are distinct, the
invariant of every state the simulation constructs). -/
theorem assignment_pairings_feasible (s : SimulationState) (q : Nat)
    (htaxi : (s.taxis.map Taxi.id).Nodup)
    (hpass : (s.waitingPassengers.map Passenger.id).Nodup) :
    (∀ pr ∈ greedyPairings s,
        pr.1 ∈ s.taxis ∧ pr.1.state = TaxiState.idle ∧
        pr.2.1 ∈ s.waitingPassengers ∧ pr.2.1.assignedTaxiId = none) ∧
    ((greedyPairings s).map fun pr => pr.1.id).Nodup ∧
    ((greedyPairings s).map fun pr => pr.2.1.id).Nodup ∧
    ∀ prs, defaultOptimizer s q = some prs →
      (∀ pr ∈ prs,
         (∃ t ∈ s.taxis, t.id = pr.1 ∧ t.state = TaxiState.idle) ∧
         (∃ p ∈ s.waitingPassengers, p.id = pr.2 ∧ p.assignedTaxiId = none)) ∧
      (prs.map Prod.fst).Nodup ∧ (prs.map Prod.snd).Nodup := by
  refine ⟨?_, ?_, ?_, ?_⟩
  · intro pr hpr
    rw [greedyPairings] at hpr
    have hm := greedyAssignments_mem s.city _ _ pr hpr
    have h1 := List.mem_filter.mp hm.1
    have h2 := List.mem_filter.mp hm.2
    exact ⟨h1.1, by simpa using h1.2, h2.1, by simpa using h2.2⟩
  · rw [greedyPairings]
    exact greedyAssignments_taxiIds_nodup s.city _ _
      (((List.filter_sublist s.taxis).map Taxi.id).nodup htaxi)
  · rw [greedyPairings]
    exact greedyAssignments_passIds_nodup s.city _ _
      (((List.filter_sublist s.waitingPassengers).map Passenger.id).nodup hpass)
  · intro prs h
    obtain ⟨hmem, hfst, hsnd⟩ := defaultOptimizer_emits s q prs h
    exact ⟨hmem, hfst htaxi, hsnd hpass⟩

/-- Witness for C7 at a concrete snapshot. -/
theorem assignment_pairings_feasible_witness :
    ((exSnapshot.taxis.map Taxi.id).Nodup ∧
     (exSnapshot.waitingPassengers.map Passenger.id).Nodup) ∧
    ((∀ pr ∈ greedyPairings exSnapshot,
        pr.1 ∈ exSnapshot.taxis ∧ pr.1.state = TaxiState.idle ∧
        pr.2.1 ∈ exSnapshot.waitingPassengers ∧ pr.2.1.assignedTaxiId = none) ∧
     ((greedyPairings exSnapshot).map fun pr => pr.1.id).Nodup ∧
     ((greedyPairings exSnapshot).map fun pr => pr.2.1.id).Nodup ∧
     ∀ prs, defaultOptimizer exSnapshot 1 = some prs →
       (∀ pr ∈ prs,
          (∃ t ∈ exSnapshot.taxis, t.id = pr.1 ∧ t.state = TaxiState.idle) ∧
          (∃ p ∈ exSnapshot.waitingPassengers,
            p.id = pr.2 ∧ p.assignedTaxiId = none)) ∧
       (prs.map Prod.fst).Nodup ∧ (prs.map Prod.snd).Nodup) :=
  ⟨⟨by decide, by decide⟩,
   assignment_pairings_feasible exSnapshot 1 (by decide) (by decide)⟩

/-- C4, counterexample: repeating the same full run (same city, same host
script, same PRNG seed) inside one process does NOT reproduce the same
state sequence, because the module-level `passengerIdCounter` persists
across runs: the first run mints `passenger-0`, the re-run (starting from
the counter value 1 the first run left behind) mints `passenger-1`, and the
traces differ. -/
theorem repeated_run_differs_via_id_counter :
    (runTrace [HostOp.spawn] ⟨exSpawnSim, ⟨12345⟩, 0⟩).getLast?.map
        (fun ps => ps.counter) = some 1 ∧
    ((applyOp HostOp.spawn
        ⟨exSpawnSim, ⟨12345⟩, 0⟩).sim.waitingPassengers.map Passenger.id) =
      ["passenger-0"] ∧
    ((applyOp HostOp.spawn
        ⟨exSpawnSim, ⟨12345⟩, 1⟩).sim.waitingPassengers.map Passenger.id) =
      ["passenger-1"] ∧
    runTrace [HostOp.spawn] ⟨exSpawnSim, ⟨12345⟩, 0⟩ ≠
      runTrace [HostOp.spawn] ⟨exSpawnSim, ⟨12345⟩, 1⟩ := by
  have h0 : ((applyOp HostOp.spawn
      ⟨exSpawnSim, ⟨12345⟩, 0⟩).sim.waitingPassengers.map Passenger.id) =
      ["passenger-0"] := rfl
  have h1 : ((applyOp HostOp.spawn
      ⟨exSpawnSim, ⟨12345⟩, 1⟩).sim.waitingPassengers.map Passenger.id) =
      ["passenger-1"] := rfl
  refine ⟨rfl, h0, h1, ?_⟩
  intro h
  have h2 := congrArg
    (fun l => (l.get? 1).map fun ps => ps.sim.waitingPassengers.map Passenger.id) h
  simp only [runTrace, List.get?, Option.map_some] at h2
  rw [show (Option.map (fun ps : ProcState =>
      List.map Passenger.id ps.sim.waitingPassengers)
      (some (applyOp HostOp.spawn ⟨exSpawnSim, ⟨12345⟩, 0⟩))) =
      some ["passenger-0"] from congrArg some h0,
    show (Option.map (fun ps : ProcState =>
      List.map Passenger.id ps.sim.waitingPassengers)
      (some (applyOp HostOp.spawn ⟨exSpawnSim, ⟨12345⟩, 1⟩))) =
      some ["passenger-1"] from congrArg some h1] at h2
  simp at h2

/-- C4, amended: the full run is a pure function of its inputs once the
module-level passenger-id counter is included among them.  Two runs of the
same host script from the same city/simulation, the same PRNG seed and the
same initial id counter produce identical state sequences — in particular
passengers, taxis and metrics agree field by field at every step. -/
theorem run_deterministic (ops : List HostOp) (a b : ProcState)
    (hsim : a.sim = b.sim) (hrng : a.rng = b.rng)
    (hcounter : a.counter = b.counter) :
    runTrace ops a = runTrace ops b ∧
    (runTrace ops a).map (fun ps => ps.sim.waitingPassengers.map Passenger.id) =
      (runTrace ops b).map (fun ps => ps.sim.waitingPassengers.map Passenger.id) ∧
    (runTrace ops a).map (fun ps => ps.sim.taxis) =
      (runTrace ops b).map (fun ps => ps.sim.taxis) ∧
    (runTrace ops a).map (fun ps => calculateMetrics ps.sim) =
      (runTrace ops b).map (fun ps => calculateMetrics ps.sim) := by
  have hab : a = b := by
    cases a; cases b
    simp only at hsim hrng hcounter
    rw [hsim, hrng, hcounter]
  rw [hab]
  exact ⟨rfl, rfl, rfl, rfl⟩

/-- Witness for the amended C4 at concrete equal inputs. -/
theorem run_deterministic_witness :
    ((⟨exSpawnSim, ⟨12345⟩, 0⟩ : ProcState).sim =
      (⟨exSpawnSim, ⟨12345⟩, 0⟩ : ProcState).sim) ∧
    runTrace [HostOp.spawn, HostOp.tick] ⟨exSpawnSim, ⟨12345⟩, 0⟩ =
      runTrace [HostOp.spawn, HostOp.tick] ⟨exSpawnSim, ⟨12345⟩, 0⟩ :=
  ⟨rfl, (run_deterministic [HostOp.spawn, HostOp.tick]
      ⟨exSpawnSim, ⟨12345⟩, 0⟩ ⟨exSpawnSim, ⟨12345⟩, 0⟩ rfl rfl rfl).1⟩

theorem roundNearestEven_intCast (z : ℤ) : roundNearestEven (z : ℚ) = z := by
  unfold roundNearestEven
  rw [Int.floor_intCast]
  norm_num

theorem roundNearestEven_le (x : ℚ) : (roundNearestEven x : ℚ) ≤ x + 1 / 2 := by
  unfold roundNearestEven
  have h1 := Int.floor_le x
  have h2 := Int.lt_floor_add_one x
  by_cases hlt : x - ⌊x⌋ < 1 / 2
  · rw [if_pos hlt]; linarith
  · rw [if_neg hlt]
    by_cases hgt : 1 / 2 < x - ⌊x⌋
    · rw [if_pos hgt]; push_cast; linarith
    · rw [if_neg hgt]
      have heq : x - ⌊x⌋ = 1 / 2 := le_antisymm (le_of_not_lt hgt) (le_of_not_lt hlt)
      by_cases hev : Even (⌊x⌋ : ℤ)
      · rw [if_pos hev]; linarith
      · rw [if_neg hev]; push_cast; linarith

theorem roundNearestEven_ge (x : ℚ) : x - 1 / 2 ≤ (roundNearestEven x : ℚ) := by
  unfold roundNearestEven
  have h1 := Int.floor_le x
  have h2 := Int.lt_floor_add_one x
  by_cases hlt : x - ⌊x⌋ < 1 / 2
  · rw [if_pos hlt]; linarith
  · rw [if_neg hlt]
    by_cases hgt : 1 / 2 < x - ⌊x⌋
    · rw [if_pos hgt]; push_cast; linarith
    · rw [if_neg hgt]
      have heq : x - ⌊x⌋ = 1 / 2 := le_antisymm (le_of_not_lt hgt) (le_of_not_lt hlt)
      by_cases hev : Even (⌊x⌋ : ℤ)
      · rw [if_pos hev]; linarith
      · rw [if_neg hev]; push_cast; linarith

theorem two_zpow_pos (e : ℤ) : (0 : ℚ) < 2 ^ e := by positivity

theorem two_zpow_mul (e f : ℤ) : (2 : ℚ) ^ e * 2 ^ f = 2 ^ (e + f) :=
  (zpow_add₀ (by norm_num : (2 : ℚ) ≠ 0) e f).symm

theorem log2_le_of_lt {q : ℚ} (h0 : 0 < q) {n : ℤ} (h : q < 2 ^ (n + 1)) :
    Int.log 2 q ≤ n := by
  by_contra hc
  push_neg at hc
  have h1 : (2 : ℚ) ^ (n + 1) ≤ 2 ^ Int.log 2 q := by
    apply zpow_le_zpow_right₀ (by norm_num : (1 : ℚ) ≤ 2)
    omega
  have h2 := Int.zpow_log_le_self (by norm_num : 1 < 2) h0 (r := q)
  push_cast at h2
  linarith

theorem le_log2_of_le {q : ℚ} {n : ℤ} (h : (2 : ℚ) ^ n ≤ q) :
    n ≤ Int.log 2 q := by
  by_contra hc
  push_neg at hc
  have h2 := Int.lt_zpow_succ_log_self (by norm_num : 1 < 2) q (b := 2)
  push_cast at h2
  have h1 : (2 : ℚ) ^ (Int.log 2 q + 1) ≤ 2 ^ n := by
    apply zpow_le_zpow_right₀ (by norm_num : (1 : ℚ) ≤ 2)
    omega
  linarith

theorem flqPos_eq {q : ℚ} (h0 : 0 < q) :
    flqPos q = (roundNearestEven (q * 2 ^ (52 - Int.log 2 q)) : ℚ) *
      2 ^ (Int.log 2 q - 52) := by
  rw [flqPos, if_neg (not_le.mpr h0)]

theorem flqPos_close {q : ℚ} (h0 : 0 < q) :
    |flqPos q - q| ≤ 2 ^ (Int.log 2 q - 53) := by
  rw [flqPos_eq h0]
  have hm : q * 2 ^ (52 - Int.log 2 q) * 2 ^ (Int.log 2 q - 52) = q := by
    rw [mul_assoc, two_zpow_mul]
    norm_num
  calc |(roundNearestEven (q * 2 ^ (52 - Int.log 2 q)) : ℚ) *
        2 ^ (Int.log 2 q - 52) - q|
      = |((roundNearestEven (q * 2 ^ (52 - Int.log 2 q)) : ℚ) -
          q * 2 ^ (52 - Int.log 2 q))| * 2 ^ (Int.log 2 q - 52) := by
        rw [← abs_of_pos (two_zpow_pos (Int.log 2 q - 52)), ← abs_mul]
        rw [abs_of_pos (two_zpow_pos (Int.log 2 q - 52))]
        congr 1
        rw [sub_mul, hm]
    _ ≤ (1 / 2) * 2 ^ (Int.log 2 q - 52) := by
        have hle := roundNearestEven_le (q * 2 ^ (52 - Int.log 2 q))
        have hge := roundNearestEven_ge (q * 2 ^ (52 - Int.log 2 q))
        have : |((roundNearestEven (q * 2 ^ (52 - Int.log 2 q)) : ℚ) -
            q * 2 ^ (52 - Int.log 2 q))| ≤ 1 / 2 := abs_le.mpr ⟨by linarith, by linarith⟩
        exact mul_le_mul_of_nonneg_right this (le_of_lt (two_zpow_pos _))
    _ = 2 ^ (Int.log 2 q - 53) := by
        rw [show (1 / 2 : ℚ) = 2 ^ (-1 : ℤ) from by norm_num, two_zpow_mul]
        congr 1
        omega

theorem flq_of_nonneg {q : ℚ} (h : 0 ≤ q) : flq q = flqPos q := by
  rw [flq, if_neg (not_lt.mpr h)]

theorem flqPos_scaled_int {q : ℚ} (h0 : 0 < q) :
    q * 2 ^ (52 - Int.log 2 q) ∈ Set.Ico ((2 : ℚ) ^ 52) ((2 : ℚ) ^ 53) := by
  constructor
  · have h2 := Int.zpow_log_le_self (by norm_num : 1 < 2) h0 (b := 2)
    push_cast at h2
    calc (2 : ℚ) ^ 52 = 2 ^ ((52 : ℤ)) := by norm_num
    _ = 2 ^ (Int.log 2 q) * 2 ^ (52 - Int.log 2 q) := by
        rw [two_zpow_mul]; congr 1; omega
    _ ≤ q * 2 ^ (52 - Int.log 2 q) :=
        mul_le_mul_of_nonneg_right h2 (le_of_lt (two_zpow_pos _))
  · have h2 := Int.lt_zpow_succ_log_self (by norm_num : 1 < 2) q (b := 2)
    push_cast at h2
    calc q * 2 ^ (52 - Int.log 2 q)
        < 2 ^ (Int.log 2 q + 1) * 2 ^ (52 - Int.log 2 q) :=
          mul_lt_mul_of_pos_right h2 (two_zpow_pos _)
    _ = (2 : ℚ) ^ 53 := by
        rw [two_zpow_mul, show Int.log 2 q + 1 + (52 - Int.log 2 q) = (53 : ℤ) from by omega]
        norm_num

theorem qtrunc_intCast (z : ℤ) : qtrunc (z : ℚ) = z := by
  unfold qtrunc
  by_cases h : (0 : ℚ) ≤ (z : ℚ)
  · rw [if_pos h, Int.floor_intCast]
  · rw [if_neg h, ← Int.cast_neg, Int.floor_intCast]; omega

theorem flqPos_int_exact (z : ℤ) (h0 : 0 < z) (h : z < 2 ^ 53) :
    flqPos (z : ℚ) = (z : ℚ) := by
  have h0q : (0 : ℚ) < (z : ℚ) := by exact_mod_cast h0
  have he : Int.log 2 (z : ℚ) ≤ 52 := by
    apply log2_le_of_lt h0q (n := 52)
    have : (z : ℚ) < ((2 ^ 53 : ℤ) : ℚ) := by exact_mod_cast h
    push_cast at this
    norm_num
    linarith
  rw [flqPos_eq h0q]
  have h52 : (0 : ℤ) ≤ 52 - Int.log 2 (z : ℚ) := by omega
  have hcast : (2 : ℚ) ^ (52 - Int.log 2 (z : ℚ)) =
      ((2 ^ (52 - Int.log 2 (z : ℚ)).toNat : ℤ) : ℚ) := by
    have h1 : ((2 ^ (52 - Int.log 2 (z : ℚ)).toNat : ℤ) : ℚ) =
        (2 : ℚ) ^ (52 - Int.log 2 (z : ℚ)).toNat := by push_cast; rfl
    rw [h1, ← zpow_natCast ((2 : ℚ)) (52 - Int.log 2 (z : ℚ)).toNat,
      Int.toNat_of_nonneg h52]
  have hm : (z : ℚ) * 2 ^ (52 - Int.log 2 (z : ℚ)) =
      ((z * 2 ^ (52 - Int.log 2 (z : ℚ)).toNat : ℤ) : ℚ) := by
    rw [hcast]; push_cast; ring
  rw [hm, roundNearestEven_intCast, ← hm, mul_assoc, two_zpow_mul]
  norm_num

theorem flqPos_int_big {q : ℚ} (h : (2 : ℚ) ^ (53 : ℕ) ≤ q) :
    ∃ w : ℤ, flqPos q = ((2 * w : ℤ) : ℚ) ∧ (2 : ℚ) ^ (53 : ℕ) ≤ flqPos q := by
  have h0 : (0 : ℚ) < q := lt_of_lt_of_le (by positivity) h
  have he : (53 : ℤ) ≤ Int.log 2 q := by
    apply le_log2_of_le
    calc (2 : ℚ) ^ (53 : ℤ) = 2 ^ (53 : ℕ) := by norm_num
    _ ≤ q := h
  have hm := flqPos_scaled_int h0
  have hrge := roundNearestEven_ge (q * 2 ^ (52 - Int.log 2 q))
  have hrle := roundNearestEven_le (q * 2 ^ (52 - Int.log 2 q))
  have hr52 : (2 : ℤ) ^ (52 : ℕ) ≤ roundNearestEven (q * 2 ^ (52 - Int.log 2 q)) := by
    by_contra hc
    push_neg at hc
    have hc' : roundNearestEven (q * 2 ^ (52 - Int.log 2 q)) ≤ 2 ^ (52 : ℕ) - 1 := by
      omega
    have hcq : ((roundNearestEven (q * 2 ^ (52 - Int.log 2 q)) : ℤ) : ℚ) ≤
        (((2 : ℤ) ^ (52 : ℕ) - 1 : ℤ) : ℚ) := by exact_mod_cast hc'
    push_cast at hcq
    have := hm.1
    linarith
  have h1 : (0 : ℤ) ≤ Int.log 2 q - 53 := by omega
  refine ⟨roundNearestEven (q * 2 ^ (52 - Int.log 2 q)) *
    2 ^ (Int.log 2 q - 53).toNat, ?_, ?_⟩
  · rw [flqPos_eq h0]
    have hexp : (2 : ℚ) ^ (Int.log 2 q - 52) = 2 ^ (Int.log 2 q - 53) * 2 := by
      rw [show Int.log 2 q - 52 = Int.log 2 q - 53 + 1 from by omega,
        zpow_add_one₀ (by norm_num : (2 : ℚ) ≠ 0)]
    have hpowcast : ((2 ^ (Int.log 2 q - 53).toNat : ℤ) : ℚ) =
        (2 : ℚ) ^ (Int.log 2 q - 53) := by
      have hpc : ((2 ^ (Int.log 2 q - 53).toNat : ℤ) : ℚ) =
          (2 : ℚ) ^ (Int.log 2 q - 53).toNat := by push_cast; rfl
      rw [hpc, ← zpow_natCast ((2 : ℚ)) (Int.log 2 q - 53).toNat,
        Int.toNat_of_nonneg h1]
    rw [hexp]
    push_cast [hpowcast]
    ring
  · rw [flqPos_eq h0]
    have hcast : ((2 : ℤ) ^ (52 : ℕ) : ℚ) ≤
        (roundNearestEven (q * 2 ^ (52 - Int.log 2 q)) : ℚ) := by
      exact_mod_cast hr52
    push_cast at hcast
    calc (2 : ℚ) ^ (53 : ℕ) = 2 ^ (53 : ℤ) := by norm_num
    _ ≤ 2 ^ Int.log 2 q := zpow_le_zpow_right₀ (by norm_num) he
    _ = 2 ^ (52 : ℕ) * 2 ^ (Int.log 2 q - 52) := by
        rw [show ((2 : ℚ) ^ (52 : ℕ)) = 2 ^ (52 : ℤ) from by norm_num, two_zpow_mul]
        congr 1
        omega
    _ ≤ (roundNearestEven (q * 2 ^ (52 - Int.log 2 q)) : ℚ) *
        2 ^ (Int.log 2 q - 52) :=
        mul_le_mul_of_nonneg_right hcast (le_of_lt (two_zpow_pos _))

theorem flq_int_small (z : ℤ) (hlo : -(2 ^ 53) < z) (hhi : z < 2 ^ 53) :
    flq (z : ℚ) = (z : ℚ) := by
  rcases lt_trichotomy z 0 with hneg | hzero | hpos
  · rw [flq, if_pos (by exact_mod_cast hneg)]
    rw [show (-(z : ℚ)) = ((-z : ℤ) : ℚ) from by push_cast; ring]
    rw [flqPos_int_exact (-z) (by omega) (by omega)]
    push_cast; ring
  · subst hzero
    rw [flq, if_neg (by norm_num), flqPos, if_pos (by norm_num)]
    norm_num
  · rw [flq, if_neg (by exact_mod_cast not_lt.mpr (le_of_lt (by exact_mod_cast hpos)))]
    exact flqPos_int_exact z hpos hhi

theorem flq_int_big (z : ℤ) (h : 2 ^ 53 ≤ z ∨ z ≤ -(2 ^ 53)) :
    ∃ w : ℤ, flq (z : ℚ) = (w : ℚ) ∧ 2 ∣ w ∧
      (2 ^ 53 ≤ z → 2 ^ 53 ≤ w) ∧ (z ≤ -(2 ^ 53) → w ≤ -(2 ^ 53)) := by
  rcases h with hpos | hneg
  · have hq : (2 : ℚ) ^ (53 : ℕ) ≤ (z : ℚ) := by
      have : ((2 ^ 53 : ℤ) : ℚ) ≤ (z : ℚ) := by exact_mod_cast hpos
      push_cast at this
      norm_num
      linarith
    obtain ⟨w, hw, hge⟩ := flqPos_int_big hq
    refine ⟨2 * w, ?_, ⟨w, rfl⟩, ?_, ?_⟩
    · rw [flq, if_neg (not_lt.mpr (by exact_mod_cast (by omega : (0 : ℤ) ≤ z)))]
      exact hw
    · intro _
      rw [hw] at hge
      have : ((2 ^ 53 : ℤ) : ℚ) ≤ ((2 * w : ℤ) : ℚ) := by push_cast at hge ⊢; linarith
      exact_mod_cast this
    · intro hcontra; omega
  · have hq : (2 : ℚ) ^ (53 : ℕ) ≤ ((-z : ℤ) : ℚ) := by
      have : ((2 ^ 53 : ℤ) : ℚ) ≤ ((-z : ℤ) : ℚ) := by exact_mod_cast by omega
      push_cast at this ⊢
      norm_num
      linarith
    obtain ⟨w, hw, hge⟩ := flqPos_int_big hq
    refine ⟨-(2 * w), ?_, ⟨-w, by ring⟩, ?_, ?_⟩
    · rw [flq, if_pos (by exact_mod_cast by omega : (z : ℚ) < 0)]
      rw [show (-(z : ℚ)) = ((-z : ℤ) : ℚ) from by push_cast; ring, hw]
      push_cast; ring
    · intro hcontra; omega
    · intro _
      rw [hw] at hge
      have h2 : ((2 ^ 53 : ℤ) : ℚ) ≤ ((2 * w : ℤ) : ℚ) := by push_cast at hge ⊢; linarith
      have h3 : (2 ^ 53 : ℤ) ≤ 2 * w := by exact_mod_cast h2
      omega

theorem flq_nonneg {q : ℚ} (h : 0 ≤ q) : 0 ≤ flq q := by
  rw [flq_of_nonneg h]
  rcases eq_or_lt_of_le h with heq | h0
  · rw [flqPos, if_pos (le_of_eq heq.symm)]
  · rw [flqPos_eq h0]
    apply mul_nonneg _ (le_of_lt (two_zpow_pos _))
    have hm := (flqPos_scaled_int h0).1
    have hge := roundNearestEven_ge (q * 2 ^ (52 - Int.log 2 q))
    have h52 : (1 : ℚ) ≤ 2 ^ (52 : ℕ) := by norm_num
    linarith

theorem flq_lt_one {q : ℚ} (h0 : 0 ≤ q) (h : q ≤ 1 - (2 : ℚ) ^ (-31 : ℤ)) :
    flq q < 1 := by
  rw [flq_of_nonneg h0]
  rcases eq_or_lt_of_le h0 with heq | hpos
  · rw [flqPos, if_pos (le_of_eq heq.symm)]; norm_num
  · have hq1 : q < 1 := by
      have := two_zpow_pos (-31 : ℤ)
      linarith
    have he : Int.log 2 q ≤ -1 := by
      apply log2_le_of_lt hpos (n := -1)
      norm_num
      exact hq1
    have hclose := abs_le.mp (flqPos_close hpos)
    have hb : (2 : ℚ) ^ (Int.log 2 q - 53) ≤ 2 ^ (-54 : ℤ) :=
      zpow_le_zpow_right₀ (by norm_num) (by omega)
    have h31 : (2 : ℚ) ^ (-54 : ℤ) < 2 ^ (-31 : ℤ) := by
      have h1 : (2 : ℚ) ^ (-54 : ℤ) * 2 ^ (23 : ℤ) = 2 ^ (-31 : ℤ) := by
        rw [two_zpow_mul]; norm_num
      have h2 : (1 : ℚ) < 2 ^ (23 : ℤ) := by norm_num
      nlinarith [two_zpow_pos (-54 : ℤ)]
    linarith [hclose.2]

set_option maxHeartbeats 1600000 in
theorem seededRandomNext_spec (s : ℤ) (hs : |s| ≤ 2 ^ 32) :
    0 ≤ seededRandomNext s ∧ seededRandomNext s < 2 ^ 31 ∧
      seededRandomNext s ≠ 2 ^ 31 - 1 := by
  refine ⟨Int.emod_nonneg _ (by norm_num), Int.emod_lt_of_pos _ (by norm_num), ?_⟩
  unfold seededRandomNext
  have hcast1 : (s : ℚ) * 1103515245 = ((s * 1103515245 : ℤ) : ℚ) := by push_cast; ring
  rw [hcast1]
  rcases abs_le.mp hs with ⟨hs1, hs2⟩
  rcases lt_or_le (s * 1103515245) (2 ^ 53) with hhi | hbig
  · rcases lt_or_le (-(2 ^ 53) : ℤ) (s * 1103515245) with hlo | hsmallneg
    · -- |P| < 2^53: the product is exact
      rw [flq_int_small _ hlo hhi]
      have hsb : -8162279 < s ∧ s < 8162279 := by constructor <;> omega
      have hcast2 : ((s * 1103515245 : ℤ) : ℚ) + 12345 =
          ((s * 1103515245 + 12345 : ℤ) : ℚ) := by push_cast; ring
      rw [hcast2]
      rcases lt_or_le (s * 1103515245 + 12345) (2 ^ 53) with hchi | hcbig
      · rw [flq_int_small _ (by omega) hchi, qtrunc_intCast]
        intro heq
        have hdvd : (2 : ℤ) ^ 31 ∣ (s * 1103515245 + 12345) - (2 ^ 31 - 1) :=
          Int.dvd_sub_of_emod_eq heq
        have hs0 : (2 : ℤ) ^ 31 ∣
            (230538014 * 1103515245 + 12345) - (2 ^ 31 - 1) := by decide
        have hdiff : (2 : ℤ) ^ 31 ∣ 1103515245 * (s - 230538014) := by
          have h3 := dvd_sub hdvd hs0
          have h4 : (s * 1103515245 + 12345) - (2 ^ 31 - 1) -
              ((230538014 * 1103515245 + 12345) - (2 ^ 31 - 1)) =
              1103515245 * (s - 230538014) := by ring
          rwa [h4] at h3
        have hcop : IsCoprime ((2 : ℤ) ^ 31) 1103515245 := by
          rw [Int.isCoprime_iff_gcd_eq_one]
          decide
        have hdvd2 : (2 : ℤ) ^ 31 ∣ (s - 230538014) :=
          hcop.dvd_of_dvd_mul_left hdiff
        clear heq hdvd hs0 hdiff hcop hhi hlo hchi hs1 hs2
        rcases hdvd2 with ⟨k, hk⟩
        omega
      · obtain ⟨w, hw, ⟨w', rfl⟩, _, _⟩ :=
          flq_int_big (s * 1103515245 + 12345) (Or.inl hcbig)
        rw [hw, qtrunc_intCast]
        omega
    · -- P ≤ -2^53
      obtain ⟨t, ht, ⟨t', rfl⟩, htpos, htneg⟩ :=
        flq_int_big (s * 1103515245) (Or.inr (by omega))
      rw [ht]
      have hT := htneg (by omega)
      have hcast2 : ((2 * t' : ℤ) : ℚ) + 12345 =
          ((2 * t' + 12345 : ℤ) : ℚ) := by push_cast; ring
      rw [hcast2]
      rcases lt_or_le (2 * t' + 12345) (-(2 ^ 53) : ℤ) with hclo | hcmid
      · obtain ⟨w, hw, ⟨w', rfl⟩, _, _⟩ :=
          flq_int_big (2 * t' + 12345) (Or.inr (by omega))
        rw [hw, qtrunc_intCast]
        omega
      · rcases lt_or_le (2 * t' + 12345) (2 ^ 53) with hchi | hcbig
        · rw [flq_int_small _ (by omega) hchi, qtrunc_intCast]
          omega
        · obtain ⟨w, hw, ⟨w', rfl⟩, _, _⟩ :=
            flq_int_big (2 * t' + 12345) (Or.inl hcbig)
          rw [hw, qtrunc_intCast]
          omega
  · -- P ≥ 2^53
    obtain ⟨t, ht, ⟨t', rfl⟩, htpos, htneg⟩ :=
      flq_int_big (s * 1103515245) (Or.inl hbig)
    rw [ht]
    have hT := htpos hbig
    have hcast2 : ((2 * t' : ℤ) : ℚ) + 12345 =
        ((2 * t' + 12345 : ℤ) : ℚ) := by push_cast; ring
    rw [hcast2]
    obtain ⟨w, hw, ⟨w', rfl⟩, _, _⟩ :=
      flq_int_big (2 * t' + 12345) (Or.inl (by omega))
    rw [hw, qtrunc_intCast]
    omega

theorem seededRandomState_bound (seed : ℤ) (hs : |seed| ≤ 2 ^ 32) :
    ∀ k : Nat, 0 ≤ seededRandomState seed (k + 1) ∧
      seededRandomState seed (k + 1) ≤ 2 ^ 31 - 2 := by
  have habs : ∀ k : Nat, |seededRandomState seed k| ≤ 2 ^ 32 := by
    intro k
    induction k with
    | zero => exact hs
    | succ k ih =>
      obtain ⟨h0, h1, _⟩ := seededRandomNext_spec (seededRandomState seed k) ih
      rw [seededRandomState]
      rw [abs_le]
      omega
  intro k
  obtain ⟨h0, h1, h2⟩ := seededRandomNext_spec (seededRandomState seed k) (habs k)
  rw [seededRandomState]
  omega

/-- C5: for every 32-bit-representable seed and every number of calls, the
generator returned by `seededRandom` produces a value in `[0, 1)`.  The
state update is modelled with explicit float64 rounding: an exact-integer
model would be wrong here, because the seed 230538014 would reach the state
`0x7fffffff` (and hence the value 1) were the multiplication not rounded,
while under IEEE rounding every product beyond 2^53 is even and the
all-ones state is unreachable. -/
theorem seededRandom_in_unit_interval (seed : ℤ) (hs : |seed| ≤ 2 ^ 32)
    (k : Nat) :
    0 ≤ seededRandomValue (seededRandomState seed (k + 1)) ∧
      seededRandomValue (seededRandomState seed (k + 1)) < 1 := by
  obtain ⟨h0, h1⟩ := seededRandomState_bound seed hs k
  unfold seededRandomValue
  have hden : (0 : ℚ) < 2 ^ 31 - 1 := by norm_num
  have hq0 : (0 : ℚ) ≤ (seededRandomState seed (k + 1) : ℚ) / (2 ^ 31 - 1) := by
    apply div_nonneg _ (le_of_lt hden)
    exact_mod_cast h0
  constructor
  · exact flq_nonneg hq0
  · apply flq_lt_one hq0
    rw [div_le_iff₀ hden]
    have hc : ((seededRandomState seed (k + 1) : ℤ) : ℚ) ≤
        (((2 : ℤ) ^ 31 - 2 : ℤ) : ℚ) := by exact_mod_cast h1
    push_cast at hc
    have hz : (2 : ℚ) ^ (-31 : ℤ) * (2 ^ (31 : ℤ)) = 1 := by
      rw [two_zpow_mul]; norm_num
    have h31 : ((2 : ℚ) ^ (31 : ℤ)) = 2 ^ (31 : ℕ) := by norm_num
    nlinarith [two_zpow_pos (-31 : ℤ)]

/-- Witness for C5 at seed 42, first call. -/
theorem seededRandom_in_unit_interval_witness :
    |(42 : ℤ)| ≤ 2 ^ 32 ∧
    (0 ≤ seededRandomValue (seededRandomState 42 1) ∧
      seededRandomValue (seededRandomState 42 1) < 1) :=
  ⟨by decide, seededRandom_in_unit_interval 42 (by decide) 0⟩

theorem fresh_inv {s : SimulationState} (h : Fresh s) : Inv s := by
  obtain ⟨hw, ha, hc, htick, htaxi, hnd⟩ := h
  refine ⟨?_, ?_, ?_, hnd⟩
  · constructor <;> simp [hw, ha, hc]
  · intro t ht
    obtain ⟨hst, hpath, hcp⟩ := htaxi t ht
    refine ⟨fun _ => hcp, fun hpk => ?_, fun hdv => ?_⟩
    · rw [hst] at hpk; cases hpk
    · rw [hst] at hdv; cases hdv
  · apply List.pairwise_of_forall_mem_list
    intro t₁ h₁ t₂ h₂ pa₁ pa₂ hpa₁
    rw [(htaxi t₁ h₁).2.2] at hpa₁
    cases hpa₁

theorem spawn_inv {s : SimulationState} {p : Passenger} (hInv : Inv s)
    (hfresh : p.id ∉ (s.waitingPassengers ++ s.activePassengers ++
      s.completedPassengers).map Passenger.id)
    (hpk : p.pickedUpTick = none) (hdv : p.deliveredTick = none) :
    Inv { s with waitingPassengers := s.waitingPassengers ++ [p] } := by
  obtain ⟨q, htax, hpair, hnd⟩ := hInv
  simp only [List.map_append, List.mem_append, List.mem_map] at hfresh
  push_neg at hfresh
  refine ⟨?_, ?_, hpair, hnd⟩
  · refine ⟨?_, q.aN, q.cN, ?_, ?_, q.ac, ?_, q.aT, q.cT⟩
    · rw [List.map_append]
      rw [List.nodup_append]
      refine ⟨q.wN, by simp, ?_⟩
      intro i hi
      simp only [List.map_cons, List.map_nil, List.mem_singleton]
      rcases List.mem_map.mp hi with ⟨q', hq', rfl⟩
      intro hcon
      exact (hfresh.1.1 q' hq') hcon
    · intro i hi
      rw [List.map_append, List.mem_append] at hi
      rcases hi with hi | hi
      · exact q.wa i hi
      · simp only [List.map_cons, List.map_nil, List.mem_singleton] at hi
        subst hi
        intro hcon
        rcases List.mem_map.mp hcon with ⟨q', hq', hid⟩
        exact (hfresh.1.2 q' hq') hid
    · intro i hi
      rw [List.map_append, List.mem_append] at hi
      rcases hi with hi | hi
      · exact q.wc i hi
      · simp only [List.map_cons, List.map_nil, List.mem_singleton] at hi
        subst hi
        intro hcon
        rcases List.mem_map.mp hcon with ⟨q', hq', hid⟩
        exact (hfresh.2 q' hq') hid
    · intro q' hq'
      rcases List.mem_append.mp hq' with h | h
      · exact q.wT q' h
      · rcases List.mem_singleton.mp h with rfl
        exact ⟨hpk, hdv⟩
  · intro t ht
    obtain ⟨h1, h2, h3⟩ := htax t ht
    refine ⟨h1, ?_, h3⟩
    intro hst
    obtain ⟨pa, hcp, hmem, h4, h5, h6⟩ := h2 hst
    exact ⟨pa, hcp, List.mem_append.mpr (Or.inl hmem), h4, h5, h6⟩

theorem commitPairing_inv (city : City) {s : SimulationState} (t : Taxi)
    {p : Passenger} (hInv : Inv s) (hp : p ∈ s.waitingPassengers)
    (hpa : p.assignedTaxiId = none) :
    Inv (commitPairing city s t p) := by
  obtain ⟨q, htax, hpair, hnd⟩ := hInv
  have hinj := List.inj_on_of_nodup_map q.wN
  -- the passenger update keeps ids, ticks and membership of untouched entries
  have hFid : ∀ q' : Passenger,
      (if q'.id = p.id then { q' with assignedTaxiId := some t.id } else q').id =
        q'.id := by
    intro q'; split <;> rfl
  have hwids : ((s.waitingPassengers.map fun q' =>
      if q'.id = p.id then { q' with assignedTaxiId := some t.id } else q').map
        Passenger.id) = s.waitingPassengers.map Passenger.id := by
    rw [List.map_map]
    exact List.map_congr_left fun q' _ => hFid q'
  have hFother : ∀ q' ∈ s.waitingPassengers, q'.assignedTaxiId ≠ none →
      (if q'.id = p.id then { q' with assignedTaxiId := some t.id } else q') =
        q' := by
    intro q' hq' hne
    rw [if_neg]
    intro hid
    exact hne (hinj hq' hp hid ▸ hpa)
  have hGid : ∀ u : Taxi,
      (if u.id = t.id then
        { u with state := TaxiState.pickingUp,
                 currentPassenger := some { p with assignedTaxiId := some t.id },
                 targetPosition := some p.pickup,
                 path := findPath city t.position p.pickup }
       else u).id = u.id := by
    intro u; split <;> rfl
  have htids : ((s.taxis.map fun u =>
      if u.id = t.id then
        { u with state := TaxiState.pickingUp,
                 currentPassenger := some { p with assignedTaxiId := some t.id },
                 targetPosition := some p.pickup,
                 path := findPath city t.position p.pickup }
      else u).map Taxi.id) = s.taxis.map Taxi.id := by
    rw [List.map_map]
    exact List.map_congr_left fun u _ => hGid u
  -- a held passenger of a picking-up or delivering taxi is never `p`
  have hheld_ne : ∀ u ∈ s.taxis, ∀ pa, u.currentPassenger = some pa →
      pa.id ≠ p.id := by
    intro u hu pa hcp
    obtain ⟨h1, h2, h3⟩ := htax u hu
    match hst : u.state with
    | TaxiState.idle => rw [h1 hst] at hcp; cases hcp
    | TaxiState.pickingUp =>
      obtain ⟨pb, hcp', hmem, hassigned, _, _⟩ := h2 hst
      rw [hcp'] at hcp
      cases hcp
      intro hid
      have := hinj hmem hp hid
      rw [this] at hassigned
      rw [hpa] at hassigned
      cases hassigned
    | TaxiState.delivering =>
      obtain ⟨pb, hcp', hmem, _⟩ := h3 hst
      rw [hcp'] at hcp
      cases hcp
      intro hid
      have hin : pa.id ∈ s.activePassengers.map Passenger.id :=
        List.mem_map_of_mem Passenger.id hmem
      have hin2 : p.id ∈ s.waitingPassengers.map Passenger.id :=
        List.mem_map_of_mem Passenger.id hp
      exact q.wa p.id hin2 (hid ▸ hin)
  unfold commitPairing
  refine ⟨?_, ?_, ?_, ?_⟩
  · refine ⟨by rw [hwids]; exact q.wN, q.aN, q.cN, ?_, ?_, q.ac, ?_, q.aT, q.cT⟩
    · intro i hi; rw [hwids] at hi; exact q.wa i hi
    · intro i hi; rw [hwids] at hi; exact q.wc i hi
    · intro q' hq'
      rcases List.mem_map.mp hq' with ⟨q₀, hq₀, rfl⟩
      have := q.wT q₀ hq₀
      split <;> exact this
  · intro u' hu'
    rcases List.mem_map.mp hu' with ⟨u, hu, rfl⟩
    by_cases hid : u.id = t.id
    · rw [if_pos hid]
      unfold TaxiOK
      refine ⟨?_, ?_, ?_⟩
      · intro h; simp at h
      · intro h2
        refine ⟨{ p with assignedTaxiId := some t.id }, rfl, ?_, ?_, ?_, ?_⟩
        · apply List.mem_map.mpr
          exact ⟨p, hp, by rw [if_pos rfl]⟩
        · simp [hid]
        · exact (q.wT p hp).1
        · exact (q.wT p hp).2
      · intro h; simp at h
    · rw [if_neg hid]
      obtain ⟨h1, h2, h3⟩ := htax u hu
      refine ⟨h1, ?_, ?_⟩
      · intro hst
        obtain ⟨pa, hcp, hmem, h4, h5, h6⟩ := h2 hst
        refine ⟨pa, hcp, ?_, h4, h5, h6⟩
        apply List.mem_map.mpr
        refine ⟨pa, hmem, ?_⟩
        rw [if_neg (hheld_ne u hu pa hcp)]
      · intro hst
        obtain ⟨pa, hcp, hmem, h4⟩ := h3 hst
        exact ⟨pa, hcp, hmem, h4⟩
  · rw [List.pairwise_map]
    have hids : List.Pairwise (fun u₁ u₂ : Taxi => u₁.id ≠ u₂.id) s.taxis := by
      rw [← List.pairwise_map (f := Taxi.id) (R := fun i₁ i₂ => i₁ ≠ i₂)]
      exact hnd
    refine ((hpair.and hids).imp_of_mem ?_)
    intro u₁ u₂ h₁ h₂ hr pa₁ pa₂ hcp₁ hcp₂
    obtain ⟨hrel, hidne⟩ := hr
    by_cases hu₁ : u₁.id = t.id
    · rw [if_pos hu₁] at hcp₁
      simp only [Option.some_inj] at hcp₁
      by_cases hu₂ : u₂.id = t.id
      · exact absurd (hu₁.trans hu₂.symm) hidne
      · rw [if_neg hu₂] at hcp₂
        have := hheld_ne u₂ h₂ pa₂ hcp₂
        rw [← hcp₁]
        intro hcon
        exact this hcon.symm
    · rw [if_neg hu₁] at hcp₁
      by_cases hu₂ : u₂.id = t.id
      · rw [if_pos hu₂] at hcp₂
        simp only [Option.some_inj] at hcp₂
        have := hheld_ne u₁ h₁ pa₁ hcp₁
        rw [← hcp₂]
        exact this
      · rw [if_neg hu₂] at hcp₂
        exact hrel pa₁ pa₂ hcp₁ hcp₂
  · rw [htids]; exact hnd

theorem commitFold_inv :
    ∀ (prs : List (Taxi × Passenger × JsNum)) (s : SimulationState),
      Inv s →
      (∀ pr ∈ prs, pr.2.1 ∈ s.waitingPassengers ∧
        pr.2.1.assignedTaxiId = none) →
      ((prs.map fun pr => pr.2.1.id).Nodup) →
      Inv (prs.foldl (fun st pr => commitPairing st.city st pr.1 pr.2.1) s) := by
  intro prs
  induction prs with
  | nil => intro s hInv _ _; exact hInv
  | cons pr prs ih =>
    intro s hInv hmem hnd
    rw [List.map_cons, List.nodup_cons] at hnd
    rw [List.foldl_cons]
    have h0 := hmem pr (by simp)
    apply ih
    · exact commitPairing_inv s.city pr.1 hInv h0.1 h0.2
    · intro pr' hpr'
      obtain ⟨hm, ha⟩ := hmem pr' (by simp [hpr'])
      have hne : pr'.2.1.id ≠ pr.2.1.id := by
        intro hcon
        exact hnd.1 (hcon ▸ List.mem_map_of_mem (fun x => x.2.1.id) hpr')
      constructor
      · show pr'.2.1 ∈ (commitPairing s.city s pr.1 pr.2.1).waitingPassengers
        unfold commitPairing
        apply List.mem_map.mpr
        exact ⟨pr'.2.1, hm, by rw [if_neg hne]⟩
      · exact ha
    · exact hnd.2

theorem assignGreedy_inv {s : SimulationState} (hInv : Inv s) :
    Inv (assignGreedy s) := by
  unfold assignGreedy
  apply commitFold_inv _ _ hInv
  · intro pr hpr
    rw [greedyPairings] at hpr
    obtain ⟨_, h2⟩ := greedyAssignments_mem s.city _ _ pr hpr
    have := List.mem_filter.mp h2
    exact ⟨this.1, by simpa using this.2⟩
  · rw [greedyPairings]
    apply greedyAssignments_passIds_nodup
    exact ((List.filter_sublist s.waitingPassengers).map Passenger.id).nodup
      hInv.1.wN

theorem optCommitFold_inv :
    ∀ (asg : List (String × String)) (s : SimulationState), Inv s →
      Inv (asg.foldl
        (fun st pr =>
          match st.taxis.find? (fun t => t.id == pr.1),
                st.waitingPassengers.find? (fun p => p.id == pr.2) with
          | some t, some p =>
            if t.state = TaxiState.idle ∧ p.assignedTaxiId = none then
              commitPairing st.city st t p
            else st
          | _, _ => st) s) := by
  intro asg
  induction asg with
  | nil => intro s hInv; exact hInv
  | cons pr asg ih =>
    intro s hInv
    rw [List.foldl_cons]
    apply ih
    rcases h1 : s.taxis.find? (fun t => t.id == pr.1) with _ | t
    · simpa [h1] using hInv
    · rcases h2 : s.waitingPassengers.find? (fun p => p.id == pr.2) with _ | p
      · simpa [h1, h2] using hInv
      · simp only [h1, h2]
        by_cases hc : t.state = TaxiState.idle ∧ p.assignedTaxiId = none
        · rw [if_pos hc]
          exact commitPairing_inv s.city t hInv (List.mem_of_find?_eq_some h2)
            hc.2
        · rw [if_neg hc]; exact hInv

theorem assignOptimized_inv {s s' : SimulationState} {q : Nat} (hInv : Inv s)
    (h : assignOptimized s q defaultOptimizer = some s') : Inv s' := by
  unfold assignOptimized at h
  rcases Option.map_eq_some'.mp h with ⟨asg, _, hs'⟩
  subst hs'
  exact optCommitFold_inv asg s hInv

theorem eraseP_by_id {w : List Passenger} {pa : Passenger}
    (hN : (w.map Passenger.id).Nodup) (hmem : pa ∈ w) :
    ((w.eraseP fun x => x.id == pa.id).map Passenger.id).Nodup ∧
    pa.id ∉ ((w.eraseP fun x => x.id == pa.id).map Passenger.id) ∧
    (∀ pb ∈ w, pb.id ≠ pa.id → pb ∈ w.eraseP fun x => x.id == pa.id) ∧
    (∀ pb ∈ w.eraseP (fun x => x.id == pa.id), pb ∈ w) := by
  obtain ⟨e, l₁, l₂, hnl₁, hpe, hw, herase⟩ :=
    List.exists_of_eraseP (p := fun x : Passenger => x.id == pa.id) hmem
      (by simp)
  have heid : e.id = pa.id := by simpa using hpe
  have hN' : ((l₁ ++ e :: l₂).map Passenger.id).Nodup := hw ▸ hN
  rw [List.map_append, List.map_cons, List.nodup_append] at hN'
  obtain ⟨hN₁, hN₂, hdisj⟩ := hN'
  rw [List.nodup_cons] at hN₂
  refine ⟨?_, ?_, ?_, ?_⟩
  · rw [herase, List.map_append, List.nodup_append]
    refine ⟨hN₁, hN₂.2, ?_⟩
    intro i hi hcon
    exact hdisj hi (List.mem_cons_of_mem _ hcon)
  · rw [herase, List.map_append]
    intro hcon
    rcases List.mem_append.mp hcon with h | h
    · exact hdisj h (List.mem_cons.mpr (Or.inl heid.symm))
    · exact hN₂.1 (by rw [heid]; exact h)
  · intro pb hpb hne
    rw [herase]
    rw [hw] at hpb
    rcases List.mem_append.mp hpb with h | h
    · exact List.mem_append.mpr (Or.inl h)
    · rcases List.mem_cons.mp h with rfl | h
      · exact absurd heid hne
      · exact List.mem_append.mpr (Or.inr h)
  · intro pb hpb
    rw [herase] at hpb
    rw [hw]
    rcases List.mem_append.mp hpb with h | h
    · exact List.mem_append.mpr (Or.inl h)
    · exact List.mem_append.mpr (Or.inr (List.mem_cons_of_mem _ h))

theorem TaxiOK_mono {w a : List Passenger} {b b' : Nat} (h : b ≤ b') {t : Taxi}
    (ht : TaxiOK w a b t) : TaxiOK w a b' t := by
  obtain ⟨h1, h2, h3⟩ := ht
  refine ⟨h1, h2, ?_⟩
  intro hst
  obtain ⟨pa, hcp, hmem, pk, hpk, hlt, hdv⟩ := h3 hst
  exact ⟨pa, hcp, hmem, pk, hpk, lt_of_lt_of_le hlt h, hdv⟩

theorem TaxiOK_queues {u t₀ : Taxi} {w a w' a' : List Passenger} {bound : Nat}
    (hu : TaxiOK w a bound u) (hrel : HeldRel u t₀)
    (hw : ∀ pb ∈ w, (∀ pa₀, t₀.currentPassenger = some pa₀ →
      pb.id ≠ pa₀.id) → pb ∈ w')
    (ha : ∀ pb ∈ a, (∀ pa₀, t₀.currentPassenger = some pa₀ →
      pb.id ≠ pa₀.id) → pb ∈ a') :
    TaxiOK w' a' bound u := by
  obtain ⟨h1, h2, h3⟩ := hu
  refine ⟨h1, ?_, ?_⟩
  · intro hst
    obtain ⟨pa, hcp, hmem, h4, h5, h6⟩ := h2 hst
    exact ⟨pa, hcp, hw pa hmem (fun pa₀ hcp₀ => hrel pa pa₀ hcp hcp₀),
      h4, h5, h6⟩
  · intro hst
    obtain ⟨pa, hcp, hmem, h4⟩ := h3 hst
    exact ⟨pa, hcp, ha pa hmem (fun pa₀ hcp₀ => hrel pa pa₀ hcp hcp₀), h4⟩

theorem TaxiOK_fields {t t' : Taxi} (hst : t'.state = t.state)
    (hcp : t'.currentPassenger = t.currentPassenger) (hid : t'.id = t.id)
    {w a : List Passenger} {b : Nat} (ht : TaxiOK w a b t) : TaxiOK w a b t' := by
  obtain ⟨h1, h2, h3⟩ := ht
  refine ⟨?_, ?_, ?_⟩
  · intro h; rw [hst] at h; rw [hcp]; exact h1 h
  · intro h
    rw [hst] at h
    obtain ⟨pa, hpa, hmem, h4, h5, h6⟩ := h2 h
    exact ⟨pa, by rw [hcp]; exact hpa, hmem, by rw [hid]; exact h4, h5, h6⟩
  · intro h
    rw [hst] at h
    obtain ⟨pa, hpa, hmem, h4⟩ := h3 h
    exact ⟨pa, by rw [hcp]; exact hpa, hmem, h4⟩

theorem tickTaxi_inv (city : City) (tk : Nat) (t : Taxi) (w a c : List Passenger)
    (hq : QInv w a c (tk + 1)) (ht : TaxiOK w a tk t) :
    QInv (tickTaxi city tk t w a c).2.1 (tickTaxi city tk t w a c).2.2.1
      (tickTaxi city tk t w a c).2.2.2 (tk + 1) ∧
    TaxiOK (tickTaxi city tk t w a c).2.1 (tickTaxi city tk t w a c).2.2.1
      (tk + 1) (tickTaxi city tk t w a c).1 ∧
    (∀ pa', (tickTaxi city tk t w a c).1.currentPassenger = some pa' →
      ∃ pa, t.currentPassenger = some pa ∧ pa'.id = pa.id) ∧
    (∀ pb ∈ w, (∀ pa, t.currentPassenger = some pa → pb.id ≠ pa.id) →
      pb ∈ (tickTaxi city tk t w a c).2.1) ∧
    (∀ pb ∈ a, (∀ pa, t.currentPassenger = some pa → pb.id ≠ pa.id) →
      pb ∈ (tickTaxi city tk t w a c).2.2.1) := by
  cases hp : t.path with
  | nil =>
    simp only [tickTaxi, hp]
    exact ⟨hq, TaxiOK_mono (by omega) ht, fun pa' hpa' => ⟨pa', hpa', rfl⟩,
      fun pb hb _ => hb, fun pb hb _ => hb⟩
  | cons next rest =>
    cases rest with
    | cons b bs =>
      simp only [tickTaxi, hp]
      refine ⟨hq, ?_, ?_, fun pb hb _ => hb, fun pb hb _ => hb⟩
      · have hst : ({ t with
            position := next,
            path := b :: bs,
            totalDistance := t.totalDistance + 1 } : Taxi).state =
            t.state := rfl
        exact TaxiOK_fields hst rfl rfl (TaxiOK_mono (Nat.le_succ tk) ht)
      · intro pa' hpa'
        exact ⟨pa', hpa', rfl⟩
    | nil =>
      cases hcp : t.currentPassenger with
      | none =>
        simp only [tickTaxi, hp, hcp]
        refine ⟨hq, ?_, ?_, fun pb hb _ => hb, fun pb hb _ => hb⟩
        · have hst : ({ t with
              position := next,
              path := ([] : List Position),
              currentPassenger := none,
              totalDistance := t.totalDistance + 1 } : Taxi).state =
              t.state := rfl
          exact TaxiOK_fields hst hcp.symm rfl
            (TaxiOK_mono (Nat.le_succ tk) ht)
        · intro pa' hpa'
          simp at hpa'
      | some pa =>
        cases hstate : t.state with
        | idle =>
          exact absurd (ht.1 hstate) (by simp [hcp])
        | pickingUp =>
          obtain ⟨pb, hcpb, hpaw, hassigned, hpk, hdv⟩ := ht.2.1 hstate
          rw [hcp] at hcpb
          injection hcpb with hpb
          subst hpb
          obtain ⟨EN, ENot, EMem, ESub⟩ := eraseP_by_id hq.wN hpaw
          have hcond : (w.any fun q =>
              q.id == ({ pa with pickedUpTick := some tk } : Passenger).id) =
              true :=
            List.any_eq_true.mpr ⟨pa, hpaw, by simp⟩
          simp only [tickTaxi, hp, hcp, hstate, hcond, if_true]
          have hEids : ∀ i ∈ ((w.eraseP fun q =>
              q.id == pa.id).map Passenger.id), i ∈ w.map Passenger.id := by
            intro i hi
            rcases List.mem_map.mp hi with ⟨x, hx, rfl⟩
            exact List.mem_map_of_mem Passenger.id (ESub x hx)
          have hpaidw : pa.id ∈ w.map Passenger.id :=
            List.mem_map_of_mem Passenger.id hpaw
          refine ⟨?_, ?_, ?_, ?_, ?_⟩
          · refine ⟨EN, ?_, hq.cN, ?_, ?_, ?_, ?_, ?_, hq.cT⟩
            · rw [List.map_append, List.nodup_append]
              refine ⟨hq.aN, by simp, ?_⟩
              intro i hi
              simp only [List.map_cons, List.map_nil, List.mem_singleton]
              intro hcon
              exact hq.wa pa.id hpaidw (hcon ▸ hi)
            · intro i hi
              rw [List.map_append, List.mem_append]
              push_neg
              refine ⟨hq.wa i (hEids i hi), ?_⟩
              simp only [List.map_cons, List.map_nil, List.mem_singleton]
              intro hcon
              exact ENot (hcon ▸ hi)
            · intro i hi
              exact hq.wc i (hEids i hi)
            · intro i hi
              rw [List.map_append, List.mem_append] at hi
              rcases hi with hi | hi
              · exact hq.ac i hi
              · simp only [List.map_cons, List.map_nil,
                  List.mem_singleton] at hi
                subst hi
                exact hq.wc pa.id hpaidw
            · intro p' hp'
              exact hq.wT p' (ESub p' hp')
            · intro p' hp'
              rcases List.mem_append.mp hp' with h | h
              · exact hq.aT p' h
              · rcases List.mem_singleton.mp h with rfl
                exact ⟨tk, rfl, by omega, hdv⟩
          · refine ⟨fun h => by simp at h, fun h => by simp at h, fun _ => ?_⟩
            refine ⟨{ pa with pickedUpTick := some tk }, rfl, ?_, tk, rfl,
              by omega, hdv⟩
            exact List.mem_append.mpr (Or.inr (List.mem_singleton.mpr rfl))
          · intro pa' hpa'
            simp only [Option.some_inj] at hpa'
            exact ⟨pa, rfl, by rw [← hpa']⟩
          · intro p' hp' hne
            exact EMem p' hp' (hne pa rfl)
          · intro p' hp' _
            exact List.mem_append.mpr (Or.inl hp')
        | delivering =>
          obtain ⟨pb, hcpb, hpaa, k, hpk, hklt, hdv⟩ := ht.2.2 hstate
          rw [hcp] at hcpb
          injection hcpb with hpb
          subst hpb
          obtain ⟨EN, ENot, EMem, ESub⟩ := eraseP_by_id hq.aN hpaa
          have hcond : (a.any fun q =>
              q.id == ({ pa with deliveredTick := some tk } : Passenger).id) =
              true :=
            List.any_eq_true.mpr ⟨pa, hpaa, by simp⟩
          simp only [tickTaxi, hp, hcp, hstate, hcond, if_true]
          have hEids : ∀ i ∈ ((a.eraseP fun q =>
              q.id == pa.id).map Passenger.id), i ∈ a.map Passenger.id := by
            intro i hi
            rcases List.mem_map.mp hi with ⟨x, hx, rfl⟩
            exact List.mem_map_of_mem Passenger.id (ESub x hx)
          have hpaida : pa.id ∈ a.map Passenger.id :=
            List.mem_map_of_mem Passenger.id hpaa
          refine ⟨?_, ?_, ?_, ?_, ?_⟩
          · refine ⟨hq.wN, EN, ?_, ?_, ?_, ?_, hq.wT, ?_, ?_⟩
            · rw [List.map_append, List.nodup_append]
              refine ⟨hq.cN, by simp, ?_⟩
              intro i hi
              simp only [List.map_cons, List.map_nil, List.mem_singleton]
              intro hcon
              exact hq.ac pa.id hpaida (hcon ▸ hi)
            · intro i hi
              intro hcon
              exact hq.wa i hi (hEids i hcon)
            · intro i hi
              rw [List.map_append, List.mem_append]
              push_neg
              refine ⟨hq.wc i hi, ?_⟩
              simp only [List.map_cons, List.map_nil, List.mem_singleton]
              intro hcon
              exact hq.wa i hi (hcon ▸ hpaida)
            · intro i hi
              rw [List.map_append, List.mem_append]
              push_neg
              refine ⟨hq.ac i (hEids i hi), ?_⟩
              simp only [List.map_cons, List.map_nil, List.mem_singleton]
              intro hcon
              exact ENot (hcon ▸ hi)
            · intro p' hp'
              exact hq.aT p' (ESub p' hp')
            · intro p' hp'
              rcases List.mem_append.mp hp' with h | h
              · exact hq.cT p' h
              · rcases List.mem_singleton.mp h with rfl
                exact ⟨k, tk, hpk, rfl, hklt⟩
          · exact ⟨fun _ => rfl, fun h => by simp at h, fun h => by simp at h⟩
          · intro pa' hpa'
            simp at hpa'
          · intro p' hp' _
            exact hp'
          · intro p' hp' hne
            exact EMem p' hp' (hne pa rfl)

theorem QInv_mono {w a c : List Passenger} {b b' : Nat} (h : b ≤ b')
    (hq : QInv w a c b) : QInv w a c b' := by
  refine ⟨hq.wN, hq.aN, hq.cN, hq.wa, hq.wc, hq.ac, hq.wT, ?_, hq.cT⟩
  intro p hp
  obtain ⟨pk, h1, h2, h3⟩ := hq.aT p hp
  exact ⟨pk, h1, lt_of_lt_of_le h2 h, h3⟩

theorem tickTaxi_id (city : City) (tk : Nat) (t : Taxi)
    (w a c : List Passenger) : (tickTaxi city tk t w a c).1.id = t.id := by
  cases hp : t.path with
  | nil => simp [tickTaxi, hp]
  | cons next rest =>
    cases rest with
    | cons b bs => simp [tickTaxi, hp]
    | nil =>
      cases hc : t.currentPassenger with
      | none => simp [tickTaxi, hp, hc]
      | some pa =>
        cases hs : t.state <;>
          simp only [tickTaxi, hp, hc, hs] <;>
          first
          | rfl
          | (split <;> rfl)

theorem HeldRel_symm {t u : Taxi} (h : HeldRel t u) : HeldRel u t :=
  fun pa₁ pa₂ h1 h2 => Ne.symm (h pa₂ pa₁ h2 h1)

theorem HeldRel_sub_left {t' t u : Taxi}
    (hsub : ∀ pa', t'.currentPassenger = some pa' →
      ∃ pa, t.currentPassenger = some pa ∧ pa'.id = pa.id)
    (h : HeldRel t u) : HeldRel t' u := by
  intro pa₁ pa₂ h1 h2
  obtain ⟨pa, hpa, hid⟩ := hsub pa₁ h1
  rw [hid]
  exact h pa pa₂ hpa h2

theorem tickFold_inv (city : City) (tk : Nat) :
    ∀ (rest done : List Taxi) (w a c : List Passenger),
    QInv w a c (tk + 1) →
    (∀ u ∈ done, TaxiOK w a (tk + 1) u) →
    (∀ u ∈ rest, TaxiOK w a tk u) →
    List.Pairwise HeldRel (done ++ rest) →
    QInv (rest.foldl (tickStep city tk) (done, w, a, c)).2.1
      (rest.foldl (tickStep city tk) (done, w, a, c)).2.2.1
      (rest.foldl (tickStep city tk) (done, w, a, c)).2.2.2 (tk + 1) ∧
    (∀ u ∈ (rest.foldl (tickStep city tk) (done, w, a, c)).1,
      TaxiOK (rest.foldl (tickStep city tk) (done, w, a, c)).2.1
        (rest.foldl (tickStep city tk) (done, w, a, c)).2.2.1 (tk + 1) u) ∧
    List.Pairwise HeldRel (rest.foldl (tickStep city tk) (done, w, a, c)).1 ∧
    ((rest.foldl (tickStep city tk) (done, w, a, c)).1.map Taxi.id) =
      (done ++ rest).map Taxi.id := by
  intro rest
  induction rest with
  | nil =>
    intro done w a c hq hdone hrest hpw
    simp only [List.foldl_nil]
    exact ⟨hq, hdone, by simpa using hpw, by simp⟩
  | cons t rs ih =>
    intro done w a c hq hdone hrest hpw
    rw [List.pairwise_append] at hpw
    obtain ⟨Pd, Ptr, Hdtr⟩ := hpw
    rw [List.pairwise_cons] at Ptr
    obtain ⟨Htrs, Prs⟩ := Ptr
    obtain ⟨hq2, htok2, hheld, hwp, hap⟩ :=
      tickTaxi_inv city tk t w a c hq (hrest t (List.mem_cons_self t rs))
    have hstep : (t :: rs).foldl (tickStep city tk) (done, w, a, c) =
        rs.foldl (tickStep city tk)
          (done ++ [(tickTaxi city tk t w a c).1],
            (tickTaxi city tk t w a c).2.1,
            (tickTaxi city tk t w a c).2.2.1,
            (tickTaxi city tk t w a c).2.2.2) := rfl
    rw [hstep]
    have Hdone : ∀ u ∈ done ++ [(tickTaxi city tk t w a c).1],
        TaxiOK (tickTaxi city tk t w a c).2.1
          (tickTaxi city tk t w a c).2.2.1 (tk + 1) u := by
      intro u hu
      rcases List.mem_append.mp hu with h | h
      · exact TaxiOK_queues (hdone u h)
          (Hdtr u h t (List.mem_cons_self t rs)) hwp hap
      · rcases List.mem_singleton.mp h with rfl
        exact htok2
    have Hrest : ∀ u ∈ rs, TaxiOK (tickTaxi city tk t w a c).2.1
        (tickTaxi city tk t w a c).2.2.1 tk u := by
      intro u hu
      exact TaxiOK_queues (hrest u (List.mem_cons_of_mem t hu))
        (HeldRel_symm (Htrs u hu)) hwp hap
    have Hpw : List.Pairwise HeldRel
        ((done ++ [(tickTaxi city tk t w a c).1]) ++ rs) := by
      rw [List.pairwise_append]
      refine ⟨?_, Prs, ?_⟩
      · rw [List.pairwise_append]
        refine ⟨Pd, by simp, ?_⟩
        intro u hu v hv
        rcases List.mem_singleton.mp hv with rfl
        exact HeldRel_symm (HeldRel_sub_left hheld
          (HeldRel_symm (Hdtr u hu t (List.mem_cons_self t rs))))
      · intro u hu v hv
        rcases List.mem_append.mp hu with h | h
        · exact Hdtr u h v (List.mem_cons_of_mem t hv)
        · rcases List.mem_singleton.mp h with rfl
          exact HeldRel_sub_left hheld (Htrs v hv)
    obtain ⟨ih1, ih2, ih3, ih4⟩ := ih (done ++ [(tickTaxi city tk t w a c).1])
      (tickTaxi city tk t w a c).2.1 (tickTaxi city tk t w a c).2.2.1
      (tickTaxi city tk t w a c).2.2.2 hq2 Hdone Hrest Hpw
    refine ⟨ih1, ih2, ih3, ?_⟩
    rw [ih4]
    simp [tickTaxi_id]

theorem tickSimulation_inv {s : SimulationState} (h : Inv s) :
    Inv (tickSimulation s) := by
  obtain ⟨hq, htax, hpw, hnd⟩ := h
  obtain ⟨hq2, htok2, hpw2, hids⟩ := tickFold_inv s.city s.tick s.taxis []
    s.waitingPassengers s.activePassengers s.completedPassengers
    (QInv_mono (Nat.le_succ s.tick) hq) (by simp) htax (by simpa using hpw)
  refine ⟨hq2, htok2, hpw2, ?_⟩
  have h2 : ((tickSimulation s).taxis.map Taxi.id) =
      (([] : List Taxi) ++ s.taxis).map Taxi.id := hids
  simp only [List.nil_append] at h2
  rw [h2]
  exact hnd

theorem step_inv {s t : SimulationState} (h : Inv s) (hs : Step s t) :
    Inv t := by
  cases hs with
  | spawn p hfresh hpk hdv has => exact spawn_inv h hfresh hpk hdv
  | greedy => exact assignGreedy_inv h
  | optimized q u hopt => exact assignOptimized_inv h hopt
  | tick => exact tickSimulation_inv h

theorem inv_of_reachable {s₀ s : SimulationState} (h₀ : Fresh s₀)
    (hr : Reachable s₀ s) : Inv s := by
  induction hr with
  | refl => exact fresh_inv h₀
  | tail _ hstep ih => exact step_inv ih hstep

/-- C8: in every state reachable from a fresh simulation by spawns,
assignments and ticks, every passenger belongs to exactly one of the
waiting, active and completed collections (the concatenated id list is
duplicate-free, so an id occurring in one collection occurs nowhere else
and only once there), and every passenger with both a pickup tick and a
delivery tick set has pickup tick strictly less than delivery tick. -/
theorem passenger_lifecycle_invariant (s₀ s : SimulationState)
    (h₀ : Fresh s₀) (hr : Reachable s₀ s) :
    ((s.waitingPassengers ++ s.activePassengers ++
        s.completedPassengers).map Passenger.id).Nodup ∧
    (∀ p ∈ s.waitingPassengers ++ s.activePassengers ++ s.completedPassengers,
      ∀ pk dv, p.pickedUpTick = some pk → p.deliveredTick = some dv →
        pk < dv) := by
  obtain ⟨hq, -, -, -⟩ := inv_of_reachable h₀ hr
  constructor
  · rw [List.map_append, List.nodup_append]
    refine ⟨?_, hq.cN, ?_⟩
    · rw [List.map_append, List.nodup_append]
      exact ⟨hq.wN, hq.aN, fun i hi => hq.wa i hi⟩
    · intro i hi
      rw [List.map_append, List.mem_append] at hi
      rcases hi with h | h
      · exact hq.wc i h
      · exact hq.ac i h
  · intro p hp pk dv hpk hdv
    rcases List.mem_append.mp hp with h | h
    · rcases List.mem_append.mp h with h1 | h1
      · rcases hq.wT p h1 with ⟨h2, -⟩
        rw [h2] at hpk
        cases hpk
      · rcases hq.aT p h1 with ⟨pk', -, -, h3⟩
        rw [h3] at hdv
        cases hdv
    · rcases hq.cT p h with ⟨pk', dv', h1, h2, h3⟩
      rw [h1] at hpk
      rw [h2] at hdv
      injection hpk with e1
      injection hdv with e2
      subst e1
      subst e2
      exact h3

theorem walkOK_append (city : City) (l₁ l₂ : List Position) :
    ∀ p, walkOK city p (l₁ ++ l₂) =
      (walkOK city p l₁ && walkOK city (l₁.getLastD p) l₂) := by
  induction l₁ with
  | nil => intro p; simp [walkOK]
  | cons q rest ih =>
    intro p
    rw [List.cons_append, walkOK, walkOK, List.getLastD_cons, ih q]
    simp [Bool.and_assoc]

theorem getLastD_append_pos (p : Position) (l₁ l₂ : List Position) :
    (l₁ ++ l₂).getLastD p = l₂.getLastD (l₁.getLastD p) := by
  induction l₁ generalizing p with
  | nil => simp
  | cons a as ih => rw [List.cons_append, List.getLastD_cons, ih a,
      List.getLastD_cons]

theorem reachIn_zero (city : City) (p q : Position) :
    reachIn city p q 0 ↔ q = p := by
  constructor
  · rintro ⟨l, hw, hlast, hlen⟩
    rw [List.length_eq_zero] at hlen
    subst hlen
    simpa using hlast.symm
  · rintro rfl
    exact ⟨[], rfl, rfl, rfl⟩

theorem reachIn_step {city : City} {s p q : Position} {n : Nat}
    (h : reachIn city s p n) (hnb : q ∈ neighborsOf p)
    (hroad : isRoadCell city q = true) : reachIn city s q (n + 1) := by
  obtain ⟨l, hw, hlast, hlen⟩ := h
  refine ⟨l ++ [q], ?_, ?_, by simp [hlen]⟩
  · rw [walkOK_append, hw, Bool.true_and, hlast, walkOK, walkOK]
    simp [hnb, hroad]
  · rw [getLastD_append_pos]
    rfl

theorem reachIn_succ {city : City} {s q : Position} {n : Nat}
    (h : reachIn city s q (n + 1)) :
    ∃ p, reachIn city s p n ∧ q ∈ neighborsOf p ∧
      isRoadCell city q = true := by
  obtain ⟨l, hw, hlast, hlen⟩ := h
  have hne : l ≠ [] := by
    intro hc
    subst hc
    simp at hlen
  have hconcat : l.dropLast ++ [l.getLast hne] = l :=
    List.dropLast_append_getLast hne
  rw [← hconcat, getLastD_append_pos] at hlast
  have hqlast : l.getLast hne = q := by simpa using hlast
  rw [← hconcat, walkOK_append, Bool.and_eq_true] at hw
  obtain ⟨hw1, hw2⟩ := hw
  rw [hqlast, walkOK, walkOK] at hw2
  simp only [Bool.and_true, Bool.and_eq_true, decide_eq_true_eq] at hw2
  refine ⟨l.dropLast.getLastD s, ⟨l.dropLast, hw1, rfl, ?_⟩, hw2.1, hw2.2⟩
  have := congrArg List.length hconcat
  simp only [List.length_append, List.length_singleton, hlen] at this
  omega

theorem heuristic_self (p : Position) : heuristic p p = 0 := by
  simp [heuristic]

theorem heuristic_triangle (a b c : Position) :
    heuristic a c ≤ heuristic a b + heuristic b c := by
  unfold heuristic
  omega

theorem heuristic_neighbor {p q : Position} (h : q ∈ neighborsOf p) :
    heuristic p q = 1 := by
  simp only [neighborsOf, List.mem_cons, List.mem_singleton,
    List.not_mem_nil, or_false] at h
  rcases h with rfl | rfl | rfl | rfl <;> unfold heuristic <;> simp

theorem heuristic_admissible {city : City} {p q : Position} {n : Nat}
    (h : reachIn city p q n) : heuristic p q ≤ n := by
  induction n generalizing q with
  | zero =>
    rw [reachIn_zero] at h
    subst h
    simp [heuristic_self]
  | succ n ih =>
    obtain ⟨r, hr, hnb, -⟩ := reachIn_succ h
    calc heuristic p q ≤ heuristic p r + heuristic r q :=
          heuristic_triangle p r q
      _ ≤ n + 1 := by
          have h1 := ih hr
          have h2 := heuristic_neighbor hnb
          omega

/-- Witness for C8 at a concrete fresh simulation and a concrete reachable
state (one spawn followed by one tick). -/
theorem passenger_lifecycle_invariant_witness :
    Fresh exSpawnSim ∧
    (((exLifeState.waitingPassengers ++ exLifeState.activePassengers ++
        exLifeState.completedPassengers).map Passenger.id).Nodup ∧
      (∀ p ∈ exLifeState.waitingPassengers ++ exLifeState.activePassengers ++
          exLifeState.completedPassengers,
        ∀ pk dv, p.pickedUpTick = some pk → p.deliveredTick = some dv →
          pk < dv)) := by
  have hF : Fresh exSpawnSim := by
    refine ⟨rfl, rfl, rfl, rfl, ?_, ?_⟩ <;> simp [exSpawnSim]
  exact ⟨hF, passenger_lifecycle_invariant exSpawnSim exLifeState hF
    (Relation.ReflTransGen.tail
      (Relation.ReflTransGen.single
        (Step.spawn exSpawnSim exPassenger (by decide) rfl rfl rfl))
      (Step.tick _))⟩

theorem insertByF_perm (x : Node) (l : List Node) :
    List.Perm (insertByF x l) (x :: l) := by
  induction l with
  | nil => exact List.Perm.refl _
  | cons m ms ih =>
    rw [insertByF]
    split
    · exact ((ih.cons m).trans (List.Perm.swap x m ms))
    · exact List.Perm.refl _

theorem sortByF_foldl_perm (l : List Node) :
    ∀ acc, List.Perm (l.foldl (fun acc n => insertByF n acc) acc) (acc ++ l) := by
  induction l with
  | nil => intro acc; simp
  | cons n ls ih =>
    intro acc
    rw [List.foldl_cons]
    refine (ih (insertByF n acc)).trans ?_
    refine (List.Perm.append_right ls (insertByF_perm n acc)).trans ?_
    rw [List.cons_append]
    exact List.perm_middle.symm

theorem sortByF_perm (l : List Node) : List.Perm (sortByF l) l := by
  refine (sortByF_foldl_perm l []).trans ?_
  simp

theorem mem_sortByF {n : Node} {l : List Node} : n ∈ sortByF l ↔ n ∈ l :=
  (sortByF_perm l).mem_iff

theorem insertByF_sorted {x : Node} {l : List Node}
    (h : List.Pairwise (fun a b : Node => a.f ≤ b.f) l) :
    List.Pairwise (fun a b : Node => a.f ≤ b.f) (insertByF x l) := by
  induction l with
  | nil => simp [insertByF]
  | cons m ms ih =>
    rw [List.pairwise_cons] at h
    rw [insertByF]
    split
    · rw [List.pairwise_cons]
      refine ⟨?_, ih h.2⟩
      intro y hy
      rcases List.mem_cons.mp ((insertByF_perm x ms).mem_iff.mp hy)
        with h1 | h1
      · subst h1
        assumption
      · exact h.1 y h1
    · rw [List.pairwise_cons]
      refine ⟨?_, List.pairwise_cons.mpr h⟩
      intro y hy
      rcases List.mem_cons.mp hy with rfl | h1
      · omega
      · have := h.1 y h1
        omega

theorem sortByF_sorted (l : List Node) :
    List.Pairwise (fun a b : Node => a.f ≤ b.f) (sortByF l) := by
  have aux : ∀ (l₁ : List Node) (acc : List Node),
      List.Pairwise (fun a b : Node => a.f ≤ b.f) acc →
      List.Pairwise (fun a b : Node => a.f ≤ b.f)
        (l₁.foldl (fun acc n => insertByF n acc) acc) := by
    intro l₁
    induction l₁ with
    | nil => intro acc h; simpa using h
    | cons n ls ih =>
      intro acc h
      rw [List.foldl_cons]
      exact ih _ (insertByF_sorted h)
  exact aux l [] (by simp)

theorem sortByF_head_min {l : List Node} {cur : Node} {rest : List Node}
    (hsort : sortByF l = cur :: rest) :
    ∀ n ∈ l, cur.f ≤ n.f := by
  intro n hn
  have hmem : n ∈ cur :: rest := by
    rw [← hsort]
    exact mem_sortByF.mpr hn
  rcases List.mem_cons.mp hmem with rfl | h
  · exact le_refl _
  · have hs := sortByF_sorted l
    rw [hsort, List.pairwise_cons] at hs
    exact hs.1 n h

theorem chain_ne_nil (n : Node) : n.chain ≠ [] := by
  cases n with
  | root p g h f => simp [Node.chain]
  | child p g h f parent => simp [Node.chain]

theorem drop_one_append {l : List Position} (x : Position) (h : l ≠ []) :
    (l ++ [x]).drop 1 = l.drop 1 ++ [x] := by
  cases l with
  | nil => exact absurd rfl h
  | cons a as => simp

theorem updateFirst_map_pos (p : Position) (upd : Node → Node)
    (hupd : ∀ n, (upd n).pos = n.pos) (l : List Node) :
    (updateFirst p upd l).map Node.pos = l.map Node.pos := by
  induction l with
  | nil => rfl
  | cons n ns ih =>
    rw [updateFirst]
    split
    · simp [hupd]
    · simp [ih]

theorem updateFirst_mem {p : Position} {upd : Node → Node} {l : List Node}
    {m : Node} (h : m ∈ updateFirst p upd l) :
    m ∈ l ∨ ∃ n ∈ l, n.pos = p ∧ m = upd n := by
  induction l with
  | nil => exact absurd h (by simp [updateFirst])
  | cons n ns ih =>
    rw [updateFirst] at h
    split at h
    · rcases List.mem_cons.mp h with rfl | h1
      · exact Or.inr ⟨n, List.mem_cons_self n ns, by assumption, rfl⟩
      · exact Or.inl (List.mem_cons_of_mem n h1)
    · rcases List.mem_cons.mp h with rfl | h1
      · exact Or.inl (List.mem_cons_self m ns)
      · rcases ih h1 with h2 | ⟨n', hn', he, hm⟩
        · exact Or.inl (List.mem_cons_of_mem n h2)
        · exact Or.inr ⟨n', List.mem_cons_of_mem n hn', he, hm⟩

theorem updateFirst_mem_other {p : Position} {upd : Node → Node}
    {l : List Node} {n : Node} (hn : n ∈ l) (hne : n.pos ≠ p) :
    n ∈ updateFirst p upd l := by
  induction l with
  | nil => exact absurd hn (by simp)
  | cons m ms ih =>
    rw [updateFirst]
    split
    · rcases List.mem_cons.mp hn with rfl | h1
      · exact absurd (by assumption) hne
      · exact List.mem_cons_of_mem _ h1
    · rcases List.mem_cons.mp hn with rfl | h1
      · exact List.mem_cons_self n _
      · exact List.mem_cons_of_mem m (ih h1)

theorem updateFirst_find {p : Position} {upd : Node → Node} {l : List Node}
    {ex : Node} (hf : l.find? (fun n => n.pos = p) = some ex) :
    upd ex ∈ updateFirst p upd l := by
  induction l with
  | nil => simp [List.find?] at hf
  | cons n ns ih =>
    rw [updateFirst]
    by_cases hnp : n.pos = p
    · rw [List.find?_cons_of_pos _ (by simp [hnp])] at hf
      rw [if_pos hnp]
      injection hf with hf
      subst hf
      exact List.mem_cons_self _ _
    · rw [List.find?_cons_of_neg _ (by simp [hnp])] at hf
      rw [if_neg hnp]
      exact List.mem_cons_of_mem n (ih hf)

theorem relaxNeighbor_eq (city : City) (e : Position) (cur : Node)
    (closed : List Position) (os : List Node) (np : Position) :
    ((isRoadCell city np = false ∨ np ∈ closed) ∧
      relaxNeighbor city e cur closed os np = os) ∨
    (isRoadCell city np = true ∧ np ∉ closed ∧
      ((∃ ex, os.find? (fun n => n.pos = np) = some ex ∧
        ¬ cur.g + 1 < ex.g ∧
        relaxNeighbor city e cur closed os np = os) ∨
       (∃ ex, os.find? (fun n => n.pos = np) = some ex ∧ cur.g + 1 < ex.g ∧
        relaxNeighbor city e cur closed os np =
          updateFirst np (fun n => Node.child n.pos (cur.g + 1) n.h
            ((cur.g + 1) + heuristic np e) cur) os) ∨
       (os.find? (fun n => n.pos = np) = none ∧
        relaxNeighbor city e cur closed os np =
          os ++ [Node.child np (cur.g + 1) (heuristic np e)
            ((cur.g + 1) + heuristic np e) cur]))) := by
  cases hroad : isRoadCell city np with
  | false =>
    refine Or.inl ⟨Or.inl rfl, ?_⟩
    unfold relaxNeighbor
    rw [if_pos hroad]
  | true =>
    by_cases hcl : np ∈ closed
    · refine Or.inl ⟨Or.inr hcl, ?_⟩
      unfold relaxNeighbor
      rw [if_neg (by simp [hroad]), if_pos hcl]
    · cases hf : os.find? (fun n => n.pos = np) with
      | some ex =>
        by_cases hlt : cur.g + 1 < ex.g
        · refine Or.inr ⟨rfl, hcl, Or.inr (Or.inl ⟨ex, rfl, hlt, ?_⟩)⟩
          unfold relaxNeighbor
          rw [if_neg (by simp [hroad]), if_neg hcl]
          simp only [hf]
          rw [if_pos hlt]
        · refine Or.inr ⟨rfl, hcl, Or.inl ⟨ex, rfl, hlt, ?_⟩⟩
          unfold relaxNeighbor
          rw [if_neg (by simp [hroad]), if_neg hcl]
          simp only [hf]
          rw [if_neg hlt]
      | none =>
        refine Or.inr ⟨rfl, hcl, Or.inr (Or.inr ⟨rfl, ?_⟩)⟩
        unfold relaxNeighbor
        rw [if_neg (by simp [hroad]), if_neg hcl]
        simp only [hf]

theorem NodeOK_child {city : City} {s e : Position} {cur : Node}
    (hcur : NodeOK city s e cur) {np : Position}
    (hnb : np ∈ neighborsOf cur.pos) (hroad : isRoadCell city np = true) :
    NodeOK city s e (Node.child np (cur.g + 1) (heuristic np e)
      ((cur.g + 1) + heuristic np e) cur) := by
  obtain ⟨hrc, hhc, hfc, hwkc, hlastc, hlenc⟩ := hcur
  refine ⟨hroad, rfl, rfl, ?_, ?_, ?_⟩
  · show walkOK city s ((cur.chain ++ [np]).drop 1) = true
    rw [drop_one_append np (chain_ne_nil cur), walkOK_append, hwkc,
      Bool.true_and, hlastc, walkOK, walkOK]
    simp [hnb, hroad]
  · show ((cur.chain ++ [np]).drop 1).getLastD s = np
    rw [drop_one_append np (chain_ne_nil cur), getLastD_append_pos]
    rfl
  · show ((cur.chain ++ [np]).drop 1).length = cur.g + 1
    rw [drop_one_append np (chain_ne_nil cur), List.length_append, hlenc]
    rfl

theorem relax_OInv {city : City} {s e : Position} {cur : Node}
    {closed : List Position} {os : List Node} {np : Position}
    (hcur : NodeOK city s e cur) (hnb : np ∈ neighborsOf cur.pos)
    (h : OInv city s e closed os) :
    OInv city s e closed (relaxNeighbor city e cur closed os np) := by
  obtain ⟨hok, hnd, hoc⟩ := h
  rcases relaxNeighbor_eq city e cur closed os np with ⟨-, heq⟩ |
    ⟨hroad, hcl, ⟨ex, hf, hlt, heq⟩ | ⟨ex, hf, hlt, heq⟩ | ⟨hf, heq⟩⟩ <;>
    rw [heq]
  · exact ⟨hok, hnd, hoc⟩
  · exact ⟨hok, hnd, hoc⟩
  · refine ⟨?_, ?_, ?_⟩
    · intro m hm
      rcases updateFirst_mem hm with hm1 | ⟨n, hn, hpos, rfl⟩
      · exact hok m hm1
      · have hh : n.h = heuristic np e := by
          rw [← hpos]
          exact (hok n hn).2.1
        rw [hpos, hh]
        exact NodeOK_child hcur hnb hroad
    · rw [updateFirst_map_pos np (fun n => Node.child n.pos (cur.g + 1) n.h
        (cur.g + 1 + heuristic np e) cur) (fun n => rfl)]
      exact hnd
    · intro m hm
      rcases updateFirst_mem hm with hm1 | ⟨n, hn, hpos, rfl⟩
      · exact hoc m hm1
      · show n.pos ∉ closed
        rw [hpos]
        exact hcl
  · refine ⟨?_, ?_, ?_⟩
    · intro m hm
      rcases List.mem_append.mp hm with hm1 | hm1
      · exact hok m hm1
      · rcases List.mem_singleton.mp hm1 with rfl
        exact NodeOK_child hcur hnb hroad
    · rw [List.map_append, List.nodup_append]
      refine ⟨hnd, by simp, ?_⟩
      intro i hi hcon
      simp only [List.map_cons, List.map_nil, List.mem_singleton] at hcon
      rcases List.mem_map.mp hi with ⟨n, hn, rfl⟩
      have := List.find?_eq_none.mp hf n hn
      simp only [decide_eq_true_eq] at this
      exact this (by simpa [Node.pos] using hcon)
    · intro m hm
      rcases List.mem_append.mp hm with hm1 | hm1
      · exact hoc m hm1
      · rcases List.mem_singleton.mp hm1 with rfl
        exact hcl

theorem relax_cover {city : City} {e : Position} {cur : Node}
    {closed : List Position} {os : List Node} {np : Position}
    (hroad : isRoadCell city np = true) (hcl : np ∉ closed) :
    ∃ n ∈ relaxNeighbor city e cur closed os np, n.pos = np ∧
      n.g ≤ cur.g + 1 := by
  rcases relaxNeighbor_eq city e cur closed os np with ⟨hbad, heq⟩ |
    ⟨-, -, ⟨ex, hf, hlt, heq⟩ | ⟨ex, hf, hlt, heq⟩ | ⟨hf, heq⟩⟩ <;> rw [heq]
  · rcases hbad with h | h
    · rw [hroad] at h
      cases h
    · exact absurd h hcl
  · refine ⟨ex, List.mem_of_find?_eq_some hf, ?_, by omega⟩
    have := List.find?_some hf
    simpa using this
  · refine ⟨Node.child ex.pos (cur.g + 1) ex.h (cur.g + 1 + heuristic np e)
      cur, updateFirst_find hf, ?_, le_refl _⟩
    have := List.find?_some hf
    simpa [Node.pos] using this
  · exact ⟨Node.child np (cur.g + 1) (heuristic np e)
      (cur.g + 1 + heuristic np e) cur,
      List.mem_append.mpr (Or.inr (List.mem_singleton.mpr rfl)), rfl,
      le_refl _⟩

theorem relax_witness {city : City} {e : Position} {cur : Node}
    {closed : List Position} {os : List Node} {np q : Position}
    {P : Nat → Prop} (hP : ∀ m n, m ≤ n → P n → P m)
    (hnd : (os.map Node.pos).Nodup)
    (h : ∃ n ∈ os, n.pos = q ∧ P n.g) :
    ∃ n ∈ relaxNeighbor city e cur closed os np, n.pos = q ∧ P n.g := by
  obtain ⟨n, hn, hpos, hPn⟩ := h
  rcases relaxNeighbor_eq city e cur closed os np with ⟨-, heq⟩ |
    ⟨-, -, ⟨ex, hf, hlt, heq⟩ | ⟨ex, hf, hlt, heq⟩ | ⟨hf, heq⟩⟩ <;> rw [heq]
  · exact ⟨n, hn, hpos, hPn⟩
  · exact ⟨n, hn, hpos, hPn⟩
  · by_cases hq : q = np
    · subst hq
      have hexmem := List.mem_of_find?_eq_some hf
      have hexpos : ex.pos = q := by simpa using List.find?_some hf
      have hexn : ex = n :=
        List.inj_on_of_nodup_map hnd hexmem hn (by rw [hexpos, hpos])
      refine ⟨Node.child ex.pos (cur.g + 1) ex.h
        (cur.g + 1 + heuristic q e) cur, updateFirst_find hf, hexpos, ?_⟩
      refine hP _ _ (le_of_lt hlt) ?_
      rw [hexn]
      exact hPn
    · exact ⟨n, updateFirst_mem_other hn (by rw [hpos]; exact hq), hpos, hPn⟩
  · exact ⟨n, List.mem_append.mpr (Or.inl hn), hpos, hPn⟩

theorem foldRelax_OInv {city : City} {s e : Position} {cur : Node}
    {closed : List Position} :
    ∀ (nbrs : List Position) (os : List Node),
    NodeOK city s e cur → (∀ np ∈ nbrs, np ∈ neighborsOf cur.pos) →
    OInv city s e closed os →
    OInv city s e closed (nbrs.foldl (relaxNeighbor city e cur closed) os) := by
  intro nbrs
  induction nbrs with
  | nil => intro os _ _ h; exact h
  | cons np rest ih =>
    intro os hcur hnb h
    rw [List.foldl_cons]
    exact ih _ hcur (fun x hx => hnb x (List.mem_cons_of_mem np hx))
      (relax_OInv hcur (hnb np (List.mem_cons_self np rest)) h)

theorem foldRelax_witness {city : City} {s e : Position} {cur : Node}
    {closed : List Position} {q : Position} {P : Nat → Prop}
    (hP : ∀ m n, m ≤ n → P n → P m) :
    ∀ (nbrs : List Position) (os : List Node),
    NodeOK city s e cur → (∀ np ∈ nbrs, np ∈ neighborsOf cur.pos) →
    OInv city s e closed os →
    (∃ n ∈ os, n.pos = q ∧ P n.g) →
    ∃ n ∈ nbrs.foldl (relaxNeighbor city e cur closed) os, n.pos = q ∧
      P n.g := by
  intro nbrs
  induction nbrs with
  | nil => intro os _ _ _ h; exact h
  | cons np rest ih =>
    intro os hcur hnb hinv h
    rw [List.foldl_cons]
    exact ih _ hcur (fun x hx => hnb x (List.mem_cons_of_mem np hx))
      (relax_OInv hcur (hnb np (List.mem_cons_self np rest)) hinv)
      (relax_witness hP hinv.2.1 h)

theorem foldRelax_cover {city : City} {s e : Position} {cur : Node}
    {closed : List Position} {q : Position}
    (hroad : isRoadCell city q = true) (hcl : q ∉ closed) :
    ∀ (nbrs : List Position) (os : List Node),
    NodeOK city s e cur → (∀ np ∈ nbrs, np ∈ neighborsOf cur.pos) →
    OInv city s e closed os → q ∈ nbrs →
    ∃ n ∈ nbrs.foldl (relaxNeighbor city e cur closed) os, n.pos = q ∧
      n.g ≤ cur.g + 1 := by
  intro nbrs
  induction nbrs with
  | nil => intro os _ _ _ hq; exact absurd hq (List.not_mem_nil q)
  | cons np rest ih =>
    intro os hcur hnb hinv hq
    rw [List.foldl_cons]
    rcases List.mem_cons.mp hq with rfl | hq1
    · exact foldRelax_witness (fun m n hmn h => le_trans hmn h) rest _ hcur
        (fun x hx => hnb x (List.mem_cons_of_mem q hx))
        (relax_OInv hcur (hnb q (List.mem_cons_self q rest)) hinv)
        (relax_cover hroad hcl)
    · exact ih _ hcur (fun x hx => hnb x (List.mem_cons_of_mem np hx))
        (relax_OInv hcur (hnb np (List.mem_cons_self np rest)) hinv) hq1

theorem frontier {city : City} {s e : Position} {os : List Node}
    {closed : List Position} (hinv : AInv city s e os closed) :
    ∀ d q, q ∉ closed → reachIn city s q d →
    ∃ n ∈ os, ∃ i j, n.g ≤ i ∧ i + j ≤ d ∧ reachIn city n.pos q j := by
  intro d
  induction d using Nat.strong_induction_on with
  | _ d ih =>
    intro q hq hreach
    cases d with
    | zero =>
      have hq_s : q = s := (reachIn_zero city s q).mp hreach
      subst hq_s
      rcases hinv.fr0 with h | ⟨n, hn, hpos, hg⟩
      · exact absurd h hq
      · refine ⟨n, hn, 0, 0, by omega, by omega, ?_⟩
        rw [hpos]
        exact (reachIn_zero city _ _).mpr rfl
    | succ d₀ =>
      obtain ⟨p, hp, hnb, hroad⟩ := reachIn_succ hreach
      by_cases hpc : p ∈ closed
      · rcases hinv.fr1 p hpc q hnb hroad with h | ⟨n, hn, hpos, hall⟩
        · exact absurd h hq
        · refine ⟨n, hn, d₀ + 1, 0, hall d₀ hp, by omega, ?_⟩
          rw [hpos]
          exact (reachIn_zero city q q).mpr rfl
      · obtain ⟨n, hn, i, j, hgi, hij, hr2⟩ := ih d₀ (by omega) p hpc hp
        exact ⟨n, hn, i, j + 1, hgi, by omega, reachIn_step hr2 hnb hroad⟩

theorem pop_opt {city : City} {s e : Position} {os : List Node}
    {closed : List Position} {cur : Node} {rest : List Node}
    (hinv : AInv city s e os closed) (hsort : sortByF os = cur :: rest) :
    ∀ d, reachIn city s cur.pos d → cur.g ≤ d := by
  intro d hreach
  have hcur_mem : cur ∈ os :=
    mem_sortByF.mp (hsort ▸ List.mem_cons_self cur rest)
  have hqc : cur.pos ∉ closed := hinv.oc cur hcur_mem
  obtain ⟨n, hn, i, j, hgi, hij, hr2⟩ := frontier hinv d cur.pos hqc hreach
  have hnok := hinv.ok n hn
  have hcok := hinv.ok cur hcur_mem
  have hfmin := sortByF_head_min hsort n hn
  have h1 : heuristic n.pos e ≤ heuristic n.pos cur.pos +
      heuristic cur.pos e := heuristic_triangle _ _ _
  have h2 : heuristic n.pos cur.pos ≤ j := heuristic_admissible hr2
  have e1 : n.f = n.g + heuristic n.pos e := by rw [hnok.2.2.1, hnok.2.1]
  have e2 : cur.f = cur.g + heuristic cur.pos e := by
    rw [hcok.2.2.1, hcok.2.1]
  omega

theorem aloop_iter {city : City} {s e : Position} {os : List Node}
    {closed : List Position} {cur : Node} {rest : List Node}
    (hinv : AInv city s e os closed) (hsort : sortByF os = cur :: rest)
    (hne : cur.pos ≠ e) :
    AInv city s e
      ((neighborsOf cur.pos).foldl
        (relaxNeighbor city e cur (cur.pos :: closed)) rest)
      (cur.pos :: closed) := by
  have hcur_mem : cur ∈ os :=
    mem_sortByF.mp (hsort ▸ List.mem_cons_self cur rest)
  have hcur := hinv.ok cur hcur_mem
  have hnd_sorted : ((cur :: rest).map Node.pos).Nodup := by
    rw [← hsort]
    exact ((sortByF_perm os).map Node.pos).nodup_iff.mpr hinv.nd
  rw [List.map_cons, List.nodup_cons] at hnd_sorted
  have hrest_sub : ∀ n ∈ rest, n ∈ os := fun n hn =>
    mem_sortByF.mp (hsort ▸ List.mem_cons_of_mem cur hn)
  have hOinv : OInv city s e (cur.pos :: closed) rest := by
    refine ⟨fun n hn => hinv.ok n (hrest_sub n hn), hnd_sorted.2, ?_⟩
    intro n hn hmem
    rcases List.mem_cons.mp hmem with h | h
    · exact hnd_sorted.1 (h ▸ List.mem_map_of_mem Node.pos hn)
    · exact hinv.oc n (hrest_sub n hn) h
  have hnbs : ∀ np ∈ neighborsOf cur.pos, np ∈ neighborsOf cur.pos :=
    fun _ h => h
  have hOinv' := foldRelax_OInv (neighborsOf cur.pos) rest hcur hnbs hOinv
  refine ⟨hOinv'.1, hOinv'.2.1, hOinv'.2.2, ?_, ?_, ?_, ?_, ?_⟩
  · intro p hp
    rcases List.mem_cons.mp hp with rfl | h
    · exact hcur.1
    · exact hinv.cB p h
  · exact List.nodup_cons.mpr ⟨hinv.oc cur hcur_mem, hinv.cN⟩
  · intro hmem
    rcases List.mem_cons.mp hmem with h | h
    · exact hne h.symm
    · exact hinv.ce h
  · rcases hinv.fr0 with h | ⟨n, hn, hpos, hg⟩
    · exact Or.inl (List.mem_cons_of_mem _ h)
    · have hn' : n ∈ cur :: rest := hsort ▸ mem_sortByF.mpr hn
      rcases List.mem_cons.mp hn' with rfl | hn₂
      · exact Or.inl (by rw [← hpos]; exact List.mem_cons_self _ _)
      · right
        obtain ⟨m, hm, hmpos, hmg⟩ := foldRelax_witness
          (P := fun g => g ≤ 0) (fun a b hab h => le_trans hab h)
          (neighborsOf cur.pos) rest hcur hnbs hOinv
          ⟨n, hn₂, hpos, by omega⟩
        exact ⟨m, hm, hmpos, by omega⟩
  · intro p hp q hnb hroad
    rcases List.mem_cons.mp hp with rfl | hp₂
    · by_cases hqc : q ∈ cur.pos :: closed
      · exact Or.inl hqc
      · right
        obtain ⟨m, hm, hmpos, hmg⟩ := foldRelax_cover hroad hqc
          (neighborsOf cur.pos) rest hcur hnbs hOinv hnb
        refine ⟨m, hm, hmpos, ?_⟩
        intro dp hdp
        have := pop_opt hinv hsort dp hdp
        omega
    · rcases hinv.fr1 p hp₂ q hnb hroad with h | ⟨n, hn, hpos, hall⟩
      · exact Or.inl (List.mem_cons_of_mem _ h)
      · have hn' : n ∈ cur :: rest := hsort ▸ mem_sortByF.mpr hn
        rcases List.mem_cons.mp hn' with rfl | hn₂
        · exact Or.inl (by rw [← hpos]; exact List.mem_cons_self _ _)
        · right
          obtain ⟨m, hm, hmpos, hmg⟩ := foldRelax_witness
            (P := fun g => ∀ dp, reachIn city s p dp → g ≤ dp + 1)
            (fun a b hab h dp hdp => le_trans hab (h dp hdp))
            (neighborsOf cur.pos) rest hcur hnbs hOinv ⟨n, hn₂, hpos, hall⟩
          exact ⟨m, hm, hmpos, hmg⟩

theorem road_bounds {city : City} {p : Position}
    (h : isRoadCell city p = true) :
    0 ≤ p.x ∧ p.x < city.width ∧ 0 ≤ p.y ∧ p.y < city.height := by
  simp only [isRoadCell, Bool.and_eq_true, decide_eq_true_eq] at h
  exact ⟨h.1.1.1.1, h.1.1.1.2, h.1.1.2, h.1.2⟩

theorem closed_card {city : City} {closed : List Position}
    (hN : closed.Nodup) (hB : ∀ p ∈ closed, isRoadCell city p = true) :
    closed.length ≤ city.width * city.height := by
  have hinj : ∀ p ∈ closed, ∀ q ∈ closed,
      p.x.toNat + p.y.toNat * city.width =
        q.x.toNat + q.y.toNat * city.width → p = q := by
    intro p hp q hq heq
    obtain ⟨hpx0, hpxw, hpy0, hpyh⟩ := road_bounds (hB p hp)
    obtain ⟨hqx0, hqxw, hqy0, hqyh⟩ := road_bounds (hB q hq)
    cases p with
    | mk px py =>
      cases q with
      | mk qx qy =>
        simp only at hpx0 hpxw hpy0 hpyh hqx0 hqxw hqy0 hqyh heq
        have hw : 0 < city.width := by omega
        have hmodp : (px.toNat + py.toNat * city.width) % city.width =
            px.toNat := by
          rw [Nat.add_mul_mod_self_right, Nat.mod_eq_of_lt (by omega)]
        have hmodq : (qx.toNat + qy.toNat * city.width) % city.width =
            qx.toNat := by
          rw [Nat.add_mul_mod_self_right, Nat.mod_eq_of_lt (by omega)]
        have hxeq : px.toNat = qx.toNat := by rw [← hmodp, ← hmodq, heq]
        have hyw : py.toNat * city.width = qy.toNat * city.width := by omega
        have hyeq : py.toNat = qy.toNat :=
          Nat.eq_of_mul_eq_mul_right hw hyw
        rw [Position.mk.injEq]
        constructor <;> omega
  have hnodup : (closed.map
      (fun p => p.x.toNat + p.y.toNat * city.width)).Nodup :=
    List.Nodup.map_on hinj hN
  have hsub : (closed.map (fun p => p.x.toNat + p.y.toNat * city.width)) ⊆
      List.range (city.width * city.height) := by
    intro m hm
    rcases List.mem_map.mp hm with ⟨p, hp, rfl⟩
    obtain ⟨hx0, hxw, hy0, hyh⟩ := road_bounds (hB p hp)
    rw [List.mem_range]
    have hxn : p.x.toNat < city.width := by omega
    have hyn : p.y.toNat + 1 ≤ city.height := by omega
    have h3 : (p.y.toNat + 1) * city.width ≤ city.height * city.width :=
      Nat.mul_le_mul_right city.width hyn
    have h4 : city.height * city.width = city.width * city.height :=
      Nat.mul_comm _ _
    have h5 : (p.y.toNat + 1) * city.width =
        p.y.toNat * city.width + city.width := by ring
    omega
  have hlen := (List.Nodup.subperm hnodup hsub).length_le
  rw [List.length_map] at hlen
  simpa using hlen

theorem aloop_complete {city : City} {s e : Position} :
    ∀ (fuel : Nat) (os : List Node) (closed : List Position),
    AInv city s e os closed →
    city.width * city.height + 1 ≤ fuel + closed.length →
    ∃ res, aloop city e fuel os closed = some res ∧
      ((res = [] ∧ ∀ d, ¬ reachIn city s e d) ∨
       (walkOK city s res = true ∧ res.getLastD s = e ∧
        ∀ d, reachIn city s e d → res.length ≤ d)) := by
  intro fuel
  induction fuel with
  | zero =>
    intro os closed hinv hbound
    exfalso
    have := closed_card hinv.cN hinv.cB
    omega
  | succ fuel ih =>
    intro os closed hinv hbound
    cases hsort : sortByF os with
    | nil =>
      refine ⟨[], ?_, Or.inl ⟨rfl, ?_⟩⟩
      · rw [aloop]
        simp only [hsort]
      · intro d hreach
        have hos : os = [] := by
          have hperm := sortByF_perm os
          rw [hsort] at hperm
          exact (List.Perm.nil_eq hperm).symm
        obtain ⟨n, hn, -⟩ := frontier hinv d e hinv.ce hreach
        rw [hos] at hn
        exact absurd hn (List.not_mem_nil n)
    | cons cur rest =>
      by_cases hpos : cur.pos = e
      · have hcur_mem : cur ∈ os :=
          mem_sortByF.mp (hsort ▸ List.mem_cons_self cur rest)
        have hcok := hinv.ok cur hcur_mem
        refine ⟨cur.chain.drop 1, ?_, Or.inr ⟨hcok.2.2.2.1, ?_, ?_⟩⟩
        · rw [aloop]
          simp only [hsort]
          rw [if_pos hpos]
        · rw [hcok.2.2.2.2.1, hpos]
        · intro d hreach
          have := pop_opt hinv hsort d (by rw [hpos]; exact hreach)
          rw [hcok.2.2.2.2.2]
          exact this
      · have hinv2 := aloop_iter hinv hsort hpos
        obtain ⟨res, heq, hprop⟩ := ih
          ((neighborsOf cur.pos).foldl
            (relaxNeighbor city e cur (cur.pos :: closed)) rest)
          (cur.pos :: closed) hinv2
          (by simp only [List.length_cons]; omega)
        refine ⟨res, ?_, hprop⟩
        rw [aloop]
        simp only [hsort]
        rw [if_neg hpos]
        exact heq

/-- C2 (amended): for two DISTINCT road cells, `findPath` returns a legal
road walk from the start whose last cell is the end and whose length is
minimal among all road walks connecting them — the true shortest-path
distance — and it returns the empty sequence exactly when no road walk
connects the two cells.  (For `start = end` the code returns `[end]`, of
length 1, although the true distance is 0: see the counterexample.) -/
theorem findPath_shortest (city : City) (s e : Position)
    (hs : isRoadCell city s = true) (hne : s ≠ e) :
    ((∀ d, ¬ reachIn city s e d) → findPath city s e = []) ∧
    (∀ d, reachIn city s e d →
      walkOK city s (findPath city s e) = true ∧
      (findPath city s e).getLastD s = e ∧
      reachIn city s e (findPath city s e).length ∧
      ∀ dd, reachIn city s e dd → (findPath city s e).length ≤ dd) := by
  have hinv : AInv city s e
      [Node.root s 0 (heuristic s e) (heuristic s e)] [] := by
    refine ⟨?_, by simp, by simp, by simp, by simp, by simp, ?_, by simp⟩
    · intro n hn
      rcases List.mem_singleton.mp hn with rfl
      exact ⟨hs, rfl, (Nat.zero_add _).symm, rfl, rfl, rfl⟩
    · exact Or.inr ⟨Node.root s 0 (heuristic s e) (heuristic s e),
        List.mem_singleton.mpr rfl, rfl, rfl⟩
  obtain ⟨res, heq, hprop⟩ := aloop_complete (city.width * city.height + 2)
    [Node.root s 0 (heuristic s e) (heuristic s e)] [] hinv (by simp)
  have hfp : findPath city s e = res := by
    unfold findPath
    rw [if_neg hne]
    simp only [heq]
  constructor
  · intro hunreach
    rcases hprop with ⟨hnil, -⟩ | ⟨hwalk, hlast, -⟩
    · rw [hfp]
      exact hnil
    · exact absurd ⟨res, hwalk, hlast, rfl⟩ (hunreach res.length)
  · intro d hreach
    rcases hprop with ⟨-, hno⟩ | ⟨hwalk, hlast, hmin⟩
    · exact absurd hreach (hno d)
    · rw [hfp]
      exact ⟨hwalk, hlast, ⟨res, hwalk, hlast, rfl⟩, hmin⟩

/-- Witness for the amended C2 statement on the 1×3 all-road city, from
`(0,0)` to `(2,0)`. -/
theorem findPath_shortest_witness :
    isRoadCell exCity ⟨0, 0⟩ = true ∧ (⟨0, 0⟩ : Position) ≠ ⟨2, 0⟩ ∧
    (((∀ d, ¬ reachIn exCity ⟨0, 0⟩ ⟨2, 0⟩ d) →
        findPath exCity ⟨0, 0⟩ ⟨2, 0⟩ = []) ∧
      (∀ d, reachIn exCity ⟨0, 0⟩ ⟨2, 0⟩ d →
        walkOK exCity ⟨0, 0⟩ (findPath exCity ⟨0, 0⟩ ⟨2, 0⟩) = true ∧
        (findPath exCity ⟨0, 0⟩ ⟨2, 0⟩).getLastD ⟨0, 0⟩ = ⟨2, 0⟩ ∧
        reachIn exCity ⟨0, 0⟩ ⟨2, 0⟩
          (findPath exCity ⟨0, 0⟩ ⟨2, 0⟩).length ∧
        ∀ dd, reachIn exCity ⟨0, 0⟩ ⟨2, 0⟩ dd →
          (findPath exCity ⟨0, 0⟩ ⟨2, 0⟩).length ≤ dd)) :=
  ⟨by decide, by decide,
    findPath_shortest exCity ⟨0, 0⟩ ⟨2, 0⟩ (by decide) (by decide)⟩

/-- C2 counterexample: the claim quantifies over EVERY pair of road cells in
the same region, including `start = end`.  There the true shortest-path
distance is 0 (the empty walk already ends at the target), yet `findPath`
returns `[end]`, of length 1. -/
theorem findPath_self_not_distance :
    isRoadCell exCity ⟨0, 0⟩ = true ∧
    walkOK exCity ⟨0, 0⟩ [] = true ∧
    ([] : List Position).getLastD (⟨0, 0⟩ : Position) = ⟨0, 0⟩ ∧
    findPath exCity ⟨0, 0⟩ ⟨0, 0⟩ = [⟨0, 0⟩] := by decide

theorem lt_true_selectable {a b : JsNum} (h : a.lt b = true) : Selectable a := by
  cases a <;> cases b <;> simp [JsNum.lt, Selectable] at h ⊢

theorem posInf_sub_sub_not_selectable (u v : JsNum) :
    ¬ Selectable ((JsNum.posInf.sub u).sub v) := by
  cases u <;> cases v <;> simp [JsNum.sub, Selectable]

theorem sub_selectable {x d : JsNum} (h : Selectable (x.sub d)) :
    Selectable x := by
  cases x <;> cases d <;> simp [JsNum.sub, Selectable] at h ⊢

theorem getD_set_cases {α : Type} (l : List α) (i j : Nat) (x d : α) :
    (l.set i x).getD j d = l.getD j d ∨
    (i = j ∧ (l.set i x).getD j d = x) := by
  by_cases hij : i = j
  · subst hij
    by_cases hlen : i < l.length
    · right
      refine ⟨rfl, ?_⟩
      rw [List.getD_eq_getD_get?, List.get?_eq_getElem?, List.getElem?_set]
      simp [hlen]
    · left
      rw [List.getD_eq_getD_get?, List.getD_eq_getD_get?,
        List.get?_eq_getElem?, List.get?_eq_getElem?, List.getElem?_set]
      simp only [if_pos rfl, if_neg hlen]
      rw [List.getElem?_eq_none (by omega)]
      simp
  · left
    rw [List.getD_eq_getD_get?, List.getD_eq_getD_get?,
      List.get?_eq_getElem?, List.get?_eq_getElem?, List.getElem?_set]
    simp [hij]

theorem getD_set_ne {α : Type} (l : List α) {i j : Nat} (x d : α)
    (h : i ≠ j) : (l.set i x).getD j d = l.getD j d := by
  rcases getD_set_cases l i j x d with h1 | ⟨h1, -⟩
  · exact h1
  · exact absurd h1 h

theorem getD_set_self {α : Type} (l : List α) {i : Nat} (x d : α)
    (h : i < l.length) : (l.set i x).getD i d = x := by
  rw [List.getD_eq_getD_get?, List.get?_eq_getElem?, List.getElem?_set]
  simp [h]

theorem getD_replicate {α : Type} (a d : α) {n i : Nat} (h : i < n) :
    (List.replicate n a).getD i d = a := by
  rw [List.getD_eq_getD_get?, List.get?_eq_getElem?, List.getElem?_replicate]
  simp [h]

theorem getD_range_map {α : Type} (f : Nat → α) (n i : Nat) (d : α)
    (h : i < n) : ((List.range n).map f).getD i d = f i := by
  rw [List.getD_eq_getD_get?, List.get?_eq_getElem?, List.getElem?_map]
  simp [List.getElem?_range h]

theorem DescWay_congr {w₁ w₂ : List Nat} :
    ∀ {L : List Nat}, (∀ c ∈ L, w₂.getD c 0 = w₁.getD c 0) →
    DescWay w₁ L → DescWay w₂ L := by
  intro L
  induction L with
  | nil => intro _ _; trivial
  | cons c rest ih =>
    intro heq hd
    obtain ⟨h1, h2⟩ := hd
    refine ⟨?_, ih (fun x hx => heq x (List.mem_cons_of_mem c hx)) h2⟩
    rw [heq c (List.mem_cons_self c rest)]
    exact h1

theorem DescWay_mem {way : List Nat} :
    ∀ {L : List Nat}, DescWay way L → ∀ c ∈ L, way.getD c 0 ∈ 0 :: L := by
  intro L
  induction L with
  | nil => intro _ c hc; exact absurd hc (List.not_mem_nil c)
  | cons a rest ih =>
    intro hd c hc
    obtain ⟨h1, h2⟩ := hd
    rcases List.mem_cons.mp hc with rfl | hc₂
    · rcases List.mem_cons.mp h1 with h | h
      · rw [h]
        exact List.mem_cons_self 0 _
      · exact List.mem_cons_of_mem 0 (List.mem_cons_of_mem c h)
    · rcases List.mem_cons.mp (ih h2 c hc₂) with h | h
      · rw [h]
        exact List.mem_cons_self 0 _
      · exact List.mem_cons_of_mem 0 (List.mem_cons_of_mem a h)

theorem DescWay_suffix {way : List Nat} :
    ∀ {L : List Nat}, DescWay way L → L.Nodup → ∀ {c}, c ∈ L →
    ∃ S, DescWay way S ∧ S.Nodup ∧ (∀ x ∈ S, x ∈ L) ∧ c ∉ S ∧
      way.getD c 0 ∈ 0 :: S := by
  intro L
  induction L with
  | nil => intro _ _ c hc; exact absurd hc (List.not_mem_nil c)
  | cons a rest ih =>
    intro hd hn c hc
    obtain ⟨h1, h2⟩ := hd
    rw [List.nodup_cons] at hn
    rcases List.mem_cons.mp hc with rfl | hc₂
    · exact ⟨rest, h2, hn.2, fun x hx => List.mem_cons_of_mem c hx,
        hn.1, h1⟩
    · obtain ⟨S, hS1, hS2, hS3, hS4, hS5⟩ := ih h2 hn.2 hc₂
      exact ⟨S, hS1, hS2, fun x hx => List.mem_cons_of_mem a (hS3 x hx),
        hS4, hS5⟩

theorem hungarianScan_eq (matrix : List (List JsNum)) (n : Nat)
    (i0 j0 : Nat) (u v : List JsNum) (used : List Bool)
    (minv : List JsNum) (way : List Nat) :
    hungarianScan matrix n i0 j0 u v used minv way =
    (List.range n).foldl (hungarianScanStep matrix i0 j0 u v used)
      (minv, way, JsNum.posInf, 0) := rfl

theorem scanStep_inv (matrix : List (List JsNum)) (n : Nat) (p : List Nat)
    (L : List Nat) (i0 j0 : Nat) (u v : List JsNum) (used : List Bool)
    (hi0 : i0 = p.getD j0 0) (hj0L : j0 ∈ (0 : Nat) :: L)
    (mv : List JsNum) (wy : List Nat) (delta : JsNum) (j1 jm : Nat)
    (hjm : jm + 1 ≤ n)
    (hmvlen : mv.length = n + 1) (hwylen : wy.length = n + 1)
    (I1 : ∀ j, 1 ≤ j → j ≤ n → Selectable (mv.getD j (JsNum.num 0)) →
      (wy.getD j 0 ∈ (0 : Nat) :: L ∧
       costOf matrix (p.getD (wy.getD j 0) 0) j ≠ JsNum.posInf))
    (I3 : j1 = 0 ∨ (1 ≤ j1 ∧ j1 ≤ n ∧ used.getD j1 false = false ∧
      Selectable (mv.getD j1 (JsNum.num 0)))) :
    (hungarianScanStep matrix i0 j0 u v used (mv, wy, delta, j1) jm).1.length
      = n + 1 ∧
    (hungarianScanStep matrix i0 j0 u v used (mv, wy, delta, j1) jm).2.1.length
      = n + 1 ∧
    (∀ j, 1 ≤ j → j ≤ n →
      Selectable ((hungarianScanStep matrix i0 j0 u v used
        (mv, wy, delta, j1) jm).1.getD j (JsNum.num 0)) →
      ((hungarianScanStep matrix i0 j0 u v used
          (mv, wy, delta, j1) jm).2.1.getD j 0 ∈ (0 : Nat) :: L ∧
       costOf matrix (p.getD ((hungarianScanStep matrix i0 j0 u v used
          (mv, wy, delta, j1) jm).2.1.getD j 0) 0) j ≠ JsNum.posInf)) ∧
    (∀ c, used.getD c false = true →
      (hungarianScanStep matrix i0 j0 u v used
        (mv, wy, delta, j1) jm).2.1.getD c 0 = wy.getD c 0) ∧
    ((hungarianScanStep matrix i0 j0 u v used (mv, wy, delta, j1) jm).2.2.2
        = 0 ∨
     (1 ≤ (hungarianScanStep matrix i0 j0 u v used
        (mv, wy, delta, j1) jm).2.2.2 ∧
      (hungarianScanStep matrix i0 j0 u v used (mv, wy, delta, j1) jm).2.2.2
        ≤ n ∧
      used.getD ((hungarianScanStep matrix i0 j0 u v used
        (mv, wy, delta, j1) jm).2.2.2) false = false ∧
      Selectable ((hungarianScanStep matrix i0 j0 u v used
        (mv, wy, delta, j1) jm).1.getD
        ((hungarianScanStep matrix i0 j0 u v used
          (mv, wy, delta, j1) jm).2.2.2) (JsNum.num 0)))) := by
  simp only [hungarianScanStep]
  cases hu : used.getD (jm + 1) false with
  | true =>
    simp only [if_true]
    exact ⟨hmvlen, hwylen, I1, fun c _ => trivial, I3⟩
  | false =>
    simp only [Bool.false_eq_true, if_false]
    set cost := (if 0 < i0 then
      (matrix.getD (i0 - 1) []).getD (jm + 1 - 1) (JsNum.num 0)
      else JsNum.num 0) with hcost
    set cur := (cost.sub (u.getD i0 (JsNum.num 0))).sub
      (v.getD (jm + 1) (JsNum.num 0)) with hcur
    have hcostOf : cost = costOf matrix i0 (jm + 1) := rfl
    have hcfin : cur.lt (mv.getD (jm + 1) (JsNum.num 0)) = true →
        costOf matrix i0 (jm + 1) ≠ JsNum.posInf := by
      intro hUpd hbad
      have hsel := lt_true_selectable hUpd
      rw [hcur, hcostOf, hbad] at hsel
      exact posInf_sub_sub_not_selectable _ _ hsel
    by_cases hUpd : cur.lt (mv.getD (jm + 1) (JsNum.num 0)) = true
    · simp only [if_pos hUpd]
      by_cases hSel : ((mv.set (jm + 1) cur).getD (jm + 1)
          (JsNum.num 0)).lt delta = true
      · simp only [if_pos hSel]
        refine ⟨by simp [hmvlen], by simp [hwylen], ?_, ?_, ?_⟩
        · intro j h1 h2 hselj
          by_cases hj : j = jm + 1
          · subst hj
            rw [getD_set_self wy j0 0 (by omega)]
            refine ⟨hj0L, ?_⟩
            rw [← hi0]
            exact hcfin hUpd
          · rw [getD_set_ne wy j0 0 (fun h => hj h.symm)]
            rw [getD_set_ne mv cur (JsNum.num 0) (fun h => hj h.symm)] at hselj
            exact I1 j h1 h2 hselj
        · intro c hc
          refine getD_set_ne wy j0 0 ?_
          intro hcon
          rw [← hcon] at hc
          rw [hu] at hc
          cases hc
        · right
          refine ⟨by omega, by omega, hu, ?_⟩
          rw [getD_set_self mv cur (JsNum.num 0) (by omega)]
          exact lt_true_selectable hUpd
      · simp only [if_neg hSel]
        refine ⟨by simp [hmvlen], by simp [hwylen], ?_, ?_, ?_⟩
        · intro j h1 h2 hselj
          by_cases hj : j = jm + 1
          · subst hj
            rw [getD_set_self wy j0 0 (by omega)]
            refine ⟨hj0L, ?_⟩
            rw [← hi0]
            exact hcfin hUpd
          · rw [getD_set_ne wy j0 0 (fun h => hj h.symm)]
            rw [getD_set_ne mv cur (JsNum.num 0) (fun h => hj h.symm)] at hselj
            exact I1 j h1 h2 hselj
        · intro c hc
          refine getD_set_ne wy j0 0 ?_
          intro hcon
          rw [← hcon] at hc
          rw [hu] at hc
          cases hc
        · rcases I3 with h | ⟨h1, h2, h3, h4⟩
          · exact Or.inl h
          · refine Or.inr ⟨h1, h2, h3, ?_⟩
            by_cases hj : j1 = jm + 1
            · subst hj
              rw [getD_set_self mv cur (JsNum.num 0) (by omega)]
              exact lt_true_selectable hUpd
            · rw [getD_set_ne mv cur (JsNum.num 0) (fun h => hj h.symm)]
              exact h4
    · rw [Bool.not_eq_true] at hUpd
      simp only [hUpd, Bool.false_eq_true, if_false]
      by_cases hSel : (mv.getD (jm + 1) (JsNum.num 0)).lt delta = true
      · simp only [if_pos hSel]
        refine ⟨hmvlen, hwylen, I1, fun c _ => trivial, ?_⟩
        right
        exact ⟨by omega, by omega, hu, lt_true_selectable hSel⟩
      · simp only [if_neg hSel]
        exact ⟨hmvlen, hwylen, I1, fun c _ => trivial, I3⟩

theorem hungarianScan_go (matrix : List (List JsNum)) (n : Nat) (p : List Nat)
    (L : List Nat) (i0 j0 : Nat) (u v : List JsNum) (used : List Bool)
    (hi0 : i0 = p.getD j0 0) (hj0L : j0 ∈ (0 : Nat) :: L) :
    ∀ (js : List Nat) (mv : List JsNum) (wy : List Nat) (delta : JsNum)
      (j1 : Nat),
    (∀ jm ∈ js, jm + 1 ≤ n) →
    mv.length = n + 1 → wy.length = n + 1 →
    (∀ j, 1 ≤ j → j ≤ n → Selectable (mv.getD j (JsNum.num 0)) →
      (wy.getD j 0 ∈ (0 : Nat) :: L ∧
       costOf matrix (p.getD (wy.getD j 0) 0) j ≠ JsNum.posInf)) →
    (j1 = 0 ∨ (1 ≤ j1 ∧ j1 ≤ n ∧ used.getD j1 false = false ∧
      Selectable (mv.getD j1 (JsNum.num 0)))) →
    ∀ mvr wyr deltar j1r,
    js.foldl (hungarianScanStep matrix i0 j0 u v used) (mv, wy, delta, j1) =
      (mvr, wyr, deltar, j1r) →
    mvr.length = n + 1 ∧ wyr.length = n + 1 ∧
    (∀ j, 1 ≤ j → j ≤ n → Selectable (mvr.getD j (JsNum.num 0)) →
      (wyr.getD j 0 ∈ (0 : Nat) :: L ∧
       costOf matrix (p.getD (wyr.getD j 0) 0) j ≠ JsNum.posInf)) ∧
    (∀ c, used.getD c false = true → wyr.getD c 0 = wy.getD c 0) ∧
    (j1r = 0 ∨ (1 ≤ j1r ∧ j1r ≤ n ∧ used.getD j1r false = false ∧
      Selectable (mvr.getD j1r (JsNum.num 0)))) := by
  intro js
  induction js with
  | nil =>
    intro mv wy delta j1 _ hml hwl I1 I3 mvr wyr deltar j1r heq
    rw [List.foldl_nil] at heq
    injection heq with h1 h2
    injection h2 with h2 h3
    injection h3 with h3 h4
    subst h1
    subst h2
    subst h4
    exact ⟨hml, hwl, I1, fun c _ => rfl, I3⟩
  | cons jm js ih =>
    intro mv wy delta j1 hjs hml hwl I1 I3 mvr wyr deltar j1r heq
    rw [List.foldl_cons] at heq
    rcases hstep : hungarianScanStep matrix i0 j0 u v used
        (mv, wy, delta, j1) jm with ⟨mv₁, wy₁, delta₁, j1₁⟩
    obtain ⟨S1, S2, S3, S4, S5⟩ := scanStep_inv matrix n p L i0 j0 u v used
      hi0 hj0L mv wy delta j1 jm (hjs jm (List.mem_cons_self jm js))
      hml hwl I1 I3
    rw [hstep] at S1 S2 S3 S4 S5 heq
    obtain ⟨T1, T2, T3, T4, T5⟩ := ih mv₁ wy₁ delta₁ j1₁
      (fun x hx => hjs x (List.mem_cons_of_mem jm hx)) S1 S2 S3 S5
      mvr wyr deltar j1r heq
    refine ⟨T1, T2, T3, ?_, T5⟩
    intro c hc
    rw [T4 c hc, S4 c hc]

theorem applyDelta_go (delta : JsNum) (p : List Nat) (used : List Bool) :
    ∀ (js : List Nat) (u v mv ur vr mvr : List JsNum),
    js.foldl
      (fun acc j =>
        let (u, v, mv) := acc
        if used.getD j false then
          let pj := p.getD j 0
          (u.set pj ((u.getD pj (JsNum.num 0)).add delta),
           v.set j ((v.getD j (JsNum.num 0)).sub delta), mv)
        else (u, v, mv.set j ((mv.getD j (JsNum.num 0)).sub delta)))
      (u, v, mv) = (ur, vr, mvr) →
    (∀ j, Selectable (mvr.getD j (JsNum.num 0)) →
      Selectable (mv.getD j (JsNum.num 0))) ∧ mvr.length = mv.length := by
  intro js
  induction js with
  | nil =>
    intro u v mv ur vr mvr heq
    rw [List.foldl_nil] at heq
    injection heq with h1 h2
    injection h2 with h2 h3
    subst h3
    exact ⟨fun j h => h, rfl⟩
  | cons j js ih =>
    intro u v mv ur vr mvr heq
    rw [List.foldl_cons] at heq
    cases hu : used.getD j false with
    | true =>
      simp only [hu, if_true] at heq
      exact ih _ _ _ _ _ _ heq
    | false =>
      simp only [hu, Bool.false_eq_true, if_false] at heq
      obtain ⟨h1, h2⟩ := ih _ _ _ _ _ _ heq
      constructor
      · intro jq hq
        rcases getD_set_cases mv j jq ((mv.getD j (JsNum.num 0)).sub delta)
            (JsNum.num 0) with hc | ⟨hc1, hc2⟩
        · have := h1 jq hq
          rw [hc] at this
          exact this
        · have := h1 jq hq
          rw [hc2] at this
          subst hc1
          exact sub_selectable this
      · rw [h2, List.length_set]

theorem hungarianApplyDelta_minv (n : Nat) (delta : JsNum) (p : List Nat)
    (u v minv : List JsNum) (used : List Bool)
    (ur vr mvr : List JsNum)
    (h : hungarianApplyDelta n delta p u v minv used = (ur, vr, mvr)) :
    (∀ j, Selectable (mvr.getD j (JsNum.num 0)) →
      Selectable (minv.getD j (JsNum.num 0))) ∧ mvr.length = minv.length :=
  applyDelta_go delta p used (List.range (n + 1)) u v minv ur vr mvr h

theorem hungarianInner_inv (matrix : List (List JsNum)) (n : Nat)
    (p : List Nat) (hp0 : p.getD 0 0 ≠ 0) :
    ∀ (fuel j0 : Nat) (u v : List JsNum) (way : List Nat) (used : List Bool)
      (minv : List JsNum) (L : List Nat),
    way.length = n + 1 → minv.length = n + 1 → used.length = n + 1 →
    (∀ c ∈ L, used.getD c false = true) →
    (∀ c ∈ L, 1 ≤ c) →
    L.Nodup →
    DescWay way L →
    (∀ c ∈ L, costOf matrix (p.getD (way.getD c 0) 0) c ≠ JsNum.posInf) →
    (∀ j, 1 ≤ j → j ≤ n → Selectable (minv.getD j (JsNum.num 0)) →
      (way.getD j 0 ∈ (0 : Nat) :: L ∧
       costOf matrix (p.getD (way.getD j 0) 0) j ≠ JsNum.posInf)) →
    (j0 = 0 ∨ (1 ≤ j0 ∧ j0 ≤ n ∧ j0 ∉ L ∧
      way.getD j0 0 ∈ (0 : Nat) :: L ∧
      costOf matrix (p.getD (way.getD j0 0) 0) j0 ≠ JsNum.posInf)) →
    ∀ jr ur vr wayr,
    hungarianInner matrix n fuel j0 u v p way used minv =
      some (jr, ur, vr, wayr) →
    ∃ L₂, L₂.Nodup ∧ (∀ c ∈ L₂, 1 ≤ c) ∧ DescWay wayr L₂ ∧
      jr ∉ L₂ ∧ 1 ≤ jr ∧ jr ≤ n ∧ wayr.getD jr 0 ∈ (0 : Nat) :: L₂ ∧
      costOf matrix (p.getD (wayr.getD jr 0) 0) jr ≠ JsNum.posInf ∧
      (∀ c ∈ L₂, costOf matrix (p.getD (wayr.getD c 0) 0) c ≠
        JsNum.posInf) ∧
      p.getD jr 0 = 0 ∧ wayr.length = n + 1 := by
  intro fuel
  induction fuel with
  | zero =>
    intro j0 u v way used minv L _ _ _ _ _ _ _ _ _ _ jr ur vr wayr heq
    exact absurd heq (by rw [hungarianInner]; exact fun h => by cases h)
  | succ fuel ih =>
    intro j0 u v way used minv L hwlen hmlen hulen husedL hLpos hLn hdesc
      hQL hsel hj0 jr ur vr wayr heq
    rw [hungarianInner] at heq
    rcases hscan : hungarianScan matrix n (p.getD j0 0) j0 u v
        (used.set j0 true) minv way with ⟨minv₁, way₁, delta, j1⟩
    rcases happ : hungarianApplyDelta n delta p u v minv₁
        (used.set j0 true) with ⟨u₁, v₁, minv₂⟩
    rw [hscan] at heq
    replace heq : (match hungarianApplyDelta n delta p u v minv₁
        (used.set j0 true) with
      | (u₂, v₂, minv₃) =>
        if p.getD j1 0 = 0 then some (j1, u₂, v₂, way₁)
        else hungarianInner matrix n fuel j1 u₂ v₂ p way₁
          (used.set j0 true) minv₃) = some (jr, ur, vr, wayr) := heq
    rw [happ] at heq
    replace heq : (if p.getD j1 0 = 0 then some (j1, u₁, v₁, way₁)
        else hungarianInner matrix n fuel j1 u₁ v₁ p way₁
          (used.set j0 true) minv₂) = some (jr, ur, vr, wayr) := heq
    -- the post-marking used-column list
    have hj0n : j0 ≤ n := by
      rcases hj0 with rfl | ⟨-, h, -⟩
      · omega
      · exact h
    have husedL₁ : ∀ c ∈ (if j0 = 0 then L else j0 :: L),
        (used.set j0 true).getD c false = true := by
      intro c hc
      by_cases hcj : c = j0
      · subst hcj
        exact getD_set_self used true false (by omega)
      · rw [getD_set_ne used true false (fun h => hcj h.symm)]
        apply husedL
        by_cases h0 : j0 = 0
        · rw [if_pos h0] at hc
          exact hc
        · rw [if_neg h0] at hc
          rcases List.mem_cons.mp hc with h | h
          · exact absurd h hcj
          · exact h
    have hLsub : ∀ x ∈ (0 : Nat) :: L,
        x ∈ (0 : Nat) :: (if j0 = 0 then L else j0 :: L) := by
      intro x hx
      rcases List.mem_cons.mp hx with rfl | hx₂
      · exact List.mem_cons_self 0 _
      · by_cases h0 : j0 = 0
        · rw [if_pos h0]
          exact List.mem_cons_of_mem 0 hx₂
        · rw [if_neg h0]
          exact List.mem_cons_of_mem 0 (List.mem_cons_of_mem j0 hx₂)
    have hj0L₁ : j0 ∈ (0 : Nat) :: (if j0 = 0 then L else j0 :: L) := by
      by_cases h0 : j0 = 0
      · rw [h0]
        exact List.mem_cons_self 0 _
      · rw [if_neg h0]
        exact List.mem_cons_of_mem 0 (List.mem_cons_self j0 L)
    have hQL₁ : ∀ c ∈ (if j0 = 0 then L else j0 :: L),
        costOf matrix (p.getD (way.getD c 0) 0) c ≠ JsNum.posInf := by
      intro c hc
      by_cases h0 : j0 = 0
      · rw [if_pos h0] at hc
        exact hQL c hc
      · rw [if_neg h0] at hc
        rcases List.mem_cons.mp hc with rfl | hc₂
        · rcases hj0 with h | ⟨-, -, -, -, h⟩
          · exact absurd h h0
          · exact h
        · exact hQL c hc₂
    have hdesc₁ : DescWay way (if j0 = 0 then L else j0 :: L) := by
      by_cases h0 : j0 = 0
      · rw [if_pos h0]
        exact hdesc
      · rw [if_neg h0]
        refine ⟨?_, hdesc⟩
        rcases hj0 with h | ⟨-, -, -, h, -⟩
        · exact absurd h h0
        · exact h
    have hLn₁ : (if j0 = 0 then L else j0 :: L).Nodup := by
      by_cases h0 : j0 = 0
      · rw [if_pos h0]
        exact hLn
      · rw [if_neg h0]
        refine List.nodup_cons.mpr ⟨?_, hLn⟩
        rcases hj0 with h | ⟨-, -, h, -, -⟩
        · exact absurd h h0
        · exact h
    have hLpos₁ : ∀ c ∈ (if j0 = 0 then L else j0 :: L), 1 ≤ c := by
      intro c hc
      by_cases h0 : j0 = 0
      · rw [if_pos h0] at hc
        exact hLpos c hc
      · rw [if_neg h0] at hc
        rcases List.mem_cons.mp hc with rfl | hc₂
        · rcases hj0 with h | ⟨h, -⟩
          · exact absurd h h0
          · exact h
        · exact hLpos c hc₂
    have hfold : (List.range n).foldl
        (hungarianScanStep matrix (p.getD j0 0) j0 u v (used.set j0 true))
        (minv, way, JsNum.posInf, 0) = (minv₁, way₁, delta, j1) := by
      rw [← hungarianScan_eq]
      exact hscan
    obtain ⟨S1, S2, S3, S4, S5⟩ := hungarianScan_go matrix n p
      (if j0 = 0 then L else j0 :: L) (p.getD j0 0) j0 u v
      (used.set j0 true) rfl hj0L₁ (List.range n) minv way JsNum.posInf 0
      (fun jm hjm => by
        have := List.mem_range.mp hjm
        omega)
      hmlen hwlen
      (fun j h1 h2 hs => ⟨hLsub _ (hsel j h1 h2 hs).1, (hsel j h1 h2 hs).2⟩)
      (Or.inl rfl) minv₁ way₁ delta j1 hfold
    have hdescw₁ : DescWay way₁ (if j0 = 0 then L else j0 :: L) :=
      DescWay_congr (fun c hc => S4 c (husedL₁ c hc)) hdesc₁
    have hQLw₁ : ∀ c ∈ (if j0 = 0 then L else j0 :: L),
        costOf matrix (p.getD (way₁.getD c 0) 0) c ≠ JsNum.posInf := by
      intro c hc
      rw [S4 c (husedL₁ c hc)]
      exact hQL₁ c hc
    by_cases hret : p.getD j1 0 = 0
    · rw [if_pos hret] at heq
      injection heq with htup
      injection htup with ha hb
      injection hb with hb hc
      injection hc with hc hd
      subst ha
      subst hb
      subst hc
      subst hd
      have hj1ne : j1 ≠ 0 := fun h => hp0 (h ▸ hret)
      rcases S5 with h | ⟨hj1a, hj1b, hj1c, hj1d⟩
      · exact absurd h hj1ne
      obtain ⟨hway1, hcost1⟩ := S3 j1 hj1a hj1b hj1d
      refine ⟨(if j0 = 0 then L else j0 :: L), hLn₁, hLpos₁, hdescw₁,
        ?_, hj1a, hj1b, hway1, hcost1, hQLw₁, hret, S2⟩
      intro hmem
      rw [husedL₁ j1 hmem] at hj1c
      cases hj1c
    · rw [if_neg hret] at heq
      obtain ⟨hminv₂sel, hminv₂len⟩ := hungarianApplyDelta_minv n delta p
        u v minv₁ (used.set j0 true) u₁ v₁ minv₂ happ
      refine ih j1 u₁ v₁ way₁ (used.set j0 true) minv₂
        (if j0 = 0 then L else j0 :: L) S2 (by rw [hminv₂len]; exact S1)
        (by rw [List.length_set]; exact hulen) husedL₁ hLpos₁ hLn₁
        hdescw₁ hQLw₁
        (fun j h1 h2 hs => S3 j h1 h2 (hminv₂sel j hs)) ?_
        jr ur vr wayr heq
      by_cases hj10 : j1 = 0
      · exact Or.inl hj10
      · rcases S5 with h | ⟨hj1a, hj1b, hj1c, hj1d⟩
        · exact absurd h hj10
        obtain ⟨hway1, hcost1⟩ := S3 j1 hj1a hj1b hj1d
        refine Or.inr ⟨hj1a, hj1b, ?_, hway1, hcost1⟩
        intro hmem
        rw [husedL₁ j1 hmem] at hj1c
        cases hj1c

theorem hungarianAugment_pinv (matrix : List (List JsNum)) (way : List Nat) :
    ∀ (fuel : Nat) (S : List Nat) (j0 : Nat) (p : List Nat),
    DescWay way S → S.Nodup → j0 ∉ S → j0 ≠ 0 →
    way.getD j0 0 ∈ (0 : Nat) :: S →
    costOf matrix (p.getD (way.getD j0 0) 0) j0 ≠ JsNum.posInf →
    (∀ c ∈ S, costOf matrix (p.getD (way.getD c 0) 0) c ≠ JsNum.posInf) →
    (∀ j, 1 ≤ j → costOf matrix (p.getD j 0) j ≠ JsNum.posInf) →
    ∀ pr, hungarianAugment way fuel j0 p = some pr →
    (∀ j, 1 ≤ j → costOf matrix (pr.getD j 0) j ≠ JsNum.posInf) ∧
    pr.length = p.length := by
  intro fuel
  induction fuel with
  | zero =>
    intro S j0 p _ _ _ _ _ _ _ _ pr heq
    exact absurd heq (by rw [hungarianAugment]; exact fun h => by cases h)
  | succ fuel ih =>
    intro S j0 p hdesc hSn hj0S hj0ne hlink hQ0 hQS hP pr heq
    rw [hungarianAugment] at heq
    have hP' : ∀ j, 1 ≤ j →
        costOf matrix ((p.set j0 (p.getD (way.getD j0 0) 0)).getD j 0) j ≠
          JsNum.posInf := by
      intro j h1
      rcases getD_set_cases p j0 j (p.getD (way.getD j0 0) 0) 0 with
        hc | ⟨hc1, hc2⟩
      · rw [hc]
        exact hP j h1
      · rw [hc2]
        subst hc1
        exact hQ0
    by_cases hj1 : way.getD j0 0 = 0
    · rw [hj1] at heq hP'
      rw [if_pos rfl] at heq
      injection heq with heq
      subst heq
      exact ⟨hP', by rw [List.length_set]⟩
    · rw [if_neg hj1] at heq
      have hj1S : way.getD j0 0 ∈ S := by
        rcases List.mem_cons.mp hlink with h | h
        · exact absurd h hj1
        · exact h
      obtain ⟨S₂, hd₂, hn₂, hsub₂, hni₂, hlink₂⟩ :=
        DescWay_suffix hdesc hSn hj1S
      have hj0notin : ∀ x ∈ (0 : Nat) :: S₂, x ≠ j0 := by
        intro x hx hcon
        subst hcon
        rcases List.mem_cons.mp hx with h | h
        · exact hj0ne h
        · exact hj0S (hsub₂ x h)
      obtain ⟨ih1, ih2⟩ := ih S₂ (way.getD j0 0)
        (p.set j0 (p.getD (way.getD j0 0) 0)) hd₂ hn₂ hni₂ hj1
        hlink₂
        (by
          rw [getD_set_ne p _ 0 (fun h =>
            hj0notin _ hlink₂ h.symm)]
          exact hQS (way.getD j0 0) hj1S)
        (by
          intro c hc
          rw [getD_set_ne p _ 0 (fun h =>
            hj0notin _ (DescWay_mem hd₂ c hc) h.symm)]
          exact hQS c (hsub₂ c hc))
        hP' pr heq
      refine ⟨ih1, ?_⟩
      rw [ih2, List.length_set]

theorem hungarianRow_inv (matrix : List (List JsNum)) (n : Nat)
    (u v : List JsNum) (p way : List Nat) (i : Nat) (hi : 1 ≤ i)
    (hplen : p.length = n + 1) (hwlen : way.length = n + 1)
    (hP : ∀ j, 1 ≤ j → costOf matrix (p.getD j 0) j ≠ JsNum.posInf) :
    ∀ ur vr pr wayr,
    hungarianRow matrix n (u, v, p, way) i = some (ur, vr, pr, wayr) →
    (∀ j, 1 ≤ j → costOf matrix (pr.getD j 0) j ≠ JsNum.posInf) ∧
    pr.length = n + 1 ∧ wayr.length = n + 1 := by
  intro ur vr pr wayr heq
  replace heq : (match hungarianInner matrix n (n + 2) 0 u v (p.set 0 i)
      way (List.replicate (n + 1) false)
      (List.replicate (n + 1) JsNum.posInf) with
    | none => none
    | some (j0, u₂, v₂, way₂) =>
      match hungarianAugment way₂ (n + 2) j0 (p.set 0 i) with
      | none => none
      | some p₂ => some (u₂, v₂, p₂, way₂)) =
      some (ur, vr, pr, wayr) := heq
  rcases hin : hungarianInner matrix n (n + 2) 0 u v (p.set 0 i) way
      (List.replicate (n + 1) false) (List.replicate (n + 1) JsNum.posInf)
    with - | ⟨j0, u₂, v₂, way₂⟩
  · rw [hin] at heq
    cases heq
  rw [hin] at heq
  replace heq : (match hungarianAugment way₂ (n + 2) j0 (p.set 0 i) with
    | none => none
    | some p₂ => some (u₂, v₂, p₂, way₂)) =
      some (ur, vr, pr, wayr) := heq
  rcases haug : hungarianAugment way₂ (n + 2) j0 (p.set 0 i) with - | p₂
  · rw [haug] at heq
    cases heq
  rw [haug] at heq
  replace heq : some ((u₂, v₂, p₂, way₂) :
      List JsNum × List JsNum × List Nat × List Nat) =
      some (ur, vr, pr, wayr) := heq
  injection heq with htup
  injection htup with ha hb
  injection hb with hb hc
  injection hc with hc hd
  subst ha
  subst hb
  subst hc
  subst hd
  have hp0 : (p.set 0 i).getD 0 0 ≠ 0 := by
    rw [getD_set_self p i 0 (by omega)]
    omega
  obtain ⟨L₂, hn₂, hpos₂, hdesc₂, hjrni, hjr1, hjrn, hlinkr, hcostr, hQr,
      hpjr, hwlenr⟩ :=
    hungarianInner_inv matrix n (p.set 0 i) hp0 (n + 2) 0 u v way
      (List.replicate (n + 1) false) (List.replicate (n + 1) JsNum.posInf)
      [] hwlen (by simp) (by simp)
      (fun c hc => absurd hc (List.not_mem_nil c))
      (fun c hc => absurd hc (List.not_mem_nil c))
      List.nodup_nil trivial
      (fun c hc => absurd hc (List.not_mem_nil c))
      (fun j h1 h2 hs => by
        rw [getD_replicate JsNum.posInf (JsNum.num 0) (by omega)] at hs
        exact absurd rfl hs.1)
      (Or.inl rfl) j0 u₂ v₂ way₂ hin
  obtain ⟨hPr, hlenr⟩ := hungarianAugment_pinv matrix way₂ (n + 2) L₂ j0
    (p.set 0 i) hdesc₂ hn₂ hjrni (by omega) hlinkr hcostr hQr
    (fun j h1 => by
      rw [getD_set_ne p i 0 (by omega)]
      exact hP j h1)
    p₂ haug
  refine ⟨hPr, ?_, hwlenr⟩
  rw [hlenr, List.length_set, hplen]

theorem rowsFold_inv (matrix : List (List JsNum)) (n : Nat) :
    ∀ (js : List Nat)
      (acc : Option (List JsNum × List JsNum × List Nat × List Nat)),
    (∀ u₀ v₀ p₀ w₀, acc = some (u₀, v₀, p₀, w₀) →
      (∀ j, 1 ≤ j → costOf matrix (p₀.getD j 0) j ≠ JsNum.posInf) ∧
      p₀.length = n + 1 ∧ w₀.length = n + 1) →
    ∀ ur vr pr wayr,
    js.foldl (fun acc im => acc.bind fun st =>
        hungarianRow matrix n st (im + 1)) acc =
      some (ur, vr, pr, wayr) →
    (∀ j, 1 ≤ j → costOf matrix (pr.getD j 0) j ≠ JsNum.posInf) ∧
    pr.length = n + 1 ∧ wayr.length = n + 1 := by
  intro js
  induction js with
  | nil =>
    intro acc hacc ur vr pr wayr heq
    rw [List.foldl_nil] at heq
    exact hacc ur vr pr wayr heq
  | cons im js ih =>
    intro acc hacc ur vr pr wayr heq
    rw [List.foldl_cons] at heq
    refine ih _ ?_ ur vr pr wayr heq
    intro u₀ v₀ p₀ w₀ hbind
    rcases Option.bind_eq_some.mp hbind with ⟨st, hst, hrow⟩
    rcases st with ⟨u₁, v₁, p₁, w₁⟩
    obtain ⟨hP₁, hpl₁, hwl₁⟩ := hacc u₁ v₁ p₁ w₁ hst
    exact hungarianRow_inv matrix n u₁ v₁ p₁ w₁ (im + 1) (by omega)
      hpl₁ hwl₁ hP₁ u₀ v₀ p₀ w₀ hrow

theorem extract_link (p : List Nat) (n : Nat) :
    ∀ (js : List Nat) (res : List Int),
    (∀ jm ∈ js, jm + 1 ≤ n) →
    (∀ i : Nat, 0 ≤ res.getD i (-1) →
      ∃ j, 1 ≤ j ∧ j ≤ n ∧ p.getD j 0 = i + 1 ∧
        res.getD i (-1) = (j : Int) - 1) →
    ∀ i : Nat,
    0 ≤ (js.foldl (hungarianExtractStep p) res).getD i (-1) →
      ∃ j, 1 ≤ j ∧ j ≤ n ∧ p.getD j 0 = i + 1 ∧
        (js.foldl (hungarianExtractStep p) res).getD i (-1) =
          (j : Int) - 1 := by
  intro js
  induction js with
  | nil =>
    intro res _ hres i h0
    exact hres i h0
  | cons jm js ih =>
    intro res hjs hres i h0
    rw [List.foldl_cons] at h0 ⊢
    refine ih (hungarianExtractStep p res jm)
      (fun x hx => hjs x (List.mem_cons_of_mem jm hx)) ?_ i h0
    intro i₀ hi₀
    unfold hungarianExtractStep at hi₀ ⊢
    by_cases hpos : 0 < p.getD (jm + 1) 0
    · rw [if_pos hpos] at hi₀ ⊢
      rcases getD_set_cases res (p.getD (jm + 1) 0 - 1) i₀
          ((jm : Int) + 1 - 1) (-1) with hc | ⟨hc1, hc2⟩
      · rw [hc] at hi₀ ⊢
        exact hres i₀ hi₀
      · rw [hc2]
        refine ⟨jm + 1, by omega, hjs jm (List.mem_cons_self jm js), by
          omega, by push_cast; omega⟩
    · rw [if_neg hpos] at hi₀ ⊢
      exact hres i₀ hi₀

theorem hungarianAlgorithm_no_sentinel (matrix : List (List JsNum))
    (asg : List Int) (h : hungarianAlgorithm matrix = some asg) :
    asg.length = matrix.length ∧
    ∀ i : Nat, 0 ≤ asg.getD i (-1) →
      ∃ j, 1 ≤ j ∧ j ≤ matrix.length ∧ asg.getD i (-1) = (j : Int) - 1 ∧
        (matrix.getD i []).getD (j - 1) (JsNum.num 0) ≠ JsNum.posInf := by
  unfold hungarianAlgorithm at h
  by_cases hn : matrix.length = 0
  · rw [if_pos hn] at h
    injection h with h
    subst h
    refine ⟨by simp [hn], ?_⟩
    intro i h0
    simp at h0
  · rw [if_neg hn] at h
    rcases hm : (List.range matrix.length).foldl
        (fun acc im => acc.bind fun st =>
          hungarianRow matrix matrix.length st (im + 1))
        (some (List.replicate (matrix.length + 1) (JsNum.num 0),
               List.replicate (matrix.length + 1) (JsNum.num 0),
               List.replicate (matrix.length + 1) 0,
               List.replicate (matrix.length + 1) 0)) with - | st
    · rw [hm] at h
      exact absurd h (by simp)
    · rw [hm] at h
      obtain ⟨u, v, p, w⟩ := st
      injection h with h
      subst h
      have hinit : ∀ (u₀ v₀ : List JsNum) (p₀ w₀ : List Nat),
          (some (List.replicate (matrix.length + 1) (JsNum.num 0),
                 List.replicate (matrix.length + 1) (JsNum.num 0),
                 List.replicate (matrix.length + 1) 0,
                 List.replicate (matrix.length + 1) 0) :
            Option (List JsNum × List JsNum × List Nat × List Nat)) =
            some (u₀, v₀, p₀, w₀) →
          (∀ j, 1 ≤ j → costOf matrix (p₀.getD j 0) j ≠ JsNum.posInf) ∧
          p₀.length = matrix.length + 1 ∧ w₀.length = matrix.length + 1 := by
        intro u₀ v₀ p₀ w₀ hsome
        injection hsome with htup
        injection htup with ha hb
        injection hb with hb hc
        injection hc with hc hd
        subst ha
        subst hb
        subst hc
        subst hd
        refine ⟨?_, by simp, by simp⟩
        intro j h1
        have hz : (List.replicate (matrix.length + 1) (0 : Nat)).getD j 0 =
            0 := by
          rcases le_or_lt (matrix.length + 1) j with hc | hc
          · exact List.getD_eq_default _ _ (by simpa using hc)
          · rw [List.getD_eq_getElem _ _ (by simpa using hc)]
            simp
        rw [hz]
        unfold costOf
        rw [if_neg (by omega)]
        intro hcon
        cases hcon
      obtain ⟨hP, hpl, hwl⟩ := rowsFold_inv matrix matrix.length
        (List.range matrix.length) _ hinit u v p w hm
      constructor
      · -- length of the extraction result
        have hlen : ∀ (js : List Nat) (res : List Int),
            (js.foldl (hungarianExtractStep p) res).length =
              res.length := by
          intro js
          induction js with
          | nil => intro res; rfl
          | cons jm js ih2 =>
            intro res
            rw [List.foldl_cons, ih2]
            unfold hungarianExtractStep
            split
            · rw [List.length_set]
            · rfl
        rw [hlen, List.length_replicate]
      · intro i h0
        obtain ⟨j, hj1, hjn, hpj, hval⟩ := extract_link p matrix.length
          (List.range matrix.length) (List.replicate matrix.length (-1))
          (fun jm hjm => by
            have := List.mem_range.mp hjm
            omega)
          (fun i₀ hi₀ => by
            exfalso
            rcases le_or_lt matrix.length i₀ with hc | hc
            · rw [List.getD_eq_default _ _ (by simpa using hc)] at hi₀
              omega
            · rw [List.getD_eq_getElem _ _ (by simpa using hc)] at hi₀
              simp [List.getElem_replicate] at hi₀)
          i h0
        refine ⟨j, hj1, hjn, hval, ?_⟩
        have := hP j hj1
        rw [hpj] at this
        unfold costOf at this
        rw [if_pos (by omega)] at this
        simpa using this

theorem findClosest_good (city : City) (pickup : Position) :
    ∀ (l : List Taxi) (acc : Option Taxi × JsNum),
    (∀ t0, acc.1 = some t0 →
      acc.2 = pathDistance city t0.position pickup ∧
      acc.2 ≠ JsNum.posInf) →
    ∀ t, (l.foldl (fun acc t =>
        if (pathDistance city t.position pickup).lt acc.2 then
          (some t, pathDistance city t.position pickup)
        else acc) acc).1 = some t →
      pathDistance city t.position pickup ≠ JsNum.posInf := by
  intro l
  induction l with
  | nil =>
    intro acc hacc t h
    obtain ⟨h1, h2⟩ := hacc t h
    rw [← h1]
    exact h2
  | cons x l ih =>
    intro acc hacc t h
    rw [List.foldl_cons] at h
    refine ih _ ?_ t h
    intro t0 ht0
    by_cases hlt : (pathDistance city x.position pickup).lt acc.2 = true
    · rw [if_pos hlt] at ht0 ⊢
      injection ht0 with ht0
      subst ht0
      exact ⟨rfl, (lt_true_selectable hlt).1⟩
    · rw [if_neg hlt] at ht0 ⊢
      exact hacc t0 ht0

theorem greedyAssignments_finite (city : City) :
    ∀ (un : List Passenger) (idle : List Taxi)
      (pr : Taxi × Passenger × JsNum),
    pr ∈ greedyAssignments city un idle →
    pathDistance city pr.1.position pr.2.1.pickup ≠ JsNum.posInf := by
  intro un
  induction un with
  | nil => intro idle pr hpr; simp [greedyAssignments] at hpr
  | cons p ps ih =>
    intro idle pr hpr
    rw [greedyAssignments] at hpr
    by_cases he : idle.isEmpty
    · simp [he] at hpr
    · rw [if_neg (by simpa using he)] at hpr
      rcases hfc : findClosest city p.pickup idle with ⟨ot, d⟩
      rw [hfc] at hpr
      cases ot with
      | some t =>
        rcases List.mem_cons.mp hpr with h | h
        · subst h
          have h1 : (findClosest city p.pickup idle).1 = some t := by
            rw [hfc]
          exact findClosest_good city p.pickup idle (none, JsNum.posInf)
            (fun t0 h0 => absurd h0 (by simp)) t h1
        · exact ih (idle.erase t) pr h
      | none => exact ih idle pr hpr

theorem defaultOptimizer_no_sentinel (s : SimulationState) (q : Nat)
    (prs : List (String × String)) (h : defaultOptimizer s q = some prs) :
    ∀ pr ∈ prs,
    ∃ i j : Nat,
      i < (s.taxis.filter fun t => t.state == TaxiState.idle).length ∧
      j < (s.waitingPassengers.filter fun p =>
        p.assignedTaxiId == none).length ∧
      pr = (((s.taxis.filter fun t => t.state == TaxiState.idle).getD i
          default).id,
        ((s.waitingPassengers.filter fun p =>
          p.assignedTaxiId == none).getD j default).id) ∧
      pathDistance s.city
        ((s.taxis.filter fun t => t.state == TaxiState.idle).getD i
          default).position
        ((s.waitingPassengers.filter fun p =>
          p.assignedTaxiId == none).getD j default).pickup ≠
        JsNum.posInf := by
  unfold defaultOptimizer at h
  by_cases hskip : (s.taxis.filter fun t =>
      t.state == TaxiState.idle).isEmpty = true ∨
      (s.waitingPassengers.filter fun p =>
        p.assignedTaxiId == none).length < q
  · rw [if_pos (by simpa using hskip)] at h
    injection h with h
    subst h
    intro pr hpr
    exact absurd hpr (List.not_mem_nil pr)
  · rw [if_neg (by simpa using hskip)] at h
    rcases Option.map_eq_some'.mp h with ⟨asg, hasg, hprs⟩
    subst hprs
    set idle := s.taxis.filter fun t => t.state == TaxiState.idle with hidle
    set un := s.waitingPassengers.filter fun p =>
      p.assignedTaxiId == none with hun
    set n := min idle.length un.length with hn
    obtain ⟨hlen, hsent⟩ := hungarianAlgorithm_no_sentinel _ asg hasg
    have hmlen : ((List.range n).map fun i => (List.range n).map fun j =>
        if i < idle.length ∧ j < un.length then
          pathDistance s.city (idle.getD i default).position
            (un.getD j default).pickup
        else JsNum.num 0).length = n := by
      rw [List.length_map, List.length_range]
    intro pr hpr
    rcases List.mem_filterMap.mp hpr with ⟨i, hirange, hsome⟩
    split at hsome
    · injection hsome with hsome
      next hcond =>
        simp only [Bool.and_eq_true, decide_eq_true_eq] at hcond
        obtain ⟨⟨h0le, hiidle⟩, hjlt⟩ := hcond
        obtain ⟨j, hj1, hjn, hval, hentry⟩ := hsent i h0le
        rw [hmlen] at hjn
        have hin : i < n := by
          have := List.mem_range.mp hirange
          rw [hlen, hmlen] at this
          exact this
        have htn : (asg.getD i (-1)).toNat = j - 1 := by omega
        have hjun : j - 1 < un.length := by omega
        refine ⟨i, j - 1, hiidle, hjun, ?_, ?_⟩
        · rw [← hsome, htn]
        · rw [getD_range_map _ _ _ _ hin] at hentry
          rw [getD_range_map _ _ _ _ (by omega : j - 1 < n)] at hentry
          rw [if_pos ⟨hiidle, hjun⟩] at hentry
          exact hentry
    · cases hsome

/-- C6: the unreachable sentinel (`Infinity` from `pathDistance`) never wins
a minimum-cost comparison in either assignment strategy.  `assignGreedy`
never pairs a passenger with a taxi whose path distance to the pickup is the
sentinel (a taxi is chosen only after winning a strict `<` against a best
that starts at `Infinity`, and `Infinity < x` is always false), and every
pairing emitted by `defaultOptimizer` corresponds to a cost-matrix entry
that is not the sentinel (the Hungarian loop links a column into the
augmenting structure only when a candidate value wins a strict `<`, which an
`Infinity`-based value never does; runs that would be forced through an
`Infinity` edge loop forever and emit nothing). -/
theorem sentinel_never_wins (s : SimulationState) (q : Nat) :
    (∀ pr ∈ greedyPairings s,
      pathDistance s.city pr.1.position pr.2.1.pickup ≠ JsNum.posInf) ∧
    (∀ prs, defaultOptimizer s q = some prs → ∀ pr ∈ prs,
      ∃ i j : Nat,
        i < (s.taxis.filter fun t => t.state == TaxiState.idle).length ∧
        j < (s.waitingPassengers.filter fun p =>
          p.assignedTaxiId == none).length ∧
        pr = (((s.taxis.filter fun t => t.state == TaxiState.idle).getD i
            default).id,
          ((s.waitingPassengers.filter fun p =>
            p.assignedTaxiId == none).getD j default).id) ∧
        pathDistance s.city
          ((s.taxis.filter fun t => t.state == TaxiState.idle).getD i
            default).position
          ((s.waitingPassengers.filter fun p =>
            p.assignedTaxiId == none).getD j default).pickup ≠
          JsNum.posInf) := by
  constructor
  · intro pr hpr
    exact greedyAssignments_finite s.city _ _ pr hpr
  · intro prs h pr hpr
    exact defaultOptimizer_no_sentinel s q prs h pr hpr

theorem isNum_exists {x : JsNum} (h : x.isNum = true) :
    ∃ q : ℚ, x = JsNum.num q := by
  cases x with
  | num q => exact ⟨q, rfl⟩
  | posInf => cases h
  | negInf => cases h
  | nan => cases h

theorem isNum_num (q : ℚ) : (JsNum.num q).isNum = true := rfl

theorem qval_num (q : ℚ) : qval (JsNum.num q) = q := rfl

theorem num_qval {x : JsNum} (h : x.isNum = true) :
    x = JsNum.num (qval x) := by
  obtain ⟨q, rfl⟩ := isNum_exists h
  rfl

theorem add_num_num (a b : ℚ) :
    (JsNum.num a).add (JsNum.num b) = JsNum.num (a + b) := rfl

theorem sub_num_num (a b : ℚ) :
    (JsNum.num a).sub (JsNum.num b) = JsNum.num (a - b) := rfl

theorem qval_add_num {x : JsNum} (d : ℚ) (h : x.isNum = true) :
    qval (x.add (JsNum.num d)) = qval x + d := by
  obtain ⟨q, rfl⟩ := isNum_exists h
  rfl

theorem qval_sub_num {x : JsNum} (d : ℚ) (h : x.isNum = true) :
    qval (x.sub (JsNum.num d)) = qval x - d := by
  obtain ⟨q, rfl⟩ := isNum_exists h
  rfl

theorem isNum_add_num {x : JsNum} (d : ℚ) (h : x.isNum = true) :
    (x.add (JsNum.num d)).isNum = true := by
  obtain ⟨q, rfl⟩ := isNum_exists h
  rfl

theorem isNum_sub_num {x : JsNum} (d : ℚ) (h : x.isNum = true) :
    (x.sub (JsNum.num d)).isNum = true := by
  obtain ⟨q, rfl⟩ := isNum_exists h
  rfl

theorem lt_num_posInf (a : ℚ) : (JsNum.num a).lt JsNum.posInf = true := rfl

theorem lt_num_num {a b : ℚ} : (JsNum.num a).lt (JsNum.num b) = true ↔ a < b := by
  simp [JsNum.lt]

theorem lt_num_num_false {a b : ℚ} :
    (JsNum.num a).lt (JsNum.num b) = false ↔ b ≤ a := by
  simp [JsNum.lt]

theorem cur_eq_slack (matrix : List (List JsNum)) (i0 j : Nat)
    (u v : List JsNum)
    (hc : costOf matrix i0 j = JsNum.num (entryQ matrix i0 j))
    (hu : (u.getD i0 (JsNum.num 0)).isNum = true)
    (hv : (v.getD j (JsNum.num 0)).isNum = true) :
    ((costOf matrix i0 j).sub (u.getD i0 (JsNum.num 0))).sub
      (v.getD j (JsNum.num 0)) = JsNum.num (slackQ matrix u v i0 j) := by
  obtain ⟨a, ha⟩ := isNum_exists hu
  obtain ⟨b, hb⟩ := isNum_exists hv
  rw [hc, ha, hb, sub_num_num, sub_num_num]
  unfold slackQ atQ
  rw [ha, hb, qval_num, qval_num]

theorem slackQ_zero_iff (matrix : List (List JsNum)) (u v : List JsNum)
    (r j : Nat) : slackQ matrix u v r j = 0 ↔
      atQ u r + atQ v j = entryQ matrix r j := by
  unfold slackQ
  constructor <;> intro h <;> linarith

theorem FinMat_costOf (matrix : List (List JsNum)) (n : Nat)
    (hfm : FinMat matrix n) (i0 j : Nat) (h1 : 1 ≤ i0) (h2 : i0 ≤ n) :
    costOf matrix i0 j = JsNum.num (entryQ matrix i0 j) := by
  obtain ⟨hlen, hsq, hfin⟩ := hfm
  have hi : i0 - 1 < matrix.length := by omega
  have hrow : matrix.getD (i0 - 1) [] ∈ matrix := by
    rw [List.getD_eq_getElem _ _ hi]
    exact List.getElem_mem _
  unfold costOf entryQ
  rw [if_pos (by omega : 0 < i0)]
  by_cases hj : j - 1 < (matrix.getD (i0 - 1) []).length
  · have hc : (matrix.getD (i0 - 1) []).getD (j - 1) (JsNum.num 0) ∈
        matrix.getD (i0 - 1) [] := by
      rw [List.getD_eq_getElem _ _ hj]
      exact List.getElem_mem _
    exact num_qval (hfin _ hrow _ hc)
  · rw [List.getD_eq_default _ _ (by omega)]
    rfl

theorem filter_length_lt {l : List Nat} (pr pr₂ : Nat → Bool) (j : Nat)
    (hl : l.Nodup) (hj : j ∈ l) (hpj : pr j = true) (hqj : pr₂ j = false)
    (hagree : ∀ x, x ≠ j → pr₂ x = pr x) :
    (l.filter pr₂).length < (l.filter pr).length := by
  induction l with
  | nil => cases hj
  | cons a l ih =>
    rw [List.nodup_cons] at hl
    rcases List.mem_cons.mp hj with rfl | hj₂
    · rw [List.filter_cons, List.filter_cons, hpj, hqj]
      have heq : l.filter pr₂ = l.filter pr :=
        List.filter_congr fun x hx => hagree x (fun h => hl.1 (h ▸ hx))
      simp [heq]
    · rw [List.filter_cons, List.filter_cons]
      by_cases ha : a = j
      · exact absurd (ha ▸ hj₂) hl.1
      · rw [hagree a ha]
        cases pr a with
        | true => simpa using ih hl.2 hj₂
        | false => simpa using ih hl.2 hj₂

theorem unusedCount_set (used : List Bool) (n j0 : Nat) (hj0 : j0 ≤ n)
    (hlen : j0 < used.length)
    (hu : used.getD j0 false = false) :
    unusedCount (used.set j0 true) n < unusedCount used n := by
  unfold unusedCount
  refine filter_length_lt _ _ j0 (List.nodup_range _)
    (List.mem_range.mpr (by omega)) (by rw [hu]; rfl) ?_ ?_
  · rw [getD_set_self used true false hlen]
    rfl
  · intro x hx
    rw [getD_set_ne used true false (fun h => hx h.symm)]

theorem nodup_sub_length_le {l₂ l : List Nat} (h₂ : l₂.Nodup)
    (hsub : ∀ x ∈ l₂, x ∈ l) : l₂.length ≤ l.length :=
  (List.Nodup.subperm h₂ hsub).length_le

theorem nodup_sub_length_lt {l₂ l : List Nat} (h₂ : l₂.Nodup) (hl : l.Nodup)
    (hsub : ∀ x ∈ l₂, x ∈ l) {j : Nat} (hj : j ∈ l) (hnj : j ∉ l₂) :
    l₂.length < l.length := by
  have : (j :: l₂).length ≤ l.length :=
    nodup_sub_length_le (List.nodup_cons.mpr ⟨hnj, h₂⟩)
      (fun x hx => by
        rcases List.mem_cons.mp hx with rfl | hx₂
        · exact hj
        · exact hsub x hx₂)
  simpa using this

theorem cols_length_le (L : List Nat) (n : Nat) (hn : L.Nodup)
    (hb : ∀ c ∈ L, 1 ≤ c ∧ c ≤ n) : L.length ≤ n := by
  have := nodup_sub_length_le hn (l := (List.range n).map (· + 1))
    (fun x hx => by
      obtain ⟨h1, h2⟩ := hb x hx
      exact List.mem_map.mpr ⟨x - 1, List.mem_range.mpr (by omega), by omega⟩)
  simpa using this

theorem matched_cols_pigeonhole (p : List Nat) (n i : Nat) (hn1 : 1 ≤ n)
    (hin : i ≤ n)
    (hall : ∀ j, 1 ≤ j → j ≤ n → p.getD j 0 ≠ 0)
    (hrange : ∀ j, 1 ≤ j → j ≤ n → p.getD j 0 < i)
    (hinj : ∀ j j', 1 ≤ j → j ≤ n → 1 ≤ j' → j' ≤ n → j ≠ j' →
      p.getD j 0 ≠ 0 → p.getD j 0 ≠ p.getD j' 0) : False := by
  have hnd : ((List.range n).map fun jm => p.getD (jm + 1) 0).Nodup := by
    refine List.Nodup.map_on ?_ (List.nodup_range n)
    intro x hx y hy hxy
    by_contra hne
    exact hinj (x + 1) (y + 1) (by omega)
      (by have := List.mem_range.mp hx; omega) (by omega)
      (by have := List.mem_range.mp hy; omega) (by omega)
      (hall (x + 1) (by omega) (by have := List.mem_range.mp hx; omega)) hxy
  have hle := nodup_sub_length_le hnd
    (l := (List.range (i - 1)).map (· + 1))
    (fun x hx => by
      rcases List.mem_map.mp hx with ⟨jm, hjm, rfl⟩
      have hjn := List.mem_range.mp hjm
      have h0 := hall (jm + 1) (by omega) (by omega)
      have hri := hrange (jm + 1) (by omega) (by omega)
      exact List.mem_map.mpr ⟨p.getD (jm + 1) 0 - 1,
        List.mem_range.mpr (by omega), by omega⟩)
  simp only [List.length_map, List.length_range] at hle
  omega

theorem ScanDone_congr {matrix : List (List JsNum)} {i0 j0 : Nat}
    {u v minv₀ : List JsNum} {way₀ : List Nat} {mv mv' : List JsNum}
    {wy wy' : List Nat} {j : Nat}
    (hmv : mv'.getD j (JsNum.num 0) = mv.getD j (JsNum.num 0))
    (hwy : wy'.getD j 0 = wy.getD j 0)
    (h : ScanDone matrix i0 j0 u v minv₀ way₀ mv wy j) :
    ScanDone matrix i0 j0 u v minv₀ way₀ mv' wy' j := by
  unfold ScanDone at h ⊢
  rw [hmv, hwy]
  exact h

theorem scanStep_main (matrix : List (List JsNum)) (n i0 j0 : Nat)
    (u v : List JsNum) (used : List Bool) (minv₀ : List JsNum)
    (way₀ : List Nat) (jm : Nat) (js : List Nat)
    (hjm : jm + 1 ≤ n) (hnjm : jm ∉ js)
    (hcost : costOf matrix i0 (jm + 1) =
      JsNum.num (entryQ matrix i0 (jm + 1)))
    (hu : (u.getD i0 (JsNum.num 0)).isNum = true)
    (hv : (v.getD (jm + 1) (JsNum.num 0)).isNum = true)
    (hm0 : used.getD (jm + 1) false = false →
      (minv₀.getD (jm + 1) (JsNum.num 0)).isNum = true ∨
      minv₀.getD (jm + 1) (JsNum.num 0) = JsNum.posInf)
    (mv : List JsNum) (wy : List Nat) (delta : JsNum) (j1 : Nat)
    (hinv : ScanInv matrix n i0 j0 u v used minv₀ way₀ (jm :: js) mv wy
      delta j1) :
    ScanInv matrix n i0 j0 u v used minv₀ way₀ js
      (hungarianScanStep matrix i0 j0 u v used (mv, wy, delta, j1) jm).1
      (hungarianScanStep matrix i0 j0 u v used (mv, wy, delta, j1) jm).2.1
      (hungarianScanStep matrix i0 j0 u v used (mv, wy, delta, j1) jm).2.2.1
      (hungarianScanStep matrix i0 j0 u v used
        (mv, wy, delta, j1) jm).2.2.2 := by
  obtain ⟨hmlen, hwlen, hperj, hunproc, hupres, hsel⟩ := hinv
  simp only [hungarianScanStep]
  cases hused : used.getD (jm + 1) false with
  | true =>
    simp only [if_true]
    refine ⟨hmlen, hwlen, ?_, ?_, hupres, ?_⟩
    · intro j h1 h2 hju
      rcases hperj j h1 h2 hju with hmem | hdone
      · rcases List.mem_cons.mp hmem with heq | hmem₂
        · exact absurd hused (by rw [show jm + 1 = j by omega, hju]; simp)
        · exact Or.inl hmem₂
      · exact Or.inr hdone
    · intro j h1 h2 hmem
      exact hunproc j h1 h2 (List.mem_cons_of_mem jm hmem)
    · rcases hsel with ⟨ha, hb, hc⟩ | ⟨h1, h2, h3, h4, h5, h6, h7⟩
      · refine Or.inl ⟨ha, hb, ?_⟩
        intro j hj1 hj2 hju
        rcases List.mem_cons.mp (hc j hj1 hj2 hju) with heq | hmem₂
        · exact absurd hused (by rw [show jm + 1 = j by omega, hju]; simp)
        · exact hmem₂
      · refine Or.inr ⟨h1, h2, h3, fun h => h4 (List.mem_cons_of_mem jm h),
          h5, h6, ?_⟩
        intro j hj1 hj2 hju
        rcases h7 j hj1 hj2 hju with hmem | hle
        · rcases List.mem_cons.mp hmem with heq | hmem₂
          · exact absurd hused (by rw [show jm + 1 = j by omega, hju]; simp)
          · exact Or.inl hmem₂
        · exact Or.inr hle
  | false =>
    simp only [Bool.false_eq_true, if_false]
    obtain ⟨hmv0, hwy0⟩ := hunproc (jm + 1) (by omega) hjm
      (by simpa using List.mem_cons_self jm js)
    set cost := (if 0 < i0 then
      (matrix.getD (i0 - 1) []).getD (jm + 1 - 1) (JsNum.num 0)
      else JsNum.num 0) with hcostdef
    set cur := (cost.sub (u.getD i0 (JsNum.num 0))).sub
      (v.getD (jm + 1) (JsNum.num 0)) with hcurdef
    have hcur : cur = JsNum.num (slackQ matrix u v i0 (jm + 1)) := by
      rw [hcurdef, hcostdef]
      exact cur_eq_slack matrix i0 (jm + 1) u v hcost hu hv
    have hmvlt : jm + 1 < mv.length := by omega
    have hwylt : jm + 1 < wy.length := by omega
    by_cases hUpd : cur.lt (mv.getD (jm + 1) (JsNum.num 0)) = true
    · simp only [if_pos hUpd]
      have hmv1 : (mv.set (jm + 1) cur).getD (jm + 1) (JsNum.num 0) = cur :=
        getD_set_self mv cur (JsNum.num 0) hmvlt
      have hwy1 : (wy.set (jm + 1) j0).getD (jm + 1) 0 = j0 :=
        getD_set_self wy j0 0 hwylt
      have hdone : ScanDone matrix i0 j0 u v minv₀ way₀
          (mv.set (jm + 1) cur) (wy.set (jm + 1) j0) (jm + 1) := by
        refine ⟨by rw [hmv1, hcur]; rfl, Or.inl ⟨by rw [hmv1, hcur]; rfl,
          hwy1, ?_⟩⟩
        intro hfin
        obtain ⟨m, hm⟩ := isNum_exists hfin
        rw [hmv0, hm] at hUpd
        rw [hcur] at hUpd
        rw [hmv1, hcur, hm, qval_num, qval_num]
        exact le_of_lt (lt_num_num.mp hUpd)
      have hperj₂ : ∀ j, 1 ≤ j → j ≤ n → used.getD j false = false →
          (j - 1) ∈ js ∨ ScanDone matrix i0 j0 u v minv₀ way₀
            (mv.set (jm + 1) cur) (wy.set (jm + 1) j0) j := by
        intro j h1 h2 hju
        by_cases hj : j = jm + 1
        · exact Or.inr (hj ▸ hdone)
        · rcases hperj j h1 h2 hju with hmem | hdone₂
          · rcases List.mem_cons.mp hmem with heq | hmem₂
            · exact absurd (by omega : j = jm + 1) hj
            · exact Or.inl hmem₂
          · exact Or.inr (ScanDone_congr
              (getD_set_ne mv cur (JsNum.num 0) (fun h => hj h.symm))
              (getD_set_ne wy j0 0 (fun h => hj h.symm)) hdone₂)
      have hcurfin : ((mv.set (jm + 1) cur).getD (jm + 1)
          (JsNum.num 0)).isNum = true := by
        rw [hmv1, hcur]
        rfl
      by_cases hSel : ((mv.set (jm + 1) cur).getD (jm + 1)
          (JsNum.num 0)).lt delta = true
      · simp only [if_pos hSel]
        refine ⟨by simp [hmlen], by simp [hwlen], hperj₂, ?_, ?_, ?_⟩
        · intro j h1 h2 hmem
          have hj : j ≠ jm + 1 := by
            intro h
            rw [h] at hmem
            exact hnjm (by simpa using hmem)
          rw [getD_set_ne mv cur (JsNum.num 0) (fun h => hj h.symm),
            getD_set_ne wy j0 0 (fun h => hj h.symm)]
          exact hunproc j h1 h2 (List.mem_cons_of_mem jm hmem)
        · intro c hc
          have hcj : c ≠ jm + 1 := fun h => by rw [h, hused] at hc; cases hc
          rw [getD_set_ne mv cur (JsNum.num 0) (fun h => hcj h.symm),
            getD_set_ne wy j0 0 (fun h => hcj h.symm)]
          exact hupres c hc
        · refine Or.inr ⟨by omega, hjm, hused, by simpa using hnjm, rfl,
            hcurfin, ?_⟩
          intro j h1 h2 hju
          by_cases hj : j = jm + 1
          · exact Or.inr (by rw [hj])
          · rcases hsel with ⟨ha, hb, hc⟩ | ⟨g1, g2, g3, g4, g5, g6, g7⟩
            · rcases List.mem_cons.mp (hc j h1 h2 hju) with heq | hmem₂
              · exact absurd (by omega : j = jm + 1) hj
              · exact Or.inl hmem₂
            · rcases g7 j h1 h2 hju with hmem | hle
              · rcases List.mem_cons.mp hmem with heq | hmem₂
                · exact absurd (by omega : j = jm + 1) hj
                · exact Or.inl hmem₂
              · refine Or.inr ?_
                rw [getD_set_ne mv cur (JsNum.num 0) (fun h => hj h.symm),
                  hmv1, hcur, qval_num]
                obtain ⟨dq, hdq⟩ := isNum_exists g6
                rw [hmv1, hcur, hdq] at hSel
                rw [hdq, qval_num] at hle
                exact le_of_lt (lt_of_lt_of_le (lt_num_num.mp hSel) hle)
      · simp only [if_neg hSel]
        refine ⟨by simp [hmlen], by simp [hwlen], hperj₂, ?_, ?_, ?_⟩
        · intro j h1 h2 hmem
          have hj : j ≠ jm + 1 := by
            intro h
            rw [h] at hmem
            exact hnjm (by simpa using hmem)
          rw [getD_set_ne mv cur (JsNum.num 0) (fun h => hj h.symm),
            getD_set_ne wy j0 0 (fun h => hj h.symm)]
          exact hunproc j h1 h2 (List.mem_cons_of_mem jm hmem)
        · intro c hc
          have hcj : c ≠ jm + 1 := fun h => by rw [h, hused] at hc; cases hc
          rw [getD_set_ne mv cur (JsNum.num 0) (fun h => hcj h.symm),
            getD_set_ne wy j0 0 (fun h => hcj h.symm)]
          exact hupres c hc
        · rcases hsel with ⟨ha, hb, hc⟩ | ⟨g1, g2, g3, g4, g5, g6, g7⟩
          · exact absurd (by
              rw [hb] at hSel
              obtain ⟨cq, hcq⟩ := isNum_exists hcurfin
              rw [hcq] at hSel
              exact hSel (lt_num_posInf cq)) (by simp)
          · have hj1ne : j1 ≠ jm + 1 := by
              intro h
              exact g4 (by
                rw [h]
                simpa using List.mem_cons_self jm js)
            refine Or.inr ⟨g1, g2, g3,
              fun h => g4 (List.mem_cons_of_mem jm h), ?_, g6, ?_⟩
            · rw [getD_set_ne mv cur (JsNum.num 0) (fun h => hj1ne h.symm)]
              exact g5
            · intro j h1 h2 hju
              by_cases hj : j = jm + 1
              · refine Or.inr ?_
                subst hj
                obtain ⟨dq, hdq⟩ := isNum_exists g6
                rw [hmv1, hcur, hdq] at hSel
                rw [hdq, qval_num, hmv1, hcur, qval_num]
                exact le_of_not_lt (fun hlt => hSel (lt_num_num.mpr hlt))
              · rcases g7 j h1 h2 hju with hmem | hle
                · rcases List.mem_cons.mp hmem with heq | hmem₂
                  · exact absurd (by omega : j = jm + 1) hj
                  · exact Or.inl hmem₂
                · refine Or.inr ?_
                  rw [getD_set_ne mv cur (JsNum.num 0) (fun h => hj h.symm)]
                  exact hle
    · rw [Bool.not_eq_true] at hUpd
      simp only [hUpd, Bool.false_eq_true, if_false]
      have hm0fin : (minv₀.getD (jm + 1) (JsNum.num 0)).isNum = true := by
        rcases hm0 hused with h | h
        · exact h
        · rw [hmv0, h, hcur] at hUpd
          cases hUpd
      have hdone : ScanDone matrix i0 j0 u v minv₀ way₀ mv wy (jm + 1) := by
        refine ⟨by rw [hmv0]; exact hm0fin, Or.inr ⟨hm0fin, hmv0, hwy0, ?_⟩⟩
        obtain ⟨m, hm⟩ := isNum_exists hm0fin
        rw [hmv0, hm, hcur, lt_num_num_false] at hUpd
        rw [hm, qval_num]
        exact hUpd
      have hperj₂ : ∀ j, 1 ≤ j → j ≤ n → used.getD j false = false →
          (j - 1) ∈ js ∨ ScanDone matrix i0 j0 u v minv₀ way₀ mv wy j := by
        intro j h1 h2 hju
        by_cases hj : j = jm + 1
        · exact Or.inr (hj ▸ hdone)
        · rcases hperj j h1 h2 hju with hmem | hdone₂
          · rcases List.mem_cons.mp hmem with heq | hmem₂
            · exact absurd (by omega : j = jm + 1) hj
            · exact Or.inl hmem₂
          · exact Or.inr hdone₂
      have hmvfin : (mv.getD (jm + 1) (JsNum.num 0)).isNum = true := by
        rw [hmv0]
        exact hm0fin
      by_cases hSel : (mv.getD (jm + 1) (JsNum.num 0)).lt delta = true
      · simp only [if_pos hSel]
        refine ⟨hmlen, hwlen, hperj₂, ?_, hupres, ?_⟩
        · intro j h1 h2 hmem
          exact hunproc j h1 h2 (List.mem_cons_of_mem jm hmem)
        · refine Or.inr ⟨by omega, hjm, hused, by simpa using hnjm, rfl,
            hmvfin, ?_⟩
          intro j h1 h2 hju
          by_cases hj : j = jm + 1
          · exact Or.inr (by rw [hj])
          · rcases hsel with ⟨ha, hb, hc⟩ | ⟨g1, g2, g3, g4, g5, g6, g7⟩
            · rcases List.mem_cons.mp (hc j h1 h2 hju) with heq | hmem₂
              · exact absurd (by omega : j = jm + 1) hj
              · exact Or.inl hmem₂
            · rcases g7 j h1 h2 hju with hmem | hle
              · rcases List.mem_cons.mp hmem with heq | hmem₂
                · exact absurd (by omega : j = jm + 1) hj
                · exact Or.inl hmem₂
              · refine Or.inr ?_
                obtain ⟨dq, hdq⟩ := isNum_exists g6
                obtain ⟨cq, hcq⟩ := isNum_exists hmvfin
                rw [hcq, hdq] at hSel
                rw [hdq, qval_num] at hle
                rw [hcq, qval_num]
                exact le_of_lt (lt_of_lt_of_le (lt_num_num.mp hSel) hle)
      · simp only [if_neg hSel]
        refine ⟨hmlen, hwlen, hperj₂, ?_, hupres, ?_⟩
        · intro j h1 h2 hmem
          exact hunproc j h1 h2 (List.mem_cons_of_mem jm hmem)
        · rcases hsel with ⟨ha, hb, hc⟩ | ⟨g1, g2, g3, g4, g5, g6, g7⟩
          · exact absurd (by
              rw [hb] at hSel
              obtain ⟨cq, hcq⟩ := isNum_exists hmvfin
              rw [hcq] at hSel
              exact hSel (lt_num_posInf cq)) (by simp)
          · refine Or.inr ⟨g1, g2, g3,
              fun h => g4 (List.mem_cons_of_mem jm h), g5, g6, ?_⟩
            intro j h1 h2 hju
            by_cases hj : j = jm + 1
            · refine Or.inr ?_
              subst hj
              obtain ⟨dq, hdq⟩ := isNum_exists g6
              obtain ⟨cq, hcq⟩ := isNum_exists hmvfin
              rw [hcq, hdq] at hSel
              rw [hdq, hcq, qval_num, qval_num]
              exact le_of_not_lt (fun hlt => hSel (lt_num_num.mpr hlt))
            · rcases g7 j h1 h2 hju with hmem | hle
              · rcases List.mem_cons.mp hmem with heq | hmem₂
                · exact absurd (by omega : j = jm + 1) hj
                · exact Or.inl hmem₂
              · exact Or.inr hle

theorem scan_go_main (matrix : List (List JsNum)) (n i0 j0 : Nat)
    (u v : List JsNum) (used : List Bool) (minv₀ : List JsNum)
    (way₀ : List Nat)
    (hcost : ∀ j, 1 ≤ j → j ≤ n →
      costOf matrix i0 j = JsNum.num (entryQ matrix i0 j))
    (hu : (u.getD i0 (JsNum.num 0)).isNum = true)
    (hv : ∀ j, j ≤ n → (v.getD j (JsNum.num 0)).isNum = true)
    (hm0 : ∀ j, 1 ≤ j → j ≤ n → used.getD j false = false →
      (minv₀.getD j (JsNum.num 0)).isNum = true ∨
      minv₀.getD j (JsNum.num 0) = JsNum.posInf) :
    ∀ (js : List Nat) (mv : List JsNum) (wy : List Nat) (delta : JsNum)
      (j1 : Nat),
    js.Nodup → (∀ jm ∈ js, jm + 1 ≤ n) →
    ScanInv matrix n i0 j0 u v used minv₀ way₀ js mv wy delta j1 →
    ∀ mvr wyr deltar j1r,
    js.foldl (hungarianScanStep matrix i0 j0 u v used) (mv, wy, delta, j1) =
      (mvr, wyr, deltar, j1r) →
    ScanInv matrix n i0 j0 u v used minv₀ way₀ [] mvr wyr deltar j1r := by
  intro js
  induction js with
  | nil =>
    intro mv wy delta j1 _ _ hinv mvr wyr deltar j1r heq
    rw [List.foldl_nil] at heq
    injection heq with h1 h2
    injection h2 with h2 h3
    injection h3 with h3 h4
    subst h1
    subst h2
    subst h3
    subst h4
    exact hinv
  | cons jm js ih =>
    intro mv wy delta j1 hnd hjs hinv mvr wyr deltar j1r heq
    rw [List.foldl_cons] at heq
    rw [List.nodup_cons] at hnd
    rcases hstep : hungarianScanStep matrix i0 j0 u v used
        (mv, wy, delta, j1) jm with ⟨mv₁, wy₁, delta₁, j1₁⟩
    have hmain := scanStep_main matrix n i0 j0 u v used minv₀ way₀ jm js
      (hjs jm (List.mem_cons_self jm js)) hnd.1
      (hcost (jm + 1) (by omega) (hjs jm (List.mem_cons_self jm js)))
      hu (hv (jm + 1) (hjs jm (List.mem_cons_self jm js)))
      (hm0 (jm + 1) (by omega) (hjs jm (List.mem_cons_self jm js)))
      mv wy delta j1 hinv
    rw [hstep] at hmain heq
    exact ih mv₁ wy₁ delta₁ j1₁ hnd.2
      (fun x hx => hjs x (List.mem_cons_of_mem jm hx)) hmain
      mvr wyr deltar j1r heq

theorem hungarianScan_main (matrix : List (List JsNum)) (n i0 j0 : Nat)
    (u v : List JsNum) (used : List Bool) (minv : List JsNum)
    (way : List Nat)
    (hcost : ∀ j, 1 ≤ j → j ≤ n →
      costOf matrix i0 j = JsNum.num (entryQ matrix i0 j))
    (hu : (u.getD i0 (JsNum.num 0)).isNum = true)
    (hv : ∀ j, j ≤ n → (v.getD j (JsNum.num 0)).isNum = true)
    (hm0 : ∀ j, 1 ≤ j → j ≤ n → used.getD j false = false →
      (minv.getD j (JsNum.num 0)).isNum = true ∨
      minv.getD j (JsNum.num 0) = JsNum.posInf)
    (hmlen : minv.length = n + 1) (hwlen : way.length = n + 1)
    (mvr : List JsNum) (wyr : List Nat) (deltar : JsNum) (j1r : Nat)
    (heq : hungarianScan matrix n i0 j0 u v used minv way =
      (mvr, wyr, deltar, j1r)) :
    ScanInv matrix n i0 j0 u v used minv way [] mvr wyr deltar j1r := by
  rw [hungarianScan_eq] at heq
  refine scan_go_main matrix n i0 j0 u v used minv way hcost hu hv hm0
    (List.range n) minv way JsNum.posInf 0 (List.nodup_range n)
    (fun jm hjm => by have := List.mem_range.mp hjm; omega)
    ?_ mvr wyr deltar j1r heq
  refine ⟨hmlen, hwlen, ?_, ?_, fun c _ => ⟨rfl, rfl⟩, Or.inl ⟨rfl, rfl, ?_⟩⟩
  · intro j h1 h2 _
    exact Or.inl (List.mem_range.mpr (by omega))
  · intro j _ _ _
    exact ⟨rfl, rfl⟩
  · intro j h1 h2 _
    exact List.mem_range.mpr (by omega)

theorem applyGo_main (n : Nat) (delta : JsNum) (p : List Nat)
    (used : List Bool) :
    ∀ (js : List Nat) (u v mv : List JsNum), js.Nodup →
    (∀ c ∈ js, ∀ c' ∈ js, used.getD c false = true →
      used.getD c' false = true → c ≠ c' → p.getD c 0 ≠ p.getD c' 0) →
    (∀ c ∈ js, used.getD c false = true → p.getD c 0 < u.length) →
    (∀ c ∈ js, used.getD c false = true → c < v.length) →
    (∀ c ∈ js, used.getD c false = false → c < mv.length) →
    ∀ ur vr mvr,
    js.foldl
      (fun acc j =>
        let (u, v, mv) := acc
        if used.getD j false then
          let pj := p.getD j 0
          (u.set pj ((u.getD pj (JsNum.num 0)).add delta),
           v.set j ((v.getD j (JsNum.num 0)).sub delta), mv)
        else (u, v, mv.set j ((mv.getD j (JsNum.num 0)).sub delta)))
      (u, v, mv) = (ur, vr, mvr) →
    ur.length = u.length ∧ vr.length = v.length ∧ mvr.length = mv.length ∧
    (∀ c ∈ js, used.getD c false = true →
      ur.getD (p.getD c 0) (JsNum.num 0) =
        (u.getD (p.getD c 0) (JsNum.num 0)).add delta) ∧
    (∀ r, (∀ c ∈ js, used.getD c false = true → p.getD c 0 ≠ r) →
      ur.getD r (JsNum.num 0) = u.getD r (JsNum.num 0)) ∧
    (∀ c ∈ js, used.getD c false = true →
      vr.getD c (JsNum.num 0) = (v.getD c (JsNum.num 0)).sub delta) ∧
    (∀ j, (∀ c ∈ js, used.getD c false = true → c ≠ j) →
      vr.getD j (JsNum.num 0) = v.getD j (JsNum.num 0)) ∧
    (∀ c ∈ js, used.getD c false = false →
      mvr.getD c (JsNum.num 0) = (mv.getD c (JsNum.num 0)).sub delta) ∧
    (∀ j, (∀ c ∈ js, used.getD c false = false → c ≠ j) →
      mvr.getD j (JsNum.num 0) = mv.getD j (JsNum.num 0)) := by
  intro js
  induction js with
  | nil =>
    intro u v mv _ _ _ _ _ ur vr mvr heq
    rw [List.foldl_nil] at heq
    injection heq with h1 h2
    injection h2 with h2 h3
    subst h1
    subst h2
    subst h3
    refine ⟨rfl, rfl, rfl, ?_, fun r _ => rfl, ?_, fun j _ => rfl, ?_,
      fun j _ => rfl⟩ <;>
      exact fun c hc => absurd hc (List.not_mem_nil c)
  | cons c js ih =>
    intro u v mv hnd hinj hbu hbv hbm ur vr mvr heq
    rw [List.foldl_cons] at heq
    rw [List.nodup_cons] at hnd
    have hc0 : c ∈ c :: js := List.mem_cons_self c js
    cases hused : used.getD c false with
    | true =>
      simp only [hused, if_true] at heq
      obtain ⟨G1, G2, G3, A, B, C, D, E, F⟩ := ih
        (u.set (p.getD c 0) ((u.getD (p.getD c 0) (JsNum.num 0)).add delta))
        (v.set c ((v.getD c (JsNum.num 0)).sub delta)) mv hnd.2
        (fun x hx y hy hux huy hxy =>
          hinj x (List.mem_cons_of_mem c hx) y (List.mem_cons_of_mem c hy)
            hux huy hxy)
        (fun x hx hux => by
          rw [List.length_set]
          exact hbu x (List.mem_cons_of_mem c hx) hux)
        (fun x hx hux => by
          rw [List.length_set]
          exact hbv x (List.mem_cons_of_mem c hx) hux)
        (fun x hx hux => hbm x (List.mem_cons_of_mem c hx) hux)
        ur vr mvr heq
      have hpne : ∀ x ∈ js, used.getD x false = true →
          p.getD x 0 ≠ p.getD c 0 := by
        intro x hx hux
        exact hinj x (List.mem_cons_of_mem c hx) c hc0 hux hused
          (fun h => hnd.1 (h ▸ hx))
      have hcne : ∀ x ∈ js, x ≠ c := fun x hx h => hnd.1 (h ▸ hx)
      refine ⟨?_, ?_, G3, ?_, ?_, ?_, ?_, ?_, ?_⟩
      · rw [G1, List.length_set]
      · rw [G2, List.length_set]
      · intro x hx hux
        rcases List.mem_cons.mp hx with rfl | hx₂
        · rw [B (p.getD x 0) (fun y hy huy => hpne y hy huy),
            getD_set_self u _ (JsNum.num 0) (hbu x hc0 hux)]
        · rw [A x hx₂ hux,
            getD_set_ne u _ (JsNum.num 0) (fun h => hpne x hx₂ hux h.symm)]
      · intro r hr
        rw [B r (fun y hy huy => hr y (List.mem_cons_of_mem c hy) huy),
          getD_set_ne u _ (JsNum.num 0) (hr c hc0 hused)]
      · intro x hx hux
        rcases List.mem_cons.mp hx with rfl | hx₂
        · rw [D x (fun y hy huy => hcne y hy),
            getD_set_self v _ (JsNum.num 0) (hbv x hc0 hux)]
        · rw [C x hx₂ hux,
            getD_set_ne v _ (JsNum.num 0) (fun h => hcne x hx₂ h.symm)]
      · intro j hj
        rw [D j (fun y hy huy => hj y (List.mem_cons_of_mem c hy) huy),
          getD_set_ne v _ (JsNum.num 0) (hj c hc0 hused)]
      · intro x hx hux
        rcases List.mem_cons.mp hx with rfl | hx₂
        · rw [hused] at hux
          cases hux
        · exact E x hx₂ hux
      · intro j hj
        exact F j (fun y hy => hj y (List.mem_cons_of_mem c hy))
    | false =>
      simp only [hused, Bool.false_eq_true, if_false] at heq
      obtain ⟨G1, G2, G3, A, B, C, D, E, F⟩ := ih u v
        (mv.set c ((mv.getD c (JsNum.num 0)).sub delta)) hnd.2
        (fun x hx y hy hux huy hxy =>
          hinj x (List.mem_cons_of_mem c hx) y (List.mem_cons_of_mem c hy)
            hux huy hxy)
        (fun x hx hux => hbu x (List.mem_cons_of_mem c hx) hux)
        (fun x hx hux => hbv x (List.mem_cons_of_mem c hx) hux)
        (fun x hx hux => by
          rw [List.length_set]
          exact hbm x (List.mem_cons_of_mem c hx) hux)
        ur vr mvr heq
      have hcne : ∀ x ∈ js, x ≠ c := fun x hx h => hnd.1 (h ▸ hx)
      refine ⟨G1, G2, ?_, ?_, ?_, ?_, ?_, ?_, ?_⟩
      · rw [G3, List.length_set]
      · intro x hx hux
        rcases List.mem_cons.mp hx with rfl | hx₂
        · rw [hused] at hux
          cases hux
        · exact A x hx₂ hux
      · intro r hr
        exact B r (fun y hy => hr y (List.mem_cons_of_mem c hy))
      · intro x hx hux
        rcases List.mem_cons.mp hx with rfl | hx₂
        · rw [hused] at hux
          cases hux
        · exact C x hx₂ hux
      · intro j hj
        exact D j (fun y hy => hj y (List.mem_cons_of_mem c hy))
      · intro x hx hux
        rcases List.mem_cons.mp hx with rfl | hx₂
        · rw [F x (fun y hy huy => hcne y hy),
            getD_set_self mv _ (JsNum.num 0) (hbm x hc0 hux)]
        · rw [E x hx₂ hux,
            getD_set_ne mv _ (JsNum.num 0) (fun h => hcne x hx₂ h.symm)]
      · intro j hj
        rw [F j (fun y hy huy => hj y (List.mem_cons_of_mem c hy) huy),
          getD_set_ne mv _ (JsNum.num 0) (hj c hc0 hused)]

theorem hungarianApplyDelta_main (n : Nat) (delta : JsNum) (p : List Nat)
    (u v minv : List JsNum) (used : List Bool)
    (hinj : ∀ c, c ≤ n → ∀ c', c' ≤ n → used.getD c false = true →
      used.getD c' false = true → c ≠ c' → p.getD c 0 ≠ p.getD c' 0)
    (hbu : ∀ c, c ≤ n → used.getD c false = true → p.getD c 0 < u.length)
    (hbv : ∀ c, c ≤ n → used.getD c false = true → c < v.length)
    (hbm : ∀ c, c ≤ n → used.getD c false = false → c < minv.length)
    (ur vr mvr : List JsNum)
    (heq : hungarianApplyDelta n delta p u v minv used = (ur, vr, mvr)) :
    ur.length = u.length ∧ vr.length = v.length ∧ mvr.length = minv.length ∧
    (∀ c, c ≤ n → used.getD c false = true →
      ur.getD (p.getD c 0) (JsNum.num 0) =
        (u.getD (p.getD c 0) (JsNum.num 0)).add delta) ∧
    (∀ r, (∀ c, c ≤ n → used.getD c false = true → p.getD c 0 ≠ r) →
      ur.getD r (JsNum.num 0) = u.getD r (JsNum.num 0)) ∧
    (∀ c, c ≤ n → used.getD c false = true →
      vr.getD c (JsNum.num 0) = (v.getD c (JsNum.num 0)).sub delta) ∧
    (∀ j, (∀ c, c ≤ n → used.getD c false = true → c ≠ j) →
      vr.getD j (JsNum.num 0) = v.getD j (JsNum.num 0)) ∧
    (∀ c, c ≤ n → used.getD c false = false →
      mvr.getD c (JsNum.num 0) = (minv.getD c (JsNum.num 0)).sub delta) ∧
    (∀ j, (∀ c, c ≤ n → used.getD c false = false → c ≠ j) →
      mvr.getD j (JsNum.num 0) = minv.getD j (JsNum.num 0)) := by
  have hm : ∀ c : Nat, c ∈ List.range (n + 1) ↔ c ≤ n := by
    intro c
    rw [List.mem_range]
    omega
  obtain ⟨G1, G2, G3, A, B, C, D, E, F⟩ := applyGo_main n delta p used
    (List.range (n + 1)) u v minv (List.nodup_range _)
    (fun x hx y hy => hinj x ((hm x).mp hx) y ((hm y).mp hy))
    (fun x hx => hbu x ((hm x).mp hx))
    (fun x hx => hbv x ((hm x).mp hx))
    (fun x hx => hbm x ((hm x).mp hx))
    ur vr mvr heq
  exact ⟨G1, G2, G3,
    fun c hc => A c ((hm c).mpr hc),
    fun r hr => B r (fun y hy => hr y ((hm y).mp hy)),
    fun c hc => C c ((hm c).mpr hc),
    fun j hj => D j (fun y hy => hj y ((hm y).mp hy)),
    fun c hc => E c ((hm c).mpr hc),
    fun j hj => F j (fun y hy => hj y ((hm y).mp hy))⟩

theorem set_true_unused {used : List Bool} {j0 j : Nat}
    (h : (used.set j0 true).getD j false = false) :
    used.getD j false = false := by
  rcases getD_set_cases used j0 j true false with hc | ⟨hc1, hc2⟩
  · rw [← hc]
    exact h
  · rw [hc2] at h
    cases h

theorem set_true_used {used : List Bool} (j0 : Nat) {j : Nat}
    (h : used.getD j false = true) :
    (used.set j0 true).getD j false = true := by
  rcases getD_set_cases used j0 j true false with hc | ⟨hc1, hc2⟩
  · rw [hc]
    exact h
  · exact hc2

theorem hungarianInner_main (matrix : List (List JsNum)) (n i : Nat)
    (p : List Nat) (hfm : FinMat matrix n) (hi1 : 1 ≤ i) (hin : i ≤ n)
    (hplen : p.length = n + 1) (hp0 : p.getD 0 0 = i)
    (hprange : ∀ j, 1 ≤ j → j ≤ n → p.getD j 0 < i)
    (hpinj : ∀ j j', 1 ≤ j → j ≤ n → 1 ≤ j' → j' ≤ n → j ≠ j' →
      p.getD j 0 ≠ 0 → p.getD j 0 ≠ p.getD j' 0) :
    ∀ (fuel j0 : Nat) (u v : List JsNum) (way : List Nat)
      (used : List Bool) (minv : List JsNum) (L : List Nat),
    InnerInv matrix n i p j0 u v way used minv →
    (∀ c ∈ L, used.getD c false = true) →
    (∀ c, 1 ≤ c → c ≤ n → used.getD c false = true → c ∈ L) →
    (∀ c ∈ L, 1 ≤ c ∧ c ≤ n) →
    L.Nodup →
    DescWay way L →
    unusedCount used n < fuel →
    ∃ jr ur vr wayr,
      hungarianInner matrix n fuel j0 u v p way used minv =
        some (jr, ur, vr, wayr) ∧
      InnerOut matrix n i p jr ur vr wayr := by
  intro fuel
  induction fuel with
  | zero =>
    intro j0 u v way used minv L _ _ _ _ _ _ hfuel
    exact absurd hfuel (by omega)
  | succ fuel ih =>
    intro j0 u v way used minv L hII husedL hLcomp hLb hLnd hdesc hfuel
    rcases hscan : hungarianScan matrix n (p.getD j0 0) j0 u v
        (used.set j0 true) minv way with ⟨minv₁, way₁, delta, j1⟩
    rcases happ : hungarianApplyDelta n delta p u v minv₁
        (used.set j0 true) with ⟨u₁, v₁, minv₂⟩
    have hun1 : hungarianInner matrix n (fuel + 1) j0 u v p way used minv =
        (match hungarianApplyDelta n delta p u v minv₁
            (used.set j0 true) with
         | (u₂, v₂, minv₃) =>
           if p.getD j1 0 = 0 then some (j1, u₂, v₂, way₁)
           else hungarianInner matrix n fuel j1 u₂ v₂ p way₁
             (used.set j0 true) minv₃) := by
      rw [hungarianInner, hscan]
    have hstepeq : hungarianInner matrix n (fuel + 1) j0 u v p way used
        minv =
        (if p.getD j1 0 = 0 then some (j1, u₁, v₁, way₁)
         else hungarianInner matrix n fuel j1 u₁ v₁ p way₁
           (used.set j0 true) minv₂) := by
      rw [hun1, happ]
    have hpj0pos : 1 ≤ p.getD j0 0 := Nat.pos_of_ne_zero hII.j0p
    have hpj0n : p.getD j0 0 ≤ n := by
      have := hprange j0 hII.j0pos hII.j0le
      omega
    have hj0len : j0 < used.length := by
      have := hII.uslen
      have := hII.j0le
      omega
    have hused₁self : (used.set j0 true).getD j0 false = true :=
      getD_set_self used true false hj0len
    have husedp₁ : ∀ c, 1 ≤ c → c ≤ n →
        (used.set j0 true).getD c false = true → p.getD c 0 ≠ 0 := by
      intro c h1 h2 hc
      by_cases hcj : c = j0
      · rw [hcj]
        exact hII.j0p
      · rw [getD_set_ne used true false (fun h => hcj h.symm)] at hc
        exact hII.usedp c h1 h2 hc
    have hscanI := hungarianScan_main matrix n (p.getD j0 0) j0 u v
      (used.set j0 true) minv way
      (fun j h1 h2 => FinMat_costOf matrix n hfm (p.getD j0 0) j hpj0pos
        hpj0n)
      (hII.ufin (p.getD j0 0) hpj0n) (fun j hj => hII.vfin j hj)
      (fun j h1 h2 hju => Or.inl (hII.mfin j h1 h2 (set_true_unused hju)))
      hII.mlen hII.wlen minv₁ way₁ delta j1 hscan
    obtain ⟨hmlen₁, hwlen₁, hperj, -, hupres, hsel⟩ := hscanI
    have hdone : ∀ j, 1 ≤ j → j ≤ n →
        (used.set j0 true).getD j false = false →
        ScanDone matrix (p.getD j0 0) j0 u v minv way minv₁ way₁ j := by
      intro j h1 h2 hju
      rcases hperj j h1 h2 hju with hmem | hd
      · exact absurd hmem (List.not_mem_nil _)
      · exact hd
    obtain ⟨jstar, hjs1, hjs2, hjsu, hjsp⟩ := hII.unmatched
    have hjsu₁ : (used.set j0 true).getD jstar false = false := by
      rw [getD_set_ne used true false
        (fun h => hII.j0p (by rw [h]; exact hjsp))]
      exact hjsu
    rcases hsel with ⟨-, -, hall⟩ | ⟨hj1a, hj1b, hj1u, -, hdeq, hdfin, hmin⟩
    · exact absurd (hall jstar hjs1 hjs2 hjsu₁) (List.not_mem_nil _)
    set dq := qval delta with hdqdef
    have hdq : delta = JsNum.num dq := num_qval hdfin
    have hF1 : ∀ j, 1 ≤ j → j ≤ n →
        (used.set j0 true).getD j false = false →
        (minv₁.getD j (JsNum.num 0)).isNum = true :=
      fun j h1 h2 hju => (hdone j h1 h2 hju).1
    have hF2 : ∀ j, 1 ≤ j → j ≤ n →
        (used.set j0 true).getD j false = false →
        qval (minv₁.getD j (JsNum.num 0)) ≤
          slackQ matrix u v (p.getD j0 0) j := by
      intro j h1 h2 hju
      rcases (hdone j h1 h2 hju).2 with ⟨hv, -, -⟩ | ⟨-, hv, -, hle⟩
      · exact le_of_eq hv
      · rw [hv]
        exact hle
    have hF3 : ∀ j, 1 ≤ j → j ≤ n →
        (used.set j0 true).getD j false = false →
        way₁.getD j 0 ≤ n ∧
        (used.set j0 true).getD (way₁.getD j 0) false = true ∧
        qval (minv₁.getD j (JsNum.num 0)) =
          slackQ matrix u v (p.getD (way₁.getD j 0) 0) j := by
      intro j h1 h2 hju
      rcases (hdone j h1 h2 hju).2 with ⟨hv, hw, -⟩ | ⟨-, hv, hw, -⟩
      · rw [hw]
        exact ⟨hII.j0le, hused₁self, hv⟩
      · obtain ⟨hw1, hw2, hw3⟩ := hII.ach j h1 h2 (set_true_unused hju)
        rw [hw, hv]
        exact ⟨hw1, set_true_used j0 hw2, hw3⟩
    have hF4 : ∀ j, 1 ≤ j → j ≤ n →
        (used.set j0 true).getD j false = false →
        ∀ c, c ≤ n → (used.set j0 true).getD c false = true →
        qval (minv₁.getD j (JsNum.num 0)) ≤
          slackQ matrix u v (p.getD c 0) j := by
      intro j h1 h2 hju c hc huc
      by_cases hcj : c = j0
      · rw [hcj]
        exact hF2 j h1 h2 hju
      · rw [getD_set_ne used true false (fun h => hcj h.symm)] at huc
        have hold := hII.sp j h1 h2 (set_true_unused hju) c hc huc
        rcases (hdone j h1 h2 hju).2 with ⟨hv, -, hcond⟩ | ⟨-, hv, -, -⟩
        · rw [hv] at hcond ⊢
          exact le_trans (hcond (hII.mfin j h1 h2 (set_true_unused hju)))
            hold
        · rw [hv]
          exact hold
    have hF5 : ∀ j, 1 ≤ j → j ≤ n →
        (used.set j0 true).getD j false = false →
        0 ≤ qval (minv₁.getD j (JsNum.num 0)) := by
      intro j h1 h2 hju
      rcases (hdone j h1 h2 hju).2 with ⟨hv, -, -⟩ | ⟨-, hv, -, -⟩
      · rw [hv]
        have hfeas := hII.feas (p.getD j0 0) j hpj0pos
          (by have := hprange j0 hII.j0pos hII.j0le; omega) h1 h2
        unfold slackQ
        linarith
      · rw [hv]
        exact hII.mnonneg j h1 h2 (set_true_unused hju)
    have hF6 : ∀ j, 1 ≤ j → j ≤ n →
        (used.set j0 true).getD j false = false →
        dq ≤ qval (minv₁.getD j (JsNum.num 0)) := by
      intro j h1 h2 hju
      rcases hmin j h1 h2 hju with hmem | hle
      · exact absurd hmem (List.not_mem_nil _)
      · exact hle
    have hdnn : 0 ≤ dq := by
      rw [hdqdef, hdeq]
      exact hF5 j1 hj1a hj1b hj1u
    have hinj₁ : ∀ c, c ≤ n → ∀ c', c' ≤ n →
        (used.set j0 true).getD c false = true →
        (used.set j0 true).getD c' false = true → c ≠ c' →
        p.getD c 0 ≠ p.getD c' 0 := by
      intro c hc c' hc' huc huc' hne
      rcases Nat.eq_zero_or_pos c with rfl | hc1
      · rcases Nat.eq_zero_or_pos c' with rfl | hc1'
        · exact absurd rfl hne
        · rw [hp0]
          have := hprange c' hc1' hc'
          have := husedp₁ c' hc1' hc' huc'
          omega
      · rcases Nat.eq_zero_or_pos c' with rfl | hc1'
        · rw [hp0]
          have := hprange c hc1 hc
          omega
        · exact hpinj c c' hc1 hc hc1' hc' hne (husedp₁ c hc1 hc huc)
    have happI := hungarianApplyDelta_main n delta p u v minv₁
      (used.set j0 true) hinj₁
      (fun c hc huc => by
        rw [hII.ulen]
        rcases Nat.eq_zero_or_pos c with rfl | hc1
        · rw [hp0]
          omega
        · have := hprange c hc1 hc
          omega)
      (fun c hc huc => by rw [hII.vlen]; omega)
      (fun c hc huc => by rw [hmlen₁]; omega)
      u₁ v₁ minv₂ happ
    obtain ⟨hG1, hG2, hG3, hA, hB, hC, hD, hE, hF⟩ := happI
    have hup : ∀ r, r ≤ n →
        (∃ c, c ≤ n ∧ (used.set j0 true).getD c false = true ∧
          p.getD c 0 = r) →
        atQ u₁ r = atQ u r + dq := by
      intro r hr ⟨c, hc, huc, hpc⟩
      unfold atQ
      rw [← hpc, hA c hc huc, hdq,
        qval_add_num dq (hII.ufin (p.getD c 0) (hpc ▸ hr))]
    have hukeep : ∀ r,
        (¬ ∃ c, c ≤ n ∧ (used.set j0 true).getD c false = true ∧
          p.getD c 0 = r) →
        u₁.getD r (JsNum.num 0) = u.getD r (JsNum.num 0) := by
      intro r hr
      exact hB r (fun c hc huc hpc => hr ⟨c, hc, huc, hpc⟩)
    have hvused : ∀ j, j ≤ n → (used.set j0 true).getD j false = true →
        atQ v₁ j = atQ v j - dq := by
      intro j hj huj
      unfold atQ
      rw [hC j hj huj, hdq, qval_sub_num dq (hII.vfin j hj)]
    have hvkeep : ∀ j, (used.set j0 true).getD j false = false →
        v₁.getD j (JsNum.num 0) = v.getD j (JsNum.num 0) := by
      intro j huj
      exact hD j (fun c hc huc hcj => by
        rw [hcj] at huc
        rw [huc] at huj
        cases huj)
    have hm₂ : ∀ j, 1 ≤ j → j ≤ n →
        (used.set j0 true).getD j false = false →
        qval (minv₂.getD j (JsNum.num 0)) =
          qval (minv₁.getD j (JsNum.num 0)) - dq ∧
        (minv₂.getD j (JsNum.num 0)).isNum = true := by
      intro j h1 h2 huj
      rw [hE j h2 huj, hdq]
      exact ⟨qval_sub_num dq (hF1 j h1 h2 huj),
        isNum_sub_num dq (hF1 j h1 h2 huj)⟩
    have htree_le : ∀ r,
        (∃ c, c ≤ n ∧ (used.set j0 true).getD c false = true ∧
          p.getD c 0 = r) → 1 ≤ r ∧ r ≤ i := by
      intro r ⟨c, hc, huc, hpc⟩
      rcases Nat.eq_zero_or_pos c with rfl | hc1
      · rw [← hpc, hp0]
        omega
      · have := hprange c hc1 hc
        have := husedp₁ c hc1 hc huc
        omega
    have hsl1 : ∀ r j, r ≤ n → j ≤ n →
        (∃ c, c ≤ n ∧ (used.set j0 true).getD c false = true ∧
          p.getD c 0 = r) →
        (used.set j0 true).getD j false = false →
        slackQ matrix u₁ v₁ r j = slackQ matrix u v r j - dq := by
      intro r j hr hj hT hju
      unfold slackQ
      rw [hup r hr hT]
      unfold atQ
      rw [hvkeep j hju]
      ring
    have hsl2 : ∀ r j, r ≤ n → j ≤ n →
        (∃ c, c ≤ n ∧ (used.set j0 true).getD c false = true ∧
          p.getD c 0 = r) →
        (used.set j0 true).getD j false = true →
        slackQ matrix u₁ v₁ r j = slackQ matrix u v r j := by
      intro r j hr hj hT hju
      unfold slackQ
      rw [hup r hr hT, hvused j hj hju]
      ring
    have hmatched_nontree : ∀ j, 1 ≤ j → j ≤ n → p.getD j 0 ≠ 0 →
        (used.set j0 true).getD j false = false →
        ¬ ∃ c, c ≤ n ∧ (used.set j0 true).getD c false = true ∧
          p.getD c 0 = p.getD j 0 := by
      intro j h1 h2 hpj hju ⟨c, hc, huc, hpc⟩
      by_cases hcj : c = j
      · rw [hcj] at huc
        rw [huc] at hju
        cases hju
      · rcases Nat.eq_zero_or_pos c with rfl | hc1
        · rw [hp0] at hpc
          have := hprange j h1 h2
          omega
        · exact hpinj c j hc1 hc h1 h2 hcj (husedp₁ c hc1 hc huc) hpc
    have hfeas₁ : ∀ r j, 1 ≤ r → r ≤ i → 1 ≤ j → j ≤ n →
        atQ u₁ r + atQ v₁ j ≤ entryQ matrix r j := by
      intro r j hr1 hri hj1 hjn
      have hrn : r ≤ n := by omega
      by_cases hT : ∃ c, c ≤ n ∧ (used.set j0 true).getD c false = true ∧
          p.getD c 0 = r
      · cases hju : (used.set j0 true).getD j false with
        | false =>
          rw [hup r hrn hT]
          have h4 := hF4 j hj1 hjn hju
          have hslack : dq ≤ slackQ matrix u v r j := by
            obtain ⟨c, hc, huc, hpc⟩ := hT
            rw [← hpc]
            exact le_trans (hF6 j hj1 hjn hju) (h4 c hc huc)
          have hveq : atQ v₁ j = atQ v j := by
            unfold atQ
            rw [hvkeep j hju]
          rw [hveq]
          unfold slackQ at hslack
          linarith
        | true =>
          rw [hup r hrn hT, hvused j hjn hju]
          have := hII.feas r j hr1 hri hj1 hjn
          linarith
      · have hueq : atQ u₁ r = atQ u r := by
          unfold atQ
          rw [hukeep r hT]
        rw [hueq]
        cases hju : (used.set j0 true).getD j false with
        | false =>
          have hveq : atQ v₁ j = atQ v j := by
            unfold atQ
            rw [hvkeep j hju]
          rw [hveq]
          exact hII.feas r j hr1 hri hj1 hjn
        | true =>
          rw [hvused j hjn hju]
          have := hII.feas r j hr1 hri hj1 hjn
          linarith
    have htight₁ : ∀ j, 1 ≤ j → j ≤ n → p.getD j 0 ≠ 0 →
        atQ u₁ (p.getD j 0) + atQ v₁ j =
          entryQ matrix (p.getD j 0) j := by
      intro j h1 h2 hpj
      have hpn : p.getD j 0 ≤ n := by
        have := hprange j h1 h2
        omega
      cases hju : (used.set j0 true).getD j false with
      | true =>
        rw [hup (p.getD j 0) hpn ⟨j, h2, hju, rfl⟩, hvused j h2 hju]
        have := hII.tight j h1 h2 hpj
        linarith
      | false =>
        have hueq : atQ u₁ (p.getD j 0) = atQ u (p.getD j 0) := by
          unfold atQ
          rw [hukeep (p.getD j 0) (hmatched_nontree j h1 h2 hpj hju)]
        have hveq : atQ v₁ j = atQ v j := by
          unfold atQ
          rw [hvkeep j hju]
        rw [hueq, hveq]
        exact hII.tight j h1 h2 hpj
    have hufin₁ : ∀ r, r ≤ n → (u₁.getD r (JsNum.num 0)).isNum = true := by
      intro r hr
      by_cases hT : ∃ c, c ≤ n ∧ (used.set j0 true).getD c false = true ∧
          p.getD c 0 = r
      · obtain ⟨c, hc, huc, hpc⟩ := hT
        rw [← hpc, hA c hc huc, hdq]
        exact isNum_add_num dq (hII.ufin (p.getD c 0) (hpc ▸ hr))
      · rw [hukeep r hT]
        exact hII.ufin r hr
    have hvfin₁ : ∀ j, j ≤ n → (v₁.getD j (JsNum.num 0)).isNum = true := by
      intro j hj
      cases hju : (used.set j0 true).getD j false with
      | true =>
        rw [hC j hj hju, hdq]
        exact isNum_sub_num dq (hII.vfin j hj)
      | false =>
        rw [hvkeep j hju]
        exact hII.vfin j hj
    have huzhigh₁ : ∀ r, i < r → r ≤ n →
        u₁.getD r (JsNum.num 0) = JsNum.num 0 := by
      intro r hri hrn
      rw [hukeep r (fun hT => by
        have := htree_le r hT
        omega)]
      exact hII.uzhigh r hri hrn
    have hsp₂ : ∀ j, 1 ≤ j → j ≤ n →
        (used.set j0 true).getD j false = false →
        ∀ c, c ≤ n → (used.set j0 true).getD c false = true →
        qval (minv₂.getD j (JsNum.num 0)) ≤
          slackQ matrix u₁ v₁ (p.getD c 0) j := by
      intro j h1 h2 hju c hc huc
      have hpn : p.getD c 0 ≤ n := (htree_le _ ⟨c, hc, huc, rfl⟩).2.trans hin
      rw [(hm₂ j h1 h2 hju).1, hsl1 (p.getD c 0) j hpn h2
        ⟨c, hc, huc, rfl⟩ hju]
      have := hF4 j h1 h2 hju c hc huc
      linarith
    have hach₂ : ∀ j, 1 ≤ j → j ≤ n →
        (used.set j0 true).getD j false = false →
        way₁.getD j 0 ≤ n ∧
        (used.set j0 true).getD (way₁.getD j 0) false = true ∧
        qval (minv₂.getD j (JsNum.num 0)) =
          slackQ matrix u₁ v₁ (p.getD (way₁.getD j 0) 0) j := by
      intro j h1 h2 hju
      obtain ⟨hw1, hw2, hw3⟩ := hF3 j h1 h2 hju
      refine ⟨hw1, hw2, ?_⟩
      have hpn : p.getD (way₁.getD j 0) 0 ≤ n :=
        (htree_le _ ⟨way₁.getD j 0, hw1, hw2, rfl⟩).2.trans hin
      rw [(hm₂ j h1 h2 hju).1, hsl1 (p.getD (way₁.getD j 0) 0) j hpn h2
        ⟨way₁.getD j 0, hw1, hw2, rfl⟩ hju, hw3]
    have htlink₂ : ∀ c, 1 ≤ c → c ≤ n →
        (used.set j0 true).getD c false = true →
        way₁.getD c 0 ≤ n ∧
        (used.set j0 true).getD (way₁.getD c 0) false = true ∧
        slackQ matrix u₁ v₁ (p.getD (way₁.getD c 0) 0) c = 0 := by
      intro c h1 h2 huc
      by_cases hcj : c = j0
      · subst hcj
        have hweq : way₁.getD c 0 = way.getD c 0 := (hupres c huc).1
        obtain ⟨hw1, hw2, hw3⟩ := hII.ach c hII.j0pos hII.j0le hII.j0unused
        rw [hweq]
        have hw2' := set_true_used c hw2
        refine ⟨hw1, hw2', ?_⟩
        have hpn : p.getD (way.getD c 0) 0 ≤ n :=
          (htree_le _ ⟨way.getD c 0, hw1, hw2', rfl⟩).2.trans hin
        rw [hsl2 (p.getD (way.getD c 0) 0) c hpn h2
          ⟨way.getD c 0, hw1, hw2', rfl⟩ huc, ← hw3, hII.j0zero]
      · have huco : used.getD c false = true := by
          rw [getD_set_ne used true false (fun h => hcj h.symm)] at huc
          exact huc
        have hweq : way₁.getD c 0 = way.getD c 0 := (hupres c huc).1
        obtain ⟨hw1, hw2, hw3⟩ := hII.tlink c h1 h2 huco
        rw [hweq]
        have hw2' := set_true_used j0 hw2
        refine ⟨hw1, hw2', ?_⟩
        have hpn : p.getD (way.getD c 0) 0 ≤ n :=
          (htree_le _ ⟨way.getD c 0, hw1, hw2', rfl⟩).2.trans hin
        rw [hsl2 (p.getD (way.getD c 0) 0) c hpn h2
          ⟨way.getD c 0, hw1, hw2', rfl⟩ huc, hw3]
    have hjzero₂ : qval (minv₂.getD j1 (JsNum.num 0)) = 0 := by
      rw [(hm₂ j1 hj1a hj1b hj1u).1, hdqdef, hdeq]
      ring
    have husedL₁ : ∀ c ∈ j0 :: L, (used.set j0 true).getD c false = true := by
      intro c hc
      rcases List.mem_cons.mp hc with rfl | hc₂
      · exact hused₁self
      · exact set_true_used j0 (husedL c hc₂)
    have hLcomp₁ : ∀ c, 1 ≤ c → c ≤ n →
        (used.set j0 true).getD c false = true → c ∈ j0 :: L := by
      intro c h1 h2 hc
      by_cases hcj : c = j0
      · exact hcj ▸ List.mem_cons_self _ _
      · rw [getD_set_ne used true false (fun h => hcj h.symm)] at hc
        exact List.mem_cons_of_mem j0 (hLcomp c h1 h2 hc)
    have hLb₁ : ∀ c ∈ j0 :: L, 1 ≤ c ∧ c ≤ n := by
      intro c hc
      rcases List.mem_cons.mp hc with rfl | hc₂
      · exact ⟨hII.j0pos, hII.j0le⟩
      · exact hLb c hc₂
    have hLnd₁ : (j0 :: L).Nodup := by
      refine List.nodup_cons.mpr ⟨?_, hLnd⟩
      intro hmem
      have hcon := husedL j0 hmem
      rw [hII.j0unused] at hcon
      cases hcon
    have hlink_mem : ∀ c, c ≤ n →
        (used.set j0 true).getD c false = true → c ∈ (0 : Nat) :: j0 :: L := by
      intro c hc huc
      rcases Nat.eq_zero_or_pos c with rfl | hc1
      · exact List.mem_cons_self _ _
      · exact List.mem_cons_of_mem 0 (hLcomp₁ c hc1 hc huc)
    have hdesc₁ : DescWay way₁ (j0 :: L) := by
      refine ⟨?_, ?_⟩
      · rw [(hupres j0 hused₁self).1]
        obtain ⟨hw1, hw2, -⟩ := hII.ach j0 hII.j0pos hII.j0le hII.j0unused
        rcases Nat.eq_zero_or_pos (way.getD j0 0) with hz | hpos
        · rw [hz]
          exact List.mem_cons_self _ _
        · exact List.mem_cons_of_mem 0 (hLcomp _ hpos hw1 hw2)
      · exact DescWay_congr (fun c hc => (hupres c
          (set_true_used j0 (husedL c hc))).1) hdesc
    have hj1nL : j1 ∉ j0 :: L := by
      intro hmem
      rw [husedL₁ j1 hmem] at hj1u
      cases hj1u
    have hwayj1 : way₁.getD j1 0 ∈ (0 : Nat) :: j0 :: L := by
      obtain ⟨hw1, hw2, -⟩ := hF3 j1 hj1a hj1b hj1u
      exact hlink_mem _ hw1 hw2
    have hout : ∀ (hret : p.getD j1 0 = 0),
        InnerOut matrix n i p j1 u₁ v₁ way₁ := by
      intro hret
      refine { jr1 := hj1a, jrn := hj1b, pjr := hret
               ulen := by rw [hG1, hII.ulen]
               vlen := by rw [hG2, hII.vlen]
               wlen := hwlen₁
               ufin := hufin₁, vfin := hvfin₁, uzhigh := huzhigh₁
               feas := hfeas₁, tight := htight₁
               walk := ⟨j0 :: L, hLnd₁, hLb₁, hdesc₁, hj1nL, hwayj1,
                 ?_, ?_⟩ }
      · intro c hc
        obtain ⟨h1, h2⟩ := hLb₁ c hc
        exact (htlink₂ c h1 h2 (husedL₁ c hc)).2.2
      · obtain ⟨-, -, h3⟩ := hach₂ j1 hj1a hj1b hj1u
        rw [← h3, hjzero₂]
    by_cases hret : p.getD j1 0 = 0
    · rw [if_pos hret] at hstepeq
      exact ⟨j1, u₁, v₁, way₁, hstepeq, hout hret⟩
    · rw [if_neg hret] at hstepeq
      have hII₂ : InnerInv matrix n i p j1 u₁ v₁ way₁
          (used.set j0 true) minv₂ :=
        { ulen := by rw [hG1, hII.ulen]
          vlen := by rw [hG2, hII.vlen]
          wlen := hwlen₁
          uslen := by rw [List.length_set, hII.uslen]
          mlen := by rw [hG3, hmlen₁]
          j0pos := hj1a, j0le := hj1b, j0unused := hj1u, j0p := hret
          j0zero := hjzero₂
          used0 := set_true_used j0 hII.used0
          usedp := husedp₁
          ufin := hufin₁, vfin := hvfin₁, uzhigh := huzhigh₁
          mfin := fun j h1 h2 hju => (hm₂ j h1 h2 hju).2
          mnonneg := fun j h1 h2 hju => by
            rw [(hm₂ j h1 h2 hju).1]
            have := hF6 j h1 h2 hju
            linarith
          feas := hfeas₁, tight := htight₁
          sp := hsp₂, ach := hach₂, tlink := htlink₂
          unmatched := ⟨jstar, hjs1, hjs2, hjsu₁, hjsp⟩ }
      have hfuel₂ : unusedCount (used.set j0 true) n < fuel := by
        have := unusedCount_set used n j0 hII.j0le hj0len hII.j0unused
        omega
      obtain ⟨jr, ur, vr, wayr, hrec, hio⟩ := ih j1 u₁ v₁ way₁
        (used.set j0 true) minv₂ (j0 :: L) hII₂ husedL₁ hLcomp₁ hLb₁
        hLnd₁ hdesc₁ hfuel₂
      exact ⟨jr, ur, vr, wayr, hstepeq ▸ hrec, hio⟩

theorem hungarianAugment_main (matrix : List (List JsNum)) (n i : Nat)
    (u v : List JsNum) (way : List Nat) :
    ∀ (fuel : Nat) (S : List Nat) (j0 : Nat) (pcur : List Nat),
    DescWay way S → S.Nodup → (∀ c ∈ S, 1 ≤ c) → (∀ c ∈ S, c ≤ n) →
    1 ≤ j0 → j0 ≤ n → j0 ∉ S →
    way.getD j0 0 ∈ (0 : Nat) :: S →
    pcur.length = n + 1 →
    pcur.getD 0 0 = i →
    (∀ j, 1 ≤ j → j ≤ n → pcur.getD j 0 < i) →
    (∀ r, 1 ≤ r → r < i → ∃ j, 1 ≤ j ∧ j ≤ n ∧ pcur.getD j 0 = r) →
    (∀ j, 1 ≤ j → j ≤ n → pcur.getD j 0 ≠ 0 →
      atQ u (pcur.getD j 0) + atQ v j = entryQ matrix (pcur.getD j 0) j) →
    (∀ j j', 1 ≤ j → j ≤ n → 1 ≤ j' → j' ≤ n → j ≠ j' →
      pcur.getD j 0 ≠ 0 → pcur.getD j 0 = pcur.getD j' 0 →
      j = j0 ∨ j' = j0) →
    (pcur.getD j0 0 = 0 ∨ ∃ jd, 1 ≤ jd ∧ jd ≤ n ∧ jd ≠ j0 ∧ jd ∉ S ∧
      pcur.getD jd 0 = pcur.getD j0 0) →
    slackQ matrix u v (pcur.getD (way.getD j0 0) 0) j0 = 0 →
    (∀ c ∈ S, slackQ matrix u v (pcur.getD (way.getD c 0) 0) c = 0) →
    S.length < fuel →
    ∃ pr, hungarianAugment way fuel j0 pcur = some pr ∧
      pr.length = n + 1 ∧ pr.getD 0 0 = i ∧
      (∀ j, 1 ≤ j → j ≤ n → pr.getD j 0 ≤ i) ∧
      (∀ r, 1 ≤ r → r ≤ i → ∃ j, 1 ≤ j ∧ j ≤ n ∧ pr.getD j 0 = r) ∧
      (∀ j j', 1 ≤ j → j ≤ n → 1 ≤ j' → j' ≤ n → j ≠ j' →
        pr.getD j 0 ≠ 0 → pr.getD j 0 ≠ pr.getD j' 0) ∧
      (∀ j, 1 ≤ j → j ≤ n → pr.getD j 0 ≠ 0 →
        atQ u (pr.getD j 0) + atQ v j = entryQ matrix (pr.getD j 0) j) := by
  intro fuel
  induction fuel with
  | zero =>
    intro S j0 pcur _ _ _ _ _ _ _ _ _ _ _ _ _ _ _ _ _ hfuel
    exact absurd hfuel (by omega)
  | succ fuel ih =>
    intro S j0 pcur hdesc hSn hSpos hSle hj01 hj0n hj0S hlink hlen hp0
      hrange hsurj htight hainj hdup hTj0 hTS hfuel
    have hj0len : j0 < pcur.length := by omega
    rw [hungarianAugment]
    by_cases hj1 : way.getD j0 0 = 0
    · rw [hj1, if_pos rfl]
      refine ⟨pcur.set j0 (pcur.getD 0 0), rfl, by
        rw [List.length_set, hlen], ?_, ?_, ?_, ?_, ?_⟩
      · rw [getD_set_ne pcur _ 0 (by omega)]
        exact hp0
      · intro j h1 h2
        by_cases hjj : j = j0
        · subst hjj
          rw [getD_set_self pcur _ 0 hj0len, hp0]
        · rw [getD_set_ne pcur _ 0 (fun h => hjj h.symm)]
          exact le_of_lt (hrange j h1 h2)
      · intro r h1 h2
        rcases Nat.lt_or_ge r i with hri | hri
        · obtain ⟨j, hja, hjb, hjc⟩ := hsurj r h1 hri
          by_cases hjj : j = j0
          · subst hjj
            rcases hdup with hz | ⟨jd, hd1, hd2, hd3, -, hd5⟩
            · rw [hz] at hjc
              omega
            · refine ⟨jd, hd1, hd2, ?_⟩
              rw [getD_set_ne pcur _ 0 (fun h => hd3 h.symm), hd5, hjc]
          · exact ⟨j, hja, hjb, by
              rw [getD_set_ne pcur _ 0 (fun h => hjj h.symm)]
              exact hjc⟩
        · have hri' : r = i := by omega
          subst hri'
          exact ⟨j0, hj01, hj0n, by
            rw [getD_set_self pcur _ 0 hj0len, hp0]⟩
      · intro j j' h1 h2 h1' h2' hne hnz heq
        by_cases hjj : j = j0
        · rw [hjj] at heq
          rw [getD_set_self pcur _ 0 hj0len, hp0] at heq
          rw [getD_set_ne pcur _ 0 (fun h => hne (hjj.trans h))] at heq
          have := hrange j' h1' h2'
          omega
        · rw [getD_set_ne pcur _ 0 (fun h => hjj h.symm)] at heq hnz
          by_cases hjj' : j' = j0
          · rw [hjj'] at heq
            rw [getD_set_self pcur _ 0 hj0len, hp0] at heq
            have := hrange j h1 h2
            omega
          · rw [getD_set_ne pcur _ 0 (fun h => hjj' h.symm)] at heq
            rcases hainj j j' h1 h2 h1' h2' hne hnz heq with h | h
            · exact hjj h
            · exact hjj' h
      · intro j h1 h2 hnz
        by_cases hjj : j = j0
        · subst hjj
          rw [getD_set_self pcur _ 0 hj0len] at hnz ⊢
          rw [hj1] at hTj0
          rw [← slackQ_zero_iff]
          exact hTj0
        · rw [getD_set_ne pcur _ 0 (fun h => hjj h.symm)] at hnz ⊢
          exact htight j h1 h2 hnz
    · rw [if_neg hj1]
      have hj1S : way.getD j0 0 ∈ S := by
        rcases List.mem_cons.mp hlink with h | h
        · exact absurd h hj1
        · exact h
      obtain ⟨S₂, hd₂, hn₂, hsub₂, hni₂, hlink₂⟩ :=
        DescWay_suffix hdesc hSn hj1S
      have hj1a : 1 ≤ way.getD j0 0 := hSpos _ hj1S
      have hj1b : way.getD j0 0 ≤ n := hSle _ hj1S
      have hj1j0 : way.getD j0 0 ≠ j0 := fun h => hj0S (h ▸ hj1S)
      have hnotj0 : ∀ x, x ∈ (0 : Nat) :: S₂ → x ≠ j0 := by
        intro x hx hcon
        subst hcon
        rcases List.mem_cons.mp hx with h | h
        · omega
        · exact hj0S (hsub₂ x h)
      have hrange₂ : ∀ j, 1 ≤ j → j ≤ n →
          (pcur.set j0 (pcur.getD (way.getD j0 0) 0)).getD j 0 < i := by
        intro j h1 h2
        by_cases hjj : j = j0
        · subst hjj
          rw [getD_set_self pcur _ 0 hj0len]
          exact hrange _ hj1a hj1b
        · rw [getD_set_ne pcur _ 0 (fun h => hjj h.symm)]
          exact hrange j h1 h2
      have hsurj₂ : ∀ r, 1 ≤ r → r < i → ∃ j, 1 ≤ j ∧ j ≤ n ∧
          (pcur.set j0 (pcur.getD (way.getD j0 0) 0)).getD j 0 = r := by
        intro r h1 h2
        obtain ⟨j, hja, hjb, hjc⟩ := hsurj r h1 h2
        by_cases hjj : j = j0
        · subst hjj
          rcases hdup with hz | ⟨jd, hd1, hd2, hd3, -, hd5⟩
          · rw [hz] at hjc
            omega
          · refine ⟨jd, hd1, hd2, ?_⟩
            rw [getD_set_ne pcur _ 0 (fun h => hd3 h.symm), hd5, hjc]
        · exact ⟨j, hja, hjb, by
            rw [getD_set_ne pcur _ 0 (fun h => hjj h.symm)]
            exact hjc⟩
      have htight₂ : ∀ j, 1 ≤ j → j ≤ n →
          (pcur.set j0 (pcur.getD (way.getD j0 0) 0)).getD j 0 ≠ 0 →
          atQ u ((pcur.set j0 (pcur.getD (way.getD j0 0) 0)).getD j 0) +
            atQ v j = entryQ matrix
              ((pcur.set j0 (pcur.getD (way.getD j0 0) 0)).getD j 0) j := by
        intro j h1 h2 hnz
        by_cases hjj : j = j0
        · subst hjj
          rw [getD_set_self pcur _ 0 hj0len] at hnz ⊢
          rw [← slackQ_zero_iff]
          exact hTj0
        · rw [getD_set_ne pcur _ 0 (fun h => hjj h.symm)] at hnz ⊢
          exact htight j h1 h2 hnz
      have hainj₂ : ∀ j j', 1 ≤ j → j ≤ n → 1 ≤ j' → j' ≤ n → j ≠ j' →
          (pcur.set j0 (pcur.getD (way.getD j0 0) 0)).getD j 0 ≠ 0 →
          (pcur.set j0 (pcur.getD (way.getD j0 0) 0)).getD j 0 =
            (pcur.set j0 (pcur.getD (way.getD j0 0) 0)).getD j' 0 →
          j = way.getD j0 0 ∨ j' = way.getD j0 0 := by
        intro j j' h1 h2 h1' h2' hne hnz heq
        by_contra hcon
        rw [not_or] at hcon
        obtain ⟨hcj, hcj'⟩ := hcon
        by_cases hjj : j = j0
        · rw [hjj] at heq hnz
          rw [getD_set_self pcur _ 0 hj0len] at heq hnz
          rw [getD_set_ne pcur _ 0 (fun h => hne (hjj.trans h))] at heq
          rcases hainj (way.getD j0 0) j' hj1a hj1b h1' h2'
              (fun h => hcj' h.symm) hnz heq
            with h | h
          · exact hj1j0 h
          · exact hne (hjj.trans h.symm)
        · rw [getD_set_ne pcur _ 0 (fun h => hjj h.symm)] at heq hnz
          by_cases hjj' : j' = j0
          · rw [hjj'] at heq
            rw [getD_set_self pcur _ 0 hj0len] at heq
            rcases hainj j (way.getD j0 0) h1 h2 hj1a hj1b
                (fun h => hcj h) hnz heq with h | h
            · exact hjj h
            · exact hj1j0 h
          · rw [getD_set_ne pcur _ 0 (fun h => hjj' h.symm)] at heq
            rcases hainj j j' h1 h2 h1' h2' hne hnz heq with h | h
            · exact hjj h
            · exact hjj' h
      have hdup₂ :
          (pcur.set j0 (pcur.getD (way.getD j0 0) 0)).getD
            (way.getD j0 0) 0 = 0 ∨
          ∃ jd, 1 ≤ jd ∧ jd ≤ n ∧ jd ≠ way.getD j0 0 ∧ jd ∉ S₂ ∧
            (pcur.set j0 (pcur.getD (way.getD j0 0) 0)).getD jd 0 =
            (pcur.set j0 (pcur.getD (way.getD j0 0) 0)).getD
              (way.getD j0 0) 0 := by
        by_cases hz : pcur.getD (way.getD j0 0) 0 = 0
        · refine Or.inl ?_
          rw [getD_set_ne pcur _ 0 (fun h => hj1j0 h.symm)]
          exact hz
        · refine Or.inr ⟨j0, hj01, hj0n, fun h => hj1j0 h.symm,
            fun h => hj0S (hsub₂ j0 h), ?_⟩
          rw [getD_set_self pcur _ 0 hj0len,
            getD_set_ne pcur _ 0 (fun h => hj1j0 h.symm)]
      have hTj0₂ : slackQ matrix u v
          ((pcur.set j0 (pcur.getD (way.getD j0 0) 0)).getD
            (way.getD (way.getD j0 0) 0) 0) (way.getD j0 0) = 0 := by
        have hww : pcur.getD (way.getD (way.getD j0 0) 0) 0 =
            (pcur.set j0 (pcur.getD (way.getD j0 0) 0)).getD
              (way.getD (way.getD j0 0) 0) 0 := by
          rw [getD_set_ne pcur _ 0
            (fun h => hnotj0 _ hlink₂ h.symm)]
        rw [← hww]
        exact hTS _ hj1S
      have hTS₂ : ∀ c ∈ S₂, slackQ matrix u v
          ((pcur.set j0 (pcur.getD (way.getD j0 0) 0)).getD
            (way.getD c 0) 0) c = 0 := by
        intro c hc
        have hwc : way.getD c 0 ∈ (0 : Nat) :: S₂ := DescWay_mem hd₂ c hc
        rw [getD_set_ne pcur _ 0 (fun h => hnotj0 _ hwc h.symm)]
        exact hTS c (hsub₂ c hc)
      have hfuel₂ : S₂.length < fuel := by
        have := nodup_sub_length_lt hn₂ hSn hsub₂ hj1S hni₂
        omega
      exact ih S₂ (way.getD j0 0)
        (pcur.set j0 (pcur.getD (way.getD j0 0) 0))
        hd₂ hn₂ (fun c hc => hSpos c (hsub₂ c hc))
        (fun c hc => hSle c (hsub₂ c hc)) hj1a hj1b hni₂ hlink₂
        (by rw [List.length_set, hlen])
        (by rw [getD_set_ne pcur _ 0 (by omega)]; exact hp0)
        hrange₂ hsurj₂ htight₂ hainj₂ hdup₂ hTj0₂ hTS₂ hfuel₂

theorem hungarianRow_start (matrix : List (List JsNum)) (n : Nat)
    (hfm : FinMat matrix n) (hn1 : 1 ≤ n) (u v : List JsNum)
    (p way : List Nat) (i : Nat) (hi1 : 1 ≤ i) (hin : i ≤ n)
    (hP : PhaseInv matrix n i u v p way) :
    ∃ jr ur vr wayr,
      hungarianInner matrix n (n + 1 + 1) 0 u v (p.set 0 i) way
        (List.replicate (n + 1) false)
        (List.replicate (n + 1) JsNum.posInf) =
        some (jr, ur, vr, wayr) ∧
      InnerOut matrix n i (p.set 0 i) jr ur vr wayr := by
  have hp0len : (p.set 0 i).length = n + 1 := by
    rw [List.length_set, hP.plen]
  have hp00 : (p.set 0 i).getD 0 0 = i :=
    getD_set_self p i 0 (by rw [hP.plen]; omega)
  have hp0j : ∀ j, 1 ≤ j → (p.set 0 i).getD j 0 = p.getD j 0 := by
    intro j h1
    exact getD_set_ne p i 0 (by omega)
  have hp0range : ∀ j, 1 ≤ j → j ≤ n → (p.set 0 i).getD j 0 < i := by
    intro j h1 h2
    rw [hp0j j h1]
    exact hP.prange j h1 h2
  have hp0inj : ∀ j j', 1 ≤ j → j ≤ n → 1 ≤ j' → j' ≤ n → j ≠ j' →
      (p.set 0 i).getD j 0 ≠ 0 →
      (p.set 0 i).getD j 0 ≠ (p.set 0 i).getD j' 0 := by
    intro j j' h1 h2 h1' h2' hne hnz
    rw [hp0j j h1, hp0j j' h1'] at *
    exact hP.pinj j j' h1 h2 h1' h2' hne hnz
  have husedrep : ∀ j, j ≤ n →
      (List.replicate (n + 1) false).getD j false = false := by
    intro j hj
    exact getD_replicate false false (by omega)
  have hused0'0 : ((List.replicate (n + 1) false).set 0 true).getD 0 false =
      true :=
    getD_set_self _ true false (by rw [List.length_replicate]; omega)
  have hused0'j : ∀ j, 1 ≤ j → j ≤ n →
      ((List.replicate (n + 1) false).set 0 true).getD j false = false := by
    intro j h1 h2
    rw [getD_set_ne _ true false (by omega)]
    exact husedrep j h2
  have husedonly : ∀ c, c ≤ n →
      ((List.replicate (n + 1) false).set 0 true).getD c false = true →
      c = 0 := by
    intro c hc huc
    by_contra hne
    rw [hused0'j c (by omega) hc] at huc
    cases huc
  rcases hscan : hungarianScan matrix n ((p.set 0 i).getD 0 0) 0 u v
      ((List.replicate (n + 1) false).set 0 true)
      (List.replicate (n + 1) JsNum.posInf) way with ⟨minv₁, way₁, delta, j1⟩
  rcases happ : hungarianApplyDelta n delta (p.set 0 i) u v minv₁
      ((List.replicate (n + 1) false).set 0 true) with ⟨u₁, v₁, minv₂⟩
  have hun1 : hungarianInner matrix n (n + 1 + 1) 0 u v (p.set 0 i) way
      (List.replicate (n + 1) false)
      (List.replicate (n + 1) JsNum.posInf) =
      (match hungarianApplyDelta n delta (p.set 0 i) u v minv₁
          ((List.replicate (n + 1) false).set 0 true) with
       | (u₂, v₂, minv₃) =>
         if (p.set 0 i).getD j1 0 = 0 then some (j1, u₂, v₂, way₁)
         else hungarianInner matrix n (n + 1) j1 u₂ v₂ (p.set 0 i) way₁
           ((List.replicate (n + 1) false).set 0 true) minv₃) := by
    rw [hungarianInner, hscan]
  have hstepeq : hungarianInner matrix n (n + 1 + 1) 0 u v (p.set 0 i) way
      (List.replicate (n + 1) false)
      (List.replicate (n + 1) JsNum.posInf) =
      (if (p.set 0 i).getD j1 0 = 0 then some (j1, u₁, v₁, way₁)
       else hungarianInner matrix n (n + 1) j1 u₁ v₁ (p.set 0 i) way₁
         ((List.replicate (n + 1) false).set 0 true) minv₂) := by
    rw [hun1, happ]
  have hscanI := hungarianScan_main matrix n ((p.set 0 i).getD 0 0) 0 u v
    ((List.replicate (n + 1) false).set 0 true)
    (List.replicate (n + 1) JsNum.posInf) way
    (fun j h1 h2 => by
      rw [hp00]
      exact FinMat_costOf matrix n hfm i j hi1 hin)
    (by rw [hp00]; exact hP.ufin i hin)
    (fun j hj => hP.vfin j hj)
    (fun j h1 h2 hju => Or.inr (getD_replicate JsNum.posInf (JsNum.num 0)
      (by omega)))
    (by rw [List.length_replicate]) hP.wlen minv₁ way₁ delta j1 hscan
  obtain ⟨hmlen₁, hwlen₁, hperj, -, hupres, hsel⟩ := hscanI
  have hqv : ∀ j, 1 ≤ j → j ≤ n →
      (minv₁.getD j (JsNum.num 0)).isNum = true ∧
      qval (minv₁.getD j (JsNum.num 0)) =
        slackQ matrix u v ((p.set 0 i).getD 0 0) j ∧
      way₁.getD j 0 = 0 := by
    intro j h1 h2
    rcases hperj j h1 h2 (hused0'j j h1 h2) with hmem | hd
    · exact absurd hmem (List.not_mem_nil _)
    rcases hd.2 with ⟨ha, hb, -⟩ | ⟨hfin, -, -, -⟩
    · exact ⟨hd.1, ha, hb⟩
    · rw [getD_replicate JsNum.posInf (JsNum.num 0) (by omega)] at hfin
      cases hfin
  rcases hsel with ⟨-, -, hall⟩ | ⟨hj1a, hj1b, hj1u, -, hdeq, hdfin, hmin⟩
  · exact absurd (hall 1 le_rfl hn1 (hused0'j 1 le_rfl hn1))
      (List.not_mem_nil _)
  set dq := qval delta with hdqdef
  have hdq : delta = JsNum.num dq := num_qval hdfin
  have happI := hungarianApplyDelta_main n delta (p.set 0 i) u v minv₁
    ((List.replicate (n + 1) false).set 0 true)
    (fun c hc c' hc' huc huc' hne => by
      rw [husedonly c hc huc, husedonly c' hc' huc'] at hne
      exact absurd rfl hne)
    (fun c hc huc => by
      rw [husedonly c hc huc, hp00, hP.ulen]
      omega)
    (fun c hc huc => by rw [hP.vlen]; omega)
    (fun c hc huc => by rw [hmlen₁]; omega)
    u₁ v₁ minv₂ happ
  obtain ⟨hG1, hG2, hG3, hA, hB, hC, hD, hE, hF⟩ := happI
  have hu₁i : u₁.getD i (JsNum.num 0) = (u.getD i (JsNum.num 0)).add delta := by
    have := hA 0 (by omega) hused0'0
    rw [hp00] at this
    exact this
  have hu₁keep : ∀ r, r ≠ i →
      u₁.getD r (JsNum.num 0) = u.getD r (JsNum.num 0) := by
    intro r hr
    exact hB r (fun c hc huc => by
      rw [husedonly c hc huc, hp00]
      exact fun h => hr h.symm)
  have hv₁j : ∀ j, 1 ≤ j →
      v₁.getD j (JsNum.num 0) = v.getD j (JsNum.num 0) := by
    intro j h1
    exact hD j (fun c hc huc => by
      rw [husedonly c hc huc]
      omega)
  have hm₂ : ∀ j, 1 ≤ j → j ≤ n →
      minv₂.getD j (JsNum.num 0) =
        (minv₁.getD j (JsNum.num 0)).sub delta := by
    intro j h1 h2
    exact hE j h2 (hused0'j j h1 h2)
  have hui0 : u.getD i (JsNum.num 0) = JsNum.num 0 := hP.uzero i le_rfl hin
  have hatu₁i : atQ u₁ i = dq := by
    unfold atQ
    rw [hu₁i, hui0, hdq, add_num_num, qval_num]
    ring
  have hatm₂ : ∀ j, 1 ≤ j → j ≤ n →
      qval (minv₂.getD j (JsNum.num 0)) =
        qval (minv₁.getD j (JsNum.num 0)) - dq := by
    intro j h1 h2
    rw [hm₂ j h1 h2, hdq, qval_sub_num dq (hqv j h1 h2).1]
  have hmfin₂ : ∀ j, 1 ≤ j → j ≤ n →
      (minv₂.getD j (JsNum.num 0)).isNum = true := by
    intro j h1 h2
    rw [hm₂ j h1 h2, hdq]
    exact isNum_sub_num dq (hqv j h1 h2).1
  have hminle : ∀ j, 1 ≤ j → j ≤ n →
      dq ≤ qval (minv₁.getD j (JsNum.num 0)) := by
    intro j h1 h2
    rcases hmin j h1 h2 (hused0'j j h1 h2) with hmem | hle
    · exact absurd hmem (List.not_mem_nil _)
    · exact hle
  have hufin₁ : ∀ r, r ≤ n → (u₁.getD r (JsNum.num 0)).isNum = true := by
    intro r hr
    by_cases hri : r = i
    · rw [hri, hu₁i, hdq]
      exact isNum_add_num dq (hP.ufin i hin)
    · rw [hu₁keep r hri]
      exact hP.ufin r hr
  have hvfin₁ : ∀ j, j ≤ n → (v₁.getD j (JsNum.num 0)).isNum = true := by
    intro j hj
    rcases Nat.eq_zero_or_pos j with rfl | h1
    · rw [hC 0 (by omega) hused0'0, hdq]
      exact isNum_sub_num dq (hP.vfin 0 (by omega))
    · rw [hv₁j j h1]
      exact hP.vfin j hj
  have huzhigh₁ : ∀ r, i < r → r ≤ n →
      u₁.getD r (JsNum.num 0) = JsNum.num 0 := by
    intro r hri hrn
    rw [hu₁keep r (by omega)]
    exact hP.uzero r (by omega) hrn
  have hslack₁ : ∀ j, 1 ≤ j → j ≤ n →
      slackQ matrix u₁ v₁ ((p.set 0 i).getD 0 0) j =
        qval (minv₂.getD j (JsNum.num 0)) := by
    intro j h1 h2
    have h0 := (hqv j h1 h2).2.1
    unfold slackQ at h0 ⊢
    rw [hp00] at h0 ⊢
    rw [hatu₁i, hatm₂ j h1 h2]
    have hveq : atQ v₁ j = atQ v j := by
      unfold atQ
      rw [hv₁j j h1]
    have hueq : atQ u i = 0 := by
      unfold atQ
      rw [hui0, qval_num]
    rw [hveq]
    rw [hueq] at h0
    linarith
  have hfeas₁ : ∀ r j, 1 ≤ r → r ≤ i → 1 ≤ j → j ≤ n →
      atQ u₁ r + atQ v₁ j ≤ entryQ matrix r j := by
    intro r j hr1 hri hj1 hjn
    have hveq : atQ v₁ j = atQ v j := by
      unfold atQ
      rw [hv₁j j hj1]
    rw [hveq]
    by_cases hr : r = i
    · rw [hr, hatu₁i]
      have h0 := (hqv j hj1 hjn).2.1
      unfold slackQ at h0
      rw [hp00] at h0
      have hueq : atQ u i = 0 := by
        unfold atQ
        rw [hui0, qval_num]
      rw [hueq] at h0
      have := hminle j hj1 hjn
      linarith
    · have hueq : atQ u₁ r = atQ u r := by
        unfold atQ
        rw [hu₁keep r hr]
      rw [hueq]
      exact hP.feas r j hr1 (by omega) hj1 hjn
  have htight₁ : ∀ j, 1 ≤ j → j ≤ n → (p.set 0 i).getD j 0 ≠ 0 →
      atQ u₁ ((p.set 0 i).getD j 0) + atQ v₁ j =
        entryQ matrix ((p.set 0 i).getD j 0) j := by
    intro j h1 h2 hnz
    rw [hp0j j h1] at hnz ⊢
    have hlt := hP.prange j h1 h2
    have hueq : atQ u₁ (p.getD j 0) = atQ u (p.getD j 0) := by
      unfold atQ
      rw [hu₁keep (p.getD j 0) (by omega)]
    have hveq : atQ v₁ j = atQ v j := by
      unfold atQ
      rw [hv₁j j h1]
    rw [hueq, hveq]
    exact hP.tight j h1 h2 hnz
  have hjzero₂ : qval (minv₂.getD j1 (JsNum.num 0)) = 0 := by
    rw [hatm₂ j1 hj1a hj1b, hdqdef, hdeq]
    ring
  by_cases hret : (p.set 0 i).getD j1 0 = 0
  · rw [if_pos hret] at hstepeq
    refine ⟨j1, u₁, v₁, way₁, hstepeq,
      { jr1 := hj1a, jrn := hj1b, pjr := hret
        ulen := by rw [hG1, hP.ulen]
        vlen := by rw [hG2, hP.vlen]
        wlen := hwlen₁
        ufin := hufin₁, vfin := hvfin₁, uzhigh := huzhigh₁
        feas := hfeas₁, tight := htight₁
        walk := ⟨[], List.nodup_nil, fun c hc => absurd hc
          (List.not_mem_nil c), trivial, List.not_mem_nil j1, ?_, fun c hc =>
          absurd hc (List.not_mem_nil c), ?_⟩ }⟩
    · rw [(hqv j1 hj1a hj1b).2.2]
      exact List.mem_cons_self 0 []
    · rw [(hqv j1 hj1a hj1b).2.2, hslack₁ j1 hj1a hj1b, hjzero₂]
  · rw [if_neg hret] at hstepeq
    have hII₂ : InnerInv matrix n i (p.set 0 i) j1 u₁ v₁ way₁
        ((List.replicate (n + 1) false).set 0 true) minv₂ :=
      { ulen := by rw [hG1, hP.ulen]
        vlen := by rw [hG2, hP.vlen]
        wlen := hwlen₁
        uslen := by rw [List.length_set, List.length_replicate]
        mlen := by rw [hG3, hmlen₁]
        j0pos := hj1a, j0le := hj1b, j0unused := hj1u, j0p := hret
        j0zero := hjzero₂
        used0 := hused0'0
        usedp := fun c h1 h2 hc => absurd (husedonly c h2 hc) (by omega)
        ufin := hufin₁, vfin := hvfin₁, uzhigh := huzhigh₁
        mfin := fun j h1 h2 _ => hmfin₂ j h1 h2
        mnonneg := fun j h1 h2 _ => by
          rw [hatm₂ j h1 h2]
          have := hminle j h1 h2
          linarith
        feas := hfeas₁, tight := htight₁
        sp := fun j h1 h2 _ c hc huc => by
          rw [husedonly c hc huc, hslack₁ j h1 h2]
        ach := fun j h1 h2 _ => by
          rw [(hqv j h1 h2).2.2]
          exact ⟨by omega, hused0'0, (hslack₁ j h1 h2).symm⟩
        tlink := fun c h1 h2 hc => absurd (husedonly c h2 hc) (by omega)
        unmatched := by
          by_contra hno
          refine matched_cols_pigeonhole (p.set 0 i) n i hn1 hin ?_
            hp0range hp0inj
          intro j h1 h2 hz
          exact hno ⟨j, h1, h2, hused0'j j h1 h2, hz⟩ }
    have hfuel₂ : unusedCount ((List.replicate (n + 1) false).set 0 true) n <
        n + 1 := by
      have hlt := unusedCount_set (List.replicate (n + 1) false) n 0
        (by omega) (by rw [List.length_replicate]; omega)
        (husedrep 0 (by omega))
      have hle : unusedCount (List.replicate (n + 1) false) n ≤ n + 1 := by
        unfold unusedCount
        calc ((List.range (n + 1)).filter fun c =>
            ! (List.replicate (n + 1) false).getD c false).length
            ≤ (List.range (n + 1)).length := List.length_filter_le _ _
          _ = n + 1 := List.length_range _
      omega
    obtain ⟨jr, ur, vr, wayr, hrec, hio⟩ := hungarianInner_main matrix n i
      (p.set 0 i) hfm hi1 hin hp0len hp00 hp0range hp0inj (n + 1) j1 u₁ v₁
      way₁ ((List.replicate (n + 1) false).set 0 true) minv₂ []
      hII₂ (fun c hc => absurd hc (List.not_mem_nil c))
      (fun c h1 h2 hc => absurd (husedonly c h2 hc) (by omega))
      (fun c hc => absurd hc (List.not_mem_nil c))
      List.nodup_nil trivial hfuel₂
    exact ⟨jr, ur, vr, wayr, hstepeq ▸ hrec, hio⟩

theorem hungarianRow_main (matrix : List (List JsNum)) (n : Nat)
    (hfm : FinMat matrix n) (hn1 : 1 ≤ n) (u v : List JsNum)
    (p way : List Nat) (i : Nat) (hi1 : 1 ≤ i) (hin : i ≤ n)
    (hP : PhaseInv matrix n i u v p way) :
    ∃ ur vr pr wayr,
      hungarianRow matrix n (u, v, p, way) i = some (ur, vr, pr, wayr) ∧
      PhaseInv matrix n (i + 1) ur vr pr wayr := by
  obtain ⟨jr, ur, vr, wayr, hstart, hio⟩ :=
    hungarianRow_start matrix n hfm hn1 u v p way i hi1 hin hP
  have hstart₂ : hungarianInner matrix n (n + 2) 0 u v (p.set 0 i) way
      (List.replicate (n + 1) false)
      (List.replicate (n + 1) JsNum.posInf) =
      some (jr, ur, vr, wayr) := hstart
  obtain ⟨L, hLnd, hLb, hdesc, hjrL, hlinkjr, htL, htjr⟩ := hio.walk
  have hp00 : (p.set 0 i).getD 0 0 = i :=
    getD_set_self p i 0 (by rw [hP.plen]; omega)
  have hp0j : ∀ j, 1 ≤ j → (p.set 0 i).getD j 0 = p.getD j 0 := by
    intro j h1
    exact getD_set_ne p i 0 (by omega)
  obtain ⟨pr, haug, hprlen, hpr0, hprrange, hprsurj, hprinj, hprtight⟩ :=
    hungarianAugment_main matrix n i ur vr wayr (n + 2) L jr (p.set 0 i)
      hdesc hLnd (fun c hc => (hLb c hc).1) (fun c hc => (hLb c hc).2)
      hio.jr1 hio.jrn hjrL hlinkjr
      (by rw [List.length_set, hP.plen]) hp00
      (fun j h1 h2 => by
        rw [hp0j j h1]
        exact hP.prange j h1 h2)
      (fun r h1 h2 => by
        obtain ⟨j, hja, hjb, hjc⟩ := hP.psurj r h1 h2
        exact ⟨j, hja, hjb, by rw [hp0j j hja]; exact hjc⟩)
      hio.tight
      (fun j j' h1 h2 h1' h2' hne hnz heq => by
        rw [hp0j j h1] at heq hnz
        rw [hp0j j' h1'] at heq
        exact absurd heq (hP.pinj j j' h1 h2 h1' h2' hne hnz))
      (Or.inl hio.pjr) htjr htL
      (by
        have := cols_length_le L n hLnd hLb
        omega)
  refine ⟨ur, vr, pr, wayr, ?_, ?_⟩
  · have h1 : hungarianRow matrix n (u, v, p, way) i =
        (match hungarianAugment wayr (n + 2) jr (p.set 0 i) with
         | none => none
         | some p₂ => some (ur, vr, p₂, wayr)) := by
      show (match hungarianInner matrix n (n + 2) 0 u v (p.set 0 i) way
          (List.replicate (n + 1) false)
          (List.replicate (n + 1) JsNum.posInf) with
        | none => none
        | some (j0, u₂, v₂, way₂) =>
          match hungarianAugment way₂ (n + 2) j0 (p.set 0 i) with
          | none => none
          | some p₂ => some (u₂, v₂, p₂, way₂)) =
        (match hungarianAugment wayr (n + 2) jr (p.set 0 i) with
         | none => none
         | some p₂ => some (ur, vr, p₂, wayr))
      rw [hstart₂]
    rw [h1, haug]
  · exact
      { ulen := hio.ulen, vlen := hio.vlen, plen := hprlen
        wlen := hio.wlen
        ufin := hio.ufin, vfin := hio.vfin
        uzero := fun r hr1 hr2 => hio.uzhigh r (by omega) hr2
        prange := fun j h1 h2 => by
          have := hprrange j h1 h2
          omega
        pinj := hprinj
        psurj := fun r h1 h2 => hprsurj r h1 (by omega)
        feas := fun r j hr1 hr2 hj1 hj2 =>
          hio.feas r j hr1 (by omega) hj1 hj2
        tight := hprtight }

theorem hungarianRows_main (matrix : List (List JsNum)) (n : Nat)
    (hfm : FinMat matrix n) (hn1 : 1 ≤ n) :
    ∀ k, k ≤ n →
    ∃ u v p way,
      (List.range k).foldl
        (fun acc im => acc.bind fun st => hungarianRow matrix n st (im + 1))
        (some (List.replicate (n + 1) (JsNum.num 0),
               List.replicate (n + 1) (JsNum.num 0),
               List.replicate (n + 1) 0, List.replicate (n + 1) 0)) =
        some (u, v, p, way) ∧
      PhaseInv matrix n (k + 1) u v p way := by
  intro k
  induction k with
  | zero =>
    intro _
    refine ⟨_, _, _, _, rfl, ?_⟩
    have hz : ∀ j : Nat, j ≤ n →
        (List.replicate (n + 1) (0 : Nat)).getD j 0 = 0 :=
      fun j hj => getD_replicate 0 0 (by omega)
    exact
      { ulen := List.length_replicate _ _
        vlen := List.length_replicate _ _
        plen := List.length_replicate _ _
        wlen := List.length_replicate _ _
        ufin := fun r hr => by
          rw [getD_replicate (JsNum.num 0) (JsNum.num 0) (by omega)]
          rfl
        vfin := fun j hj => by
          rw [getD_replicate (JsNum.num 0) (JsNum.num 0) (by omega)]
          rfl
        uzero := fun r hr1 hr2 =>
          getD_replicate (JsNum.num 0) (JsNum.num 0) (by omega)
        prange := fun j h1 h2 => by
          rw [hz j h2]
          omega
        pinj := fun j j' h1 h2 h1' h2' hne hnz => absurd (hz j h2) hnz
        psurj := fun r h1 h2 => absurd h2 (by omega)
        feas := fun r j h1 h2 => absurd h2 (by omega)
        tight := fun j h1 h2 hnz => absurd (hz j h2) hnz }
  | succ k ih =>
    intro hk
    obtain ⟨u, v, p, way, hfold, hP⟩ := ih (by omega)
    obtain ⟨ur, vr, pr, wayr, hrow, hP₂⟩ := hungarianRow_main matrix n hfm
      hn1 u v p way (k + 1) (by omega) hk hP
    refine ⟨ur, vr, pr, wayr, ?_, hP₂⟩
    rw [List.range_succ, List.foldl_append, List.foldl_cons, List.foldl_nil,
      hfold]
    exact hrow

theorem all_cols_matched (p : List Nat) (n : Nat) (hn1 : 1 ≤ n)
    (hsurj : ∀ r, 1 ≤ r → r ≤ n → ∃ j, 1 ≤ j ∧ j ≤ n ∧ p.getD j 0 = r) :
    ∀ j, 1 ≤ j → j ≤ n → p.getD j 0 ≠ 0 := by
  intro j0 hj01 hj0n hz
  have hsub : ∀ x ∈ List.range (n + 1),
      x ∈ (List.range n).map fun jm => p.getD (jm + 1) 0 := by
    intro x hx
    have hxn := List.mem_range.mp hx
    rcases Nat.eq_zero_or_pos x with rfl | hx1
    · exact List.mem_map.mpr ⟨j0 - 1, List.mem_range.mpr (by omega),
        by rw [show j0 - 1 + 1 = j0 by omega]; exact hz⟩
    · obtain ⟨j, hja, hjb, hjc⟩ := hsurj x hx1 (by omega)
      exact List.mem_map.mpr ⟨j - 1, List.mem_range.mpr (by omega),
        by rw [show j - 1 + 1 = j by omega]; exact hjc⟩
  have := nodup_sub_length_le (List.nodup_range (n + 1)) hsub
  simp only [List.length_range, List.length_map] at this
  omega

theorem extractStep_length (p : List Nat) (res : List Int) (jm : Nat) :
    (hungarianExtractStep p res jm).length = res.length := by
  unfold hungarianExtractStep
  split
  · rw [List.length_set]
  · rfl

theorem extractFold_length (p : List Nat) :
    ∀ (js : List Nat) (res : List Int),
    (js.foldl (hungarianExtractStep p) res).length = res.length := by
  intro js
  induction js with
  | nil => intro res; rfl
  | cons jm js ih =>
    intro res
    rw [List.foldl_cons, ih, extractStep_length]

theorem extractFold_skip (p : List Nat) :
    ∀ (js : List Nat) (res : List Int) (i : Nat),
    (∀ jm ∈ js, p.getD (jm + 1) 0 ≠ i + 1) →
    (js.foldl (hungarianExtractStep p) res).getD i (-1) =
      res.getD i (-1) := by
  intro js
  induction js with
  | nil => intro res i _; rfl
  | cons jm js ih =>
    intro res i hns
    rw [List.foldl_cons,
      ih _ i (fun x hx => hns x (List.mem_cons_of_mem jm hx))]
    unfold hungarianExtractStep
    by_cases hpos : 0 < p.getD (jm + 1) 0
    · rw [if_pos hpos]
      refine getD_set_int _ _ _ _ _ ▸ ?_
      rw [if_neg ?_]
      intro ⟨h1, h2⟩
      exact hns jm (List.mem_cons_self jm js) (by omega)
    · rw [if_neg hpos]

theorem extractFold_write (p : List Nat) (n : Nat) :
    ∀ (js : List Nat) (res : List Int) (i j : Nat),
    (j - 1) ∈ js → 1 ≤ j → j ≤ n → p.getD j 0 = i + 1 →
    i < res.length →
    (∀ jm ∈ js, p.getD (jm + 1) 0 = i + 1 → jm = j - 1) →
    (js.foldl (hungarianExtractStep p) res).getD i (-1) = (j : Int) - 1 := by
  intro js
  induction js with
  | nil =>
    intro res i j hmem
    exact absurd hmem (List.not_mem_nil _)
  | cons jm js ih =>
    intro res i j hmem h1 h2 hpj hilen huniq
    rw [List.foldl_cons]
    by_cases hjm : jm = j - 1
    · by_cases hagain : (j - 1) ∈ js
      · exact ih _ i j hagain h1 h2 hpj
          (by rw [extractStep_length]; exact hilen)
          (fun x hx => huniq x (List.mem_cons_of_mem jm hx))
      · rw [extractFold_skip p js _ i (fun x hx hcon => hagain (by
          rw [← huniq x (List.mem_cons_of_mem jm hx) hcon]
          exact hx))]
        unfold hungarianExtractStep
        have hjmj : jm + 1 = j := by omega
        rw [hjmj, hpj, if_pos (by omega)]
        rw [show i + 1 - 1 = i by omega]
        rw [getD_set_self _ _ _ hilen]
        push_cast
        omega
    · rcases List.mem_cons.mp hmem with hh | hh
      · exact absurd hh.symm hjm
      · exact ih _ i j hh h1 h2 hpj
          (by rw [extractStep_length]; exact hilen)
          (fun x hx => huniq x (List.mem_cons_of_mem jm hx))

theorem hungarianAlgorithm_main (matrix : List (List JsNum)) (n : Nat)
    (hfm : FinMat matrix n) (hn1 : 1 ≤ n) :
    ∃ (asg : List Int) (u v : List JsNum) (p : List Nat),
      hungarianAlgorithm matrix = some asg ∧
      asg.length = n ∧
      (∀ r j, 1 ≤ r → r ≤ n → 1 ≤ j → j ≤ n →
        atQ u r + atQ v j ≤ entryQ matrix r j) ∧
      (∀ j, 1 ≤ j → j ≤ n → p.getD j 0 ≠ 0 →
        atQ u (p.getD j 0) + atQ v j = entryQ matrix (p.getD j 0) j) ∧
      (∀ i, i < n → ∃ j, 1 ≤ j ∧ j ≤ n ∧ p.getD j 0 = i + 1 ∧
        asg.getD i (-1) = (j : Int) - 1) := by
  obtain ⟨u, v, p, way, hfold, hP⟩ :=
    hungarianRows_main matrix n hfm hn1 n le_rfl
  obtain ⟨hmlen, hsq, hfin⟩ := hfm
  have hmatched : ∀ j, 1 ≤ j → j ≤ n → p.getD j 0 ≠ 0 :=
    all_cols_matched p n hn1 (fun r h1 h2 => hP.psurj r h1 (by omega))
  refine ⟨(List.range n).foldl (hungarianExtractStep p)
      (List.replicate n (-1 : Int)), u, v, p, ?_, ?_, ?_, ?_, ?_⟩
  · unfold hungarianAlgorithm
    rw [hmlen, if_neg (by omega), hfold]
  · rw [extractFold_length, List.length_replicate]
  · intro r j h1 h2 h1' h2'
    exact hP.feas r j h1 (by omega) h1' h2'
  · exact hP.tight
  · intro i hi
    obtain ⟨j, hja, hjb, hjc⟩ := hP.psurj (i + 1) (by omega) (by omega)
    refine ⟨j, hja, hjb, hjc, ?_⟩
    refine extractFold_write p n (List.range n)
      (List.replicate n (-1 : Int)) i j
      (List.mem_range.mpr (by omega)) hja hjb hjc
      (by rw [List.length_replicate]; exact hi) ?_
    intro jm hjm hval
    have hjmn := List.mem_range.mp hjm
    by_contra hne
    refine hP.pinj (jm + 1) j (by omega) (by omega) hja hjb (by omega)
      (by rw [hval]; omega) ?_
    rw [hval, hjc]

theorem sum_comp_inj (f : Nat → ℚ) (tau : Nat → Nat) (n : Nat)
    (hb : ∀ i, i < n → tau i < n)
    (hinj : ∀ i i', i < n → i' < n → tau i = tau i' → i = i') :
    ∑ i ∈ Finset.range n, f (tau i) = ∑ j ∈ Finset.range n, f j := by
  have hinj' : ∀ x ∈ Finset.range n, ∀ y ∈ Finset.range n,
      tau x = tau y → x = y := fun x hx y hy =>
    hinj x y (Finset.mem_range.mp hx) (Finset.mem_range.mp hy)
  have himg : (Finset.range n).image tau = Finset.range n := by
    refine Finset.eq_of_subset_of_card_le ?_ ?_
    · intro x hx
      rcases Finset.mem_image.mp hx with ⟨i, hi, rfl⟩
      exact Finset.mem_range.mpr (hb i (Finset.mem_range.mp hi))
    · rw [Finset.card_image_of_injOn
        (fun a ha b hb' hab => hinj' a (by simpa using ha) b
          (by simpa using hb') hab)]
  calc ∑ i ∈ Finset.range n, f (tau i)
      = ∑ j ∈ (Finset.range n).image tau, f j :=
        (Finset.sum_image hinj').symm
    _ = ∑ j ∈ Finset.range n, f j := by rw [himg]

theorem entryQ_term (matrix : List (List JsNum)) (i jm : Nat) :
    entryQ matrix (i + 1) (jm + 1) =
      qval ((matrix.getD i []).getD jm (JsNum.num 0)) := by
  unfold entryQ
  rw [Nat.add_sub_cancel, Nat.add_sub_cancel]

/-- C3: on every n-by-n cost matrix with finite entries (n ≥ 1), the
embedded `hungarianAlgorithm` terminates and returns an array of length n
that is a permutation of {0, …, n-1} (every entry is a valid column index,
no -1 remains, and entries are pairwise distinct), and the total cost of
the selected entries is minimal among all perfect matchings (all injective
assignments of rows to columns).  Proved by the primal–dual invariant of
the e-maxx Hungarian loop: exact rational potentials stay dual-feasible,
all matched edges stay tight, each Dijkstra phase maintains exact
shortest-path labels, and every augmentation extends the matching by the
current row, so the final potentials certify optimality. -/
theorem hungarianAlgorithm_min_cost_permutation (matrix : List (List JsNum))
    (n : Nat) (hn : matrix.length = n) (hn1 : 1 ≤ n)
    (hsq : ∀ row ∈ matrix, row.length = n)
    (hfin : ∀ row ∈ matrix, ∀ c ∈ row, c.isNum = true) :
    ∃ asg : List Int,
      hungarianAlgorithm matrix = some asg ∧
      asg.length = n ∧
      (∀ i, i < n → 0 ≤ asg.getD i (-1) ∧ asg.getD i (-1) < (n : Int)) ∧
      (∀ i i', i < n → i' < n → i ≠ i' →
        asg.getD i (-1) ≠ asg.getD i' (-1)) ∧
      (∀ sigma : Nat → Nat, (∀ i, i < n → sigma i < n) →
        (∀ i i', i < n → i' < n → sigma i = sigma i' → i = i') →
        (∑ i ∈ Finset.range n,
          qval ((matrix.getD i []).getD (asg.getD i (-1)).toNat
            (JsNum.num 0))) ≤
        ∑ i ∈ Finset.range n,
          qval ((matrix.getD i []).getD (sigma i) (JsNum.num 0))) := by
  obtain ⟨asg, u, v, p, halg, hlen, hfeas, htight, hlink⟩ :=
    hungarianAlgorithm_main matrix n ⟨hn, hsq, hfin⟩ hn1
  refine ⟨asg, halg, hlen, ?_, ?_, ?_⟩
  · intro i hi
    obtain ⟨j, hja, hjb, -, hjd⟩ := hlink i hi
    rw [hjd]
    omega
  · intro i i' hi hi' hne
    obtain ⟨j, hja, hjb, hjc, hjd⟩ := hlink i hi
    obtain ⟨j', hja', hjb', hjc', hjd'⟩ := hlink i' hi'
    rw [hjd, hjd']
    have hjne : j ≠ j' := by
      intro h
      rw [h, hjc'] at hjc
      omega
    omega
  · intro sigma hsb hsinj
    have htau : ∀ i, i < n → ∃ j, 1 ≤ j ∧ j ≤ n ∧ p.getD j 0 = i + 1 ∧
        (asg.getD i (-1)).toNat = j - 1 := by
      intro i hi
      obtain ⟨j, hja, hjb, hjc, hjd⟩ := hlink i hi
      exact ⟨j, hja, hjb, hjc, by rw [hjd]; omega⟩
    have htaub : ∀ i, i < n → (asg.getD i (-1)).toNat < n := by
      intro i hi
      obtain ⟨j, hja, hjb, -, hjd⟩ := htau i hi
      omega
    have htauinj : ∀ i i', i < n → i' < n →
        (asg.getD i (-1)).toNat = (asg.getD i' (-1)).toNat → i = i' := by
      intro i i' hi hi' heq
      obtain ⟨j, hja, hjb, hjc, hjd⟩ := htau i hi
      obtain ⟨j', hja', hjb', hjc', hjd'⟩ := htau i' hi'
      have : j = j' := by omega
      rw [this, hjc'] at hjc
      omega
    have hterm : ∀ i ∈ Finset.range n,
        qval ((matrix.getD i []).getD (asg.getD i (-1)).toNat
          (JsNum.num 0)) =
        atQ u (i + 1) + atQ v ((asg.getD i (-1)).toNat + 1) := by
      intro i hi
      have hin := Finset.mem_range.mp hi
      obtain ⟨j, hja, hjb, hjc, hjd⟩ := htau i hin
      have hjval : (asg.getD i (-1)).toNat + 1 = j := by omega
      rw [← entryQ_term, hjval]
      have := htight j hja hjb (by rw [hjc]; omega)
      rw [hjc] at this
      exact this.symm
    have htermS : ∀ i ∈ Finset.range n,
        atQ u (i + 1) + atQ v (sigma i + 1) ≤
        qval ((matrix.getD i []).getD (sigma i) (JsNum.num 0)) := by
      intro i hi
      have hin := Finset.mem_range.mp hi
      rw [← entryQ_term]
      exact hfeas (i + 1) (sigma i + 1) (by omega) (by omega) (by omega)
        (by have := hsb i hin; omega)
    have hv1 : ∑ i ∈ Finset.range n,
        atQ v ((asg.getD i (-1)).toNat + 1) =
        ∑ j ∈ Finset.range n, atQ v (j + 1) :=
      sum_comp_inj (fun x => atQ v (x + 1)) (fun i => (asg.getD i (-1)).toNat)
        n htaub htauinj
    have hv2 : ∑ i ∈ Finset.range n, atQ v (sigma i + 1) =
        ∑ j ∈ Finset.range n, atQ v (j + 1) :=
      sum_comp_inj (fun x => atQ v (x + 1)) sigma n hsb hsinj
    calc ∑ i ∈ Finset.range n,
          qval ((matrix.getD i []).getD (asg.getD i (-1)).toNat
            (JsNum.num 0))
        = ∑ i ∈ Finset.range n,
            (atQ u (i + 1) + atQ v ((asg.getD i (-1)).toNat + 1)) :=
          Finset.sum_congr rfl hterm
      _ = (∑ i ∈ Finset.range n, atQ u (i + 1)) +
            ∑ i ∈ Finset.range n, atQ v ((asg.getD i (-1)).toNat + 1) :=
          Finset.sum_add_distrib
      _ = (∑ i ∈ Finset.range n, atQ u (i + 1)) +
            ∑ i ∈ Finset.range n, atQ v (sigma i + 1) := by
          rw [hv1, hv2]
      _ = ∑ i ∈ Finset.range n,
            (atQ u (i + 1) + atQ v (sigma i + 1)) :=
          Finset.sum_add_distrib.symm
      _ ≤ ∑ i ∈ Finset.range n,
            qval ((matrix.getD i []).getD (sigma i) (JsNum.num 0)) :=
          Finset.sum_le_sum htermS

theorem hungarianAlgorithm_min_cost_permutation_witness :
    (([[JsNum.num 3, JsNum.num 1],
       [JsNum.num 1, JsNum.num 3]] : List (List JsNum)).length = 2 ∧
     (1 : Nat) ≤ 2 ∧
     (∀ row ∈ ([[JsNum.num 3, JsNum.num 1],
        [JsNum.num 1, JsNum.num 3]] : List (List JsNum)), row.length = 2) ∧
     (∀ row ∈ ([[JsNum.num 3, JsNum.num 1],
        [JsNum.num 1, JsNum.num 3]] : List (List JsNum)), ∀ c ∈ row,
        JsNum.isNum c = true)) ∧
    (∃ asg : List Int,
      hungarianAlgorithm [[JsNum.num 3, JsNum.num 1],
        [JsNum.num 1, JsNum.num 3]] = some asg ∧
      asg.length = 2 ∧
      (∀ i, i < 2 → 0 ≤ asg.getD i (-1) ∧ asg.getD i (-1) < (2 : Int)) ∧
      (∀ i i', i < 2 → i' < 2 → i ≠ i' →
        asg.getD i (-1) ≠ asg.getD i' (-1)) ∧
      (∀ sigma : Nat → Nat, (∀ i, i < 2 → sigma i < 2) →
        (∀ i i', i < 2 → i' < 2 → sigma i = sigma i' → i = i') →
        (∑ i ∈ Finset.range 2,
          qval (([[JsNum.num 3, JsNum.num 1],
            [JsNum.num 1, JsNum.num 3]].getD i []).getD
            (asg.getD i (-1)).toNat (JsNum.num 0))) ≤
        ∑ i ∈ Finset.range 2,
          qval (([[JsNum.num 3, JsNum.num 1],
            [JsNum.num 1, JsNum.num 3]].getD i []).getD (sigma i)
            (JsNum.num 0)))) :=
  ⟨⟨rfl, by omega, by decide, by decide⟩,
   hungarianAlgorithm_min_cost_permutation
     [[JsNum.num 3, JsNum.num 1], [JsNum.num 1, JsNum.num 3]] 2 rfl
     (by omega) (by decide) (by decide)⟩

end TaxiDemo
